import Mathlib

/-!
# ros_driver_base: the packet-framing engine of `Driver` (src/src/driver.cpp)

A shallow embedding of the framing engine and a verification of its
specification.

Conventions of the embedding

* A byte (`uint8_t`) is a natural number; the engine never computes with byte
  values, it only moves them.
* `int` values are mathematical integers.  As long as the extractor's skips
  stay within the slice it is given, every `int` of the engine is a length or an
  offset bounded by `MAX_PACKET_SIZE`, itself an `int`, and this is the
  program.  What the program does after a skip beyond the slice, where its
  32-bit arithmetic shows, is the subject of the last section of the
  definitions (`findPacket32` and what is built on it).
* The counters of `Status` are `unsigned int`.  The model keeps, for each
  counter, the running total of everything added to it since the last reset;
  the field of the program holds that total modulo `2^32`, and this reduction is
  applied where the program hands the counters out (`getStatus`).
* `Status::stamp` (a wall-clock time that is written and never read by the
  engine) is left out.
* A pointer into a buffer is the offset from the start of that buffer.
* A function that may throw returns an `Outcome`: the value and the new state,
  or the exception and the state at the throw.  Recursion and loops that the
  program may run for ever carry a fuel counter; `Outcome.diverge` says that
  the fuel ran out.
-/

namespace ros_driver_base

/-- One `uint8_t`. -/
abbrev Byte := Nat

/-- The exceptions of driver.cpp. -/
inductive Thrown where
  /-- thrown as `std::length_error` -/
  | length_error
  /-- thrown as `TimeoutError(TimeoutError::FIRST_BYTE, ..)` -/
  | timeout_first_byte
  /-- thrown as `TimeoutError(TimeoutError::PACKET, ..)` -/
  | timeout_packet
  /-- thrown as `std::runtime_error` -/
  | runtime_error
  /-- whatever the stream itself raises from `read`, `write` or `waitWrite` -/
  | stream_error
  /-- thrown by `new uint8_t[n]` for a negative `n` -/
  | bad_array_new_length
  /-- a call through `m_stream` while it is null: the program has no defined
  behaviour there (readPacket tests `isValid()` before it gets that far) -/
  | null_stream
  deriving DecidableEq, Repr

/-- What a call ends in: `ret v s` returns `v` in state `s`, `throw e s` raises
`e` in state `s`, `diverge` is a computation the fuel did not suffice for. -/
inductive Outcome (S : Type) (α : Type) where
  | ret : α → S → Outcome S α
  | throw : Thrown → S → Outcome S α
  | diverge : Outcome S α
  deriving DecidableEq, Repr

/-- The counters of `struct Status` (status.hpp), see the conventions above. -/
structure Status where
  tx : Int
  good_rx : Int
  bad_rx : Int
  queued_bytes : Int
  deriving DecidableEq, Repr

/-- `Status::Status()`. -/
def Status.init : Status := { tx := 0, good_rx := 0, bad_rx := 0, queued_bytes := 0 }

/-- The value an `unsigned int` field holds when its running total is `x`. -/
def asUnsigned (x : Int) : Int := x % 4294967296

/-- The counters as the program stores them: every field reduced modulo `2^32`. -/
def Status.stored (s : Status) : Status :=
  { tx := asUnsigned s.tx, good_rx := asUnsigned s.good_rx,
    bad_rx := asUnsigned s.bad_rx, queued_bytes := asUnsigned s.queued_bytes }

/-- The virtual `extractPacket(buffer, buffer_size)`: it is given the bytes
`buffer[0 .. buffer_size)` and `buffer_size`, and answers 0 (undecided), `-k`
(`k` bytes of garbage) or `p` (a packet of `p` bytes). -/
abbrev Extractor := List Byte → Int → Int

/-- The object `m_stream` points to (io_stream.hpp), as a transition system on
the state `σ` of the outside world.  `read w n` is `read(dst, n)`: `none` when
it raises, else the bytes it stored at `dst` (their number is its result).
`waitRead w ms` answers `false` when it raises `TimeoutError`.  `now w` reads
the monotonic clock that `Timeout` uses, in milliseconds. -/
structure IOStream (σ : Type) where
  read : σ → Int → Option (List Byte) × σ
  write : σ → List Byte → Option Int × σ
  waitRead : σ → Int → Bool × σ
  waitWrite : σ → Int → Bool × σ
  clear : σ → σ
  now : σ → Int × σ

/-- The members of `class Driver` that the framing engine uses.
`internal_buffer` is the whole array of `MAX_PACKET_SIZE` bytes, of which the
first `internal_buffer_size` are in use.  `m_stream` is `none` for a null
pointer.  `read_log` and `write_log` list the spans handed to the listeners'
`readData` and `writeData` (every listener of `m_listeners` gets the same
calls), the latest first. -/
structure Driver (σ : Type) where
  internal_buffer : List Byte
  internal_buffer_size : Int
  MAX_PACKET_SIZE : Int
  m_stream : Option σ
  m_extract_last : Bool
  m_stats : Status
  read_log : List (List Byte)
  write_log : List (List Byte)
  deriving DecidableEq

/-- `Driver::Driver(max_packet_size, extract_last)`.  The array is allocated
first; `new uint8_t[n]` raises for a negative `n`.  The test of
`MAX_PACKET_SIZE <= 0` in the body builds a `std::runtime_error` and drops it:
there is no `throw` in front of it.  `mem` is what the fresh array holds. -/
def Driver.new {σ : Type} (mem : List Byte) (max_packet_size : Int) (extract_last : Bool) :
    Outcome Unit (Driver σ) :=
  if max_packet_size < 0 then .throw .bad_array_new_length ()
  else
    .ret { internal_buffer := mem.take max_packet_size.toNat ++
             List.replicate (max_packet_size.toNat - mem.length) 0
           internal_buffer_size := 0
           MAX_PACKET_SIZE := max_packet_size
           m_stream := none
           m_extract_last := extract_last
           m_stats := Status.init
           read_log := []
           write_log := [] } ()

/-- `memcpy(dst, src + off, n)` and `memmove(dst, src + off, n)` with `dst` the
start of the list `dst`: the first `n` bytes of `dst` become bytes
`[off, off + n)` of `src`, the rest of `dst` stays. -/
def copyTo (dst src : List Byte) (off n : Int) : List Byte :=
  (src.drop off.toNat).take n.toNat ++ dst.drop n.toNat

/-- `Driver::findPacket(buffer, buffer_size)`, lines 525-581.  `m_stats` is the
only member it changes.  The result is (offset of the packet in `buffer`,
length of the packet).  The integers are mathematical integers, and the
extractor is shown the bytes of the slice: see `findPacket32` for the search
after a skip beyond the slice. -/
def findPacket (extractPacket : Extractor) (m_extract_last : Bool) :
    Nat → List Byte → Int → Status → Outcome Status (Int × Int)
  | 0, _, _, _ => .diverge
  | fuel + 1, buffer, buffer_size, m_stats =>
    let extract_result := extractPacket (buffer.take buffer_size.toNat) buffer_size
    if extract_result > buffer_size then .throw .length_error m_stats
    else if extract_result = 0 then .ret (0, 0) m_stats
    else
      let packet_start : Int := if extract_result < 0 then -extract_result else 0
      let packet_size : Int := if extract_result < 0 then 0 else extract_result
      let stats : Status :=
        if m_extract_last then
          { m_stats with bad_rx := m_stats.bad_rx + packet_start,
                         good_rx := m_stats.good_rx + packet_size }
        else m_stats
      let remaining := buffer_size - (packet_start + packet_size)
      if remaining = 0 then .ret (packet_start, packet_size) stats
      else if packet_size = 0 ∨ (packet_size > 0 ∧ m_extract_last = true) then
        match findPacket extractPacket m_extract_last fuel
            (buffer.drop (packet_start + packet_size).toNat) remaining stats with
        | .ret next_packet stats1 =>
          if m_extract_last then
            if next_packet.2 = 0 then .ret (packet_start, packet_size) stats1
            else .ret (packet_start + packet_size + next_packet.1, next_packet.2) stats1
          else .ret (packet_start + packet_size + next_packet.1, next_packet.2) stats1
        | .throw e stats1 => .throw e stats1
        | .diverge => .diverge
      else .ret (packet_start, packet_size) stats

/-- `Driver::doPacketExtraction(buffer)`, lines 583-600.  The second component
of the state is the caller's `buffer`. -/
def doPacketExtraction {σ : Type} (extractPacket : Extractor) (fuel : Nat)
    (d : Driver σ) (buffer : List Byte) : Outcome (Driver σ × List Byte) Int :=
  match findPacket extractPacket d.m_extract_last fuel d.internal_buffer
      d.internal_buffer_size d.m_stats with
  | .diverge => .diverge
  | .throw e stats => .throw e ({ d with m_stats := stats }, buffer)
  | .ret packet stats =>
    let stats1 : Status :=
      if !d.m_extract_last then
        { stats with bad_rx := stats.bad_rx + packet.1, good_rx := stats.good_rx + packet.2 }
      else stats
    let buffer_rem := d.internal_buffer_size - (packet.1 + packet.2)
    .ret packet.2
      ({ d with m_stats := stats1
                internal_buffer :=
                  copyTo d.internal_buffer d.internal_buffer (packet.1 + packet.2) buffer_rem
                internal_buffer_size := buffer_rem },
       copyTo buffer d.internal_buffer packet.1 packet.2)

/-- `Driver::extractPacketFromInternalBuffer(buffer, out_buffer_size)`, lines
602-620: the `while` loop, entered with `result_size`. -/
def extractPacketFromInternalBufferLoop {σ : Type} (extractPacket : Extractor) :
    Nat → Int → Driver σ → List Byte → Outcome (Driver σ × List Byte) (Int × Bool)
  | 0, _, _, _ => .diverge
  | fuel + 1, result_size, d, buffer =>
    if d.internal_buffer_size > 0 then
      match doPacketExtraction extractPacket fuel d buffer with
      | .diverge => .diverge
      | .throw e s => .throw e s
      | .ret packet_size (d1, buffer1) =>
        let result_size1 := if packet_size ≠ 0 then packet_size else result_size
        if packet_size = 0 ∨ d1.m_extract_last = false then .ret (result_size1, false) (d1, buffer1)
        else extractPacketFromInternalBufferLoop extractPacket fuel result_size1 d1 buffer1
    else .ret (result_size, false) (d, buffer)

/-- `Driver::extractPacketFromInternalBuffer`, lines 602-620. -/
def extractPacketFromInternalBuffer {σ : Type} (extractPacket : Extractor) (fuel : Nat)
    (d : Driver σ) (buffer : List Byte) : Outcome (Driver σ × List Byte) (Int × Bool) :=
  extractPacketFromInternalBufferLoop extractPacket fuel 0 d buffer

/-- The stream's `read(internal_buffer + at, ..)` storing `bytes`: the array
with `bytes` written from offset `at` on. -/
def storeAt (array : List Byte) (at_ : Int) (bytes : List Byte) : List Byte :=
  array.take at_.toNat ++ bytes ++ array.drop (at_.toNat + bytes.length)

/-- `Driver::readPacketInternal`, lines 622-668: the `while (true)` loop,
entered with `packet_size` and `received_something`. -/
def readPacketInternalLoop {σ : Type} (io : IOStream σ) (extractPacket : Extractor) :
    Nat → Int → Bool → Driver σ → List Byte → Outcome (Driver σ × List Byte) (Int × Bool)
  | 0, _, _, _, _ => .diverge
  | fuel + 1, packet_size, received_something, d, buffer =>
    match d.m_stream with
    | none => .throw .null_stream (d, buffer)
    | some w =>
      match io.read w (d.MAX_PACKET_SIZE - d.internal_buffer_size) with
      | (none, w1) => .throw .stream_error ({ d with m_stream := some w1 }, buffer)
      | (some bytes, w1) =>
        let c : Int := bytes.length
        if c > 0 then
          let d1 : Driver σ :=
            { d with m_stream := some w1
                     read_log := bytes :: d.read_log
                     internal_buffer := storeAt d.internal_buffer d.internal_buffer_size bytes
                     internal_buffer_size := d.internal_buffer_size + c }
          match doPacketExtraction extractPacket fuel d1 buffer with
          | .diverge => .diverge
          | .throw e s => .throw e s
          | .ret new_packet (d2, buffer2) =>
            if new_packet ≠ 0 ∧ d2.m_extract_last = false then .ret (new_packet, true) (d2, buffer2)
            else
              let packet_size1 := if new_packet ≠ 0 then new_packet else packet_size
              if d2.internal_buffer_size = d2.MAX_PACKET_SIZE then
                .throw .length_error (d2, buffer2)
              else readPacketInternalLoop io extractPacket fuel packet_size1 true d2 buffer2
        else .ret (packet_size, received_something) ({ d with m_stream := some w1 }, buffer)

/-- `Driver::readPacketInternal(buffer, out_buffer_size)`, lines 622-668. -/
def readPacketInternal {σ : Type} (io : IOStream σ) (extractPacket : Extractor) (fuel : Nat)
    (d : Driver σ) (buffer : List Byte) (out_buffer_size : Int) :
    Outcome (Driver σ × List Byte) (Int × Bool) :=
  if out_buffer_size < d.MAX_PACKET_SIZE then .throw .length_error (d, buffer)
  else if d.internal_buffer_size > 0 then
    match doPacketExtraction extractPacket fuel d buffer with
    | .diverge => .diverge
    | .throw e s => .throw e s
    | .ret packet_size (d1, buffer1) =>
      if packet_size ≠ 0 ∧ d1.m_extract_last = false then .ret (packet_size, false) (d1, buffer1)
      else readPacketInternalLoop io extractPacket fuel packet_size false d1 buffer1
  else readPacketInternalLoop io extractPacket fuel 0 false d buffer

/-- `Driver::hasPacket()`, lines 670-677.  `findPacket` works on the `mutable`
member `m_stats`, so the state comes back with the result. -/
def hasPacket {σ : Type} (extractPacket : Extractor) (fuel : Nat) (d : Driver σ) :
    Outcome (Driver σ) Bool :=
  if d.internal_buffer_size = 0 then .ret false d
  else
    match findPacket extractPacket d.m_extract_last fuel d.internal_buffer
        d.internal_buffer_size d.m_stats with
    | .diverge => .diverge
    | .throw e stats => .throw e { d with m_stats := stats }
    | .ret packet stats => .ret (decide (packet.2 > 0)) { d with m_stats := stats }

/-- Modelled from the spec: `class Timeout` of timeout.hpp, which is not among
the sources.  Section 4.1: a `Timeout` captures a monotonic start instant. -/
structure Timeout where
  start : Int

/-- Modelled from the spec: `Timeout::elapsed(d)`, "true iff now - start ≥
duration", with `now` the clock reading in milliseconds. -/
def Timeout.elapsed (t : Timeout) (now : Int) (timeout : Int) : Bool :=
  decide (now - t.start ≥ timeout)

/-- Modelled from the spec: `Timeout::timeLeft(d)`, "max(0, d − (now − start))". -/
def Timeout.timeLeft (t : Timeout) (now : Int) (timeout : Int) : Int :=
  max 0 (timeout - (now - t.start))

/-- `Driver::readPacket(buffer, buffer_size, packet_timeout, first_byte_timeout)`,
lines 726-776: the `while (true)` loop, entered with `read_something`. -/
def readPacketLoop {σ : Type} (io : IOStream σ) (extractPacket : Extractor)
    (buffer_size packet_timeout first_byte_timeout : Int) (time_out : Timeout) :
    Nat → Bool → Driver σ → List Byte → Outcome (Driver σ × List Byte) Int
  | 0, _, _, _ => .diverge
  | fuel + 1, read_something, d, buffer =>
    match readPacketInternal io extractPacket fuel d buffer buffer_size with
    | .diverge => .diverge
    | .throw e s => .throw e s
    | .ret read_state (d1, buffer1) =>
      let packet_size := read_state.1
      let read_something1 := read_something || read_state.2
      if packet_size > 0 then .ret packet_size (d1, buffer1)
      else if packet_timeout = 0 then .throw .timeout_first_byte (d1, buffer1)
      else
        let first : Bool := decide (first_byte_timeout ≠ -1) && !read_something1
        let timeout : Int := if first then first_byte_timeout else packet_timeout
        let timeout_type : Thrown := if first then .timeout_first_byte else .timeout_packet
        match d1.m_stream with
        | none => .throw .null_stream (d1, buffer1)
        | some w =>
          let (now1, w1) := io.now w
          if time_out.elapsed now1 timeout then
            .throw timeout_type ({ d1 with m_stream := some w1 }, buffer1)
          else
            let (now2, w2) := io.now w1
            let remaining_timeout := time_out.timeLeft now2 timeout
            let (ready, w3) := io.waitRead w2 remaining_timeout
            if ready then
              readPacketLoop io extractPacket buffer_size packet_timeout first_byte_timeout
                time_out fuel read_something1 { d1 with m_stream := some w3 } buffer1
            else .throw timeout_type ({ d1 with m_stream := some w3 }, buffer1)

/-- `Driver::readPacket(buffer, buffer_size, packet_timeout, first_byte_timeout)`,
lines 699-777, timeouts in milliseconds. -/
def readPacket {σ : Type} (io : IOStream σ) (extractPacket : Extractor) (fuel : Nat)
    (d : Driver σ) (buffer : List Byte) (buffer_size packet_timeout first_byte_timeout : Int) :
    Outcome (Driver σ × List Byte) Int :=
  let first_byte_timeout1 : Int :=
    if first_byte_timeout > packet_timeout then -1 else first_byte_timeout
  if buffer_size < d.MAX_PACKET_SIZE then .throw .length_error (d, buffer)
  else
    match d.m_stream with
    | none =>
      match extractPacketFromInternalBuffer extractPacket fuel d buffer with
      | .diverge => .diverge
      | .throw e s => .throw e s
      | .ret result s =>
        if result.1 ≠ 0 then .ret result.1 s else .throw .timeout_packet s
    | some w =>
      let (now0, w0) := io.now w
      readPacketLoop io extractPacket buffer_size packet_timeout first_byte_timeout1
        { start := now0 } fuel false { d with m_stream := some w0 } buffer

/-- `Driver::clear()`, lines 125-130. -/
def clear {σ : Type} (io : IOStream σ) (d : Driver σ) : Driver σ :=
  { d with m_stream := d.m_stream.map io.clear, internal_buffer_size := 0 }

/-- `Driver::getStatus()`, lines 132-136: the state with `queued_bytes` set, and
the `Status` handed out, its fields as the `unsigned int`s they are. -/
def getStatus {σ : Type} (d : Driver σ) : Status × Driver σ :=
  let stats : Status := { d.m_stats with queued_bytes := d.internal_buffer_size }
  (stats.stored, { d with m_stats := stats })

/-- `Driver::resetStatus()`, lines 137-138. -/
def resetStatus {σ : Type} (d : Driver σ) : Driver σ :=
  { d with m_stats := Status.init }

/-- `Driver::setExtractLastPacket(flag)`, line 140. -/
def setExtractLastPacket {σ : Type} (d : Driver σ) (flag : Bool) : Driver σ :=
  { d with m_extract_last := flag }

/-- `Driver::setMainStream(stream)`, lines 104-108. -/
def setMainStream {σ : Type} (d : Driver σ) (stream : σ) : Driver σ :=
  { d with m_stream := some stream }

/-- `Driver::close()`, lines 519-523. -/
def close {σ : Type} (d : Driver σ) : Driver σ :=
  { d with m_stream := none }

/-- The counters after `findPacket` counted, in extract_last mode, the segment
the extractor's answer `r` stands for. -/
def countSegment (st : Status) (r : Int) : Status :=
  { st with bad_rx := st.bad_rx + (if r < 0 then -r else 0),
            good_rx := st.good_rx + (if r < 0 then 0 else r) }

/-! ## Notions the specification speaks of -/

/-- An extractor that keeps within its contract: on a slice of `n` bytes it
answers some `r` with `-n ≤ r ≤ n`. -/
def WithinBounds (ex : Extractor) : Prop :=
  ∀ slice : List Byte, -(slice.length : Int) ≤ ex slice slice.length ∧
    ex slice slice.length ≤ slice.length

/-- The numbers `k1, k2, ..` are garbage counts that the extractor reports, as
`-k1, -k2, ..`, on the successive suffixes `buf[0..]`, `buf[k1..]`,
`buf[k1+k2..]`, .. of `buf`. -/
def skipsAlong (ex : Extractor) : List Byte → List Int → Prop
  | _, [] => True
  | buf, k :: ks => 0 < k ∧ ex buf buf.length = -k ∧ skipsAlong ex (buf.drop k.toNat) ks

/-! ## Fixtures: the extractor and the stream of the specification's scenarios -/

/-- The extractor of the scenarios of section 8: a packet is four bytes, the
first of them `0xAA`; a byte that cannot start a packet is garbage. -/
def aaExtractor : Extractor := fun buffer buffer_size =>
  match buffer with
  | [] => 0
  | b :: _ => if b = 0xAA then (if 4 ≤ buffer_size then 4 else 0) else -1

/-- The state of an in-memory stream: the chunks still to be handed to the
driver, and the clock. -/
structure Feed where
  pending : List (List Byte)
  clock : Int
  deriving DecidableEq, Repr

/-- An in-memory stream.  A `read` hands over the next pending chunk, cut to the
room offered; `waitRead` succeeds when a chunk is pending; every reading of the
clock takes a millisecond. -/
def feedStream : IOStream Feed where
  read w n :=
    match w.pending with
    | [] => (some [], w)
    | c :: rest =>
      (some (c.take n.toNat),
        { w with pending := if c.drop n.toNat = [] then rest else c.drop n.toNat :: rest })
  write w bytes := (some (bytes.length : Int), w)
  waitRead w _ := (decide (w.pending ≠ []), w)
  waitWrite w _ := (true, w)
  clear w := { w with pending := [] }
  now w := (w.clock, { w with clock := w.clock + 1 })

/-- A driver whose internal buffer of `max_packet_size` bytes holds `bytes`,
with fresh counters. -/
def Driver.holding {σ : Type} (bytes : List Byte) (max_packet_size : Int) (extract_last : Bool)
    (stream : Option σ) : Driver σ :=
  { internal_buffer := bytes ++ List.replicate (max_packet_size.toNat - bytes.length) 0
    internal_buffer_size := bytes.length
    MAX_PACKET_SIZE := max_packet_size
    m_stream := stream
    m_extract_last := extract_last
    m_stats := Status.init
    read_log := []
    write_log := [] }

/-- The walk of extract_last mode over `buf`, segment by segment: the answers
of the extractor, each a skip `-k` of `k` bytes or a packet `p` of `p` bytes, on
the successive segments, until it answers 0 or the buffer is used up. -/
def segmentWalk (ex : Extractor) : Nat → List Byte → List Int
  | 0, _ => []
  | fuel + 1, buf =>
    if ex buf buf.length = 0 then []
    else if buf.length ≤ (ex buf buf.length).natAbs then [ex buf buf.length]
    else ex buf buf.length :: segmentWalk ex fuel (buf.drop (ex buf buf.length).natAbs)

/-- The segments of `buf`: a walk never takes more steps than `buf` has bytes. -/
def segments (ex : Extractor) (buf : List Byte) : List Int :=
  segmentWalk ex (buf.length + 1) buf

/-- Offset and length of the last packet segment (a positive answer) among
segments that start at offset `off`, if there is one. -/
def lastPacketSegment : Int → List Int → Option (Int × Int)
  | _, [] => none
  | off, r :: rs =>
    match lastPacketSegment (off + r.natAbs) rs with
    | some view => some view
    | none => if 0 < r then some (off, r) else none

/-- The length of the skip the first segment stands for (0 if it is a packet,
or if there is no segment). -/
def firstSkip : List Int → Int
  | [] => 0
  | r :: _ => if r < 0 then -r else 0

/-- The view extract_last mode is to return for a walk: the last packet
segment, and without one, length 0 at the offset of the first segment's skip. -/
def lastMatchView (segs : List Int) : Int × Int :=
  match lastPacketSegment 0 segs with
  | some view => view
  | none => (firstSkip segs, 0)

/-- The slice that `findPacket`, started on `(buffer, buffer_size)`, hands to
its `depth`-th recursive call (lines 553-566), or `none` when the recursion
does not get that deep. -/
def sliceAt (ex : Extractor) (m_extract_last : Bool) : Nat → List Byte → Int → Option (List Byte × Int)
  | 0, buffer, buffer_size => some (buffer, buffer_size)
  | depth + 1, buffer, buffer_size =>
    let r := ex (buffer.take buffer_size.toNat) buffer_size
    if buffer_size < r then none
    else if r = 0 then none
    else if 0 < r then
      if buffer_size - r = 0 then none
      else if m_extract_last then sliceAt ex m_extract_last depth (buffer.drop r.toNat) (buffer_size - r)
      else none
    else if buffer_size + r = 0 then none
    else sliceAt ex m_extract_last depth (buffer.drop (-r).toNat) (buffer_size + r)

/-- An extractor that breaks its contract: it takes the first byte for the
length of the packet, whether or not that many bytes are there; a zero byte is
garbage. -/
def declaredLength : Extractor := fun buffer _ =>
  match buffer with
  | [] => 0
  | b :: _ => if b = 0 then -1 else (b : Int)

/-! ## The public operations, and sequences of them -/

/-- A call of one of the public operations. -/
inductive Op (σ : Type) where
  /-- `readPacket(buffer, buffer_size, packet_timeout, first_byte_timeout)` -/
  | read_packet (buffer : List Byte) (buffer_size packet_timeout first_byte_timeout : Int)
  /-- `hasPacket()` -/
  | has_packet
  /-- `clear()` -/
  | clear
  /-- `getStatus()` -/
  | status
  /-- `resetStatus()` -/
  | reset_status
  /-- `setMainStream(stream)` -/
  | set_stream (stream : σ)
  /-- `close()` -/
  | close

/-- What a public call hands back to its caller. -/
inductive Reply where
  /-- `readPacket` returned `len`; `buffer` is the caller's buffer afterwards -/
  | packet (len : Int) (buffer : List Byte)
  /-- `hasPacket` returned `b` -/
  | flag (b : Bool)
  /-- `getStatus` returned `s` -/
  | stats (s : Status)
  /-- a `void` operation returned -/
  | done
  /-- the call raised `e` -/
  | failed (e : Thrown)
  deriving DecidableEq, Repr

/-- The length of the packet a call returned (0 for a call that returned none). -/
def Reply.length : Reply → Int
  | .packet len _ => len
  | _ => 0

/-- One public call on the driver: the reply and the driver afterwards, or
`none` when the fuel does not suffice for the call. -/
def Driver.call {σ : Type} (io : IOStream σ) (ex : Extractor) (fuel : Nat) (d : Driver σ) :
    Op σ → Option (Reply × Driver σ)
  | .read_packet buffer buffer_size packet_timeout first_byte_timeout =>
    match readPacket io ex fuel d buffer buffer_size packet_timeout first_byte_timeout with
    | .ret len (d1, buffer1) => some (.packet len buffer1, d1)
    | .throw e (d1, _) => some (.failed e, d1)
    | .diverge => none
  | .has_packet =>
    match hasPacket ex fuel d with
    | .ret b d1 => some (.flag b, d1)
    | .throw e d1 => some (.failed e, d1)
    | .diverge => none
  | .clear => some (.done, clear io d)
  | .status => some (.stats (getStatus d).1, (getStatus d).2)
  | .reset_status => some (.done, resetStatus d)
  | .set_stream stream => some (.done, setMainStream d stream)
  | .close => some (.done, close d)

/-- A sequence of public calls, a call that raises included (the caller catches
the exception and goes on): the replies, and the driver after the last call.
The sequence ends early at a call the fuel does not suffice for. -/
def Driver.run {σ : Type} (io : IOStream σ) (ex : Extractor) (fuel : Nat) :
    Driver σ → List (Op σ) → List Reply × Driver σ
  | d, [] => ([], d)
  | d, op :: ops =>
    match d.call io ex fuel op with
    | none => ([], d)
    | some (r, d1) => (r :: (Driver.run io ex fuel d1 ops).1, (Driver.run io ex fuel d1 ops).2)

/-- The first invariant of section 3: `0 ≤ used ≤ max_packet_size`. -/
def Driver.Inv {σ : Type} (d : Driver σ) : Prop :=
  0 ≤ d.internal_buffer_size ∧ d.internal_buffer_size ≤ d.MAX_PACKET_SIZE

/-- A stream that keeps its contract: `read(dst, n)` stores at most `n` bytes. -/
def ReadsWithin {σ : Type} (io : IOStream σ) : Prop :=
  ∀ (w : σ) (n : Int) (bytes : List Byte), 0 ≤ n → (io.read w n).1 = some bytes →
    (bytes.length : Int) ≤ n

/-- How a driver `d1` relates to an earlier `d` when the calls in between
delivered, last, a packet of `l` bytes (`l = 0`: none): the capacity and the
mode are the same, `tx` is the same, `bad_rx` did not go down, `good_rx` went
up by `l` in first-match mode and by at least `l` in extract_last mode, and,
with a stream that keeps its contract (`bounded`), `0 ≤ used ≤ max_packet_size`
still holds if it held. -/
structure Advance {σ : Type} (bounded : Prop) (d d1 : Driver σ) (l : Int) : Prop where
  max_eq : d1.MAX_PACKET_SIZE = d.MAX_PACKET_SIZE
  mode_eq : d1.m_extract_last = d.m_extract_last
  tx_eq : d1.m_stats.tx = d.m_stats.tx
  len_nonneg : 0 ≤ l
  bad_le : d.m_stats.bad_rx ≤ d1.m_stats.bad_rx
  good_first : d.m_extract_last = false → d1.m_stats.good_rx = d.m_stats.good_rx + l
  good_last : d.m_extract_last = true → d.m_stats.good_rx + l ≤ d1.m_stats.good_rx
  inv : bounded → d.Inv → d1.Inv

/-- The value a call returned, if it returned. -/
def Outcome.value {S α : Type} : Outcome S α → Option α
  | .ret v _ => some v
  | _ => none

/-- An extractor for packets that begin with their own length: the first byte
`b` announces a packet of `b` bytes, recognised once these bytes are all there;
a zero byte is garbage. -/
def lengthPrefixed : Extractor := fun buffer buffer_size =>
  match buffer with
  | [] => 0
  | b :: _ => if b = 0 then -1 else if (b : Int) ≤ buffer_size then (b : Int) else 0

/-- The number of bytes the stream has delivered: the total length of the
spans handed to the listeners. -/
def Driver.delivered {σ : Type} (d : Driver σ) : Int :=
  ((d.read_log.map List.length).sum : Nat)

/-! ## Back-to-back complete packets -/

/-- The bytes are back-to-back complete packets for the extractor: at every
packet boundary, on every view of what follows, it answers the length of the
next packet once that packet is all in view, and 0 (undecided) before. -/
def Framed (ex : Extractor) : List (List Byte) → Prop
  | [] => True
  | p :: rest =>
    p ≠ [] ∧
    (∀ k : Nat, k ≤ (p ++ rest.flatten).length → 0 < k →
      ex ((p ++ rest.flatten).take k) k = if p.length ≤ k then (p.length : Int) else 0) ∧
    Framed ex rest

/-- The packets that are all there in the first `n` of the bytes `packets.flatten`. -/
def takePackets : List (List Byte) → Nat → List (List Byte)
  | [], _ => []
  | p :: rest, n => if p.length ≤ n then p :: takePackets rest (n - p.length) else []

/-- The view of the last of the packets `cs` within `cs.flatten` (length 0 when
there is none). -/
def lastView (cs : List (List Byte)) : Int × Int :=
  match cs.getLast? with
  | none => (0, 0)
  | some p => ((cs.flatten.length : Int) - p.length, p.length)

/-- What the stream delivers before it returns 0: in the state `w` its
non-blocking reads hand over exactly the bytes `data`, in non-empty pieces that
fit the room offered, and then nothing. -/
inductive Delivers {σ : Type} (io : IOStream σ) : σ → List Byte → Prop where
  | done (w : σ) : (∀ n : Int, 0 < n → (io.read w n).1 = some []) → Delivers io w []
  | more (w : σ) (data : List Byte) : data ≠ [] →
      (∀ n : Int, 0 < n → ∃ c, (io.read w n).1 = some c ∧ c ≠ [] ∧ (c.length : Int) ≤ n ∧
        c <+: data) →
      (∀ (n : Int) (c : List Byte), 0 < n → (io.read w n).1 = some c →
        Delivers io (io.read w n).2 (data.drop c.length)) →
      Delivers io w data

/-- The internal buffer holds exactly the bytes `live`, in an array of
`MAX_PACKET_SIZE` bytes. -/
def Driver.Holds {σ : Type} (d : Driver σ) (live : List Byte) : Prop :=
  d.internal_buffer_size = live.length ∧ d.internal_buffer.take live.length = live ∧
    (d.internal_buffer.length : Int) = d.MAX_PACKET_SIZE

/-! ## Fixtures for the boundary cases -/

/-- An extractor for packets of `p` bytes, whatever the bytes are: undecided
until `p` bytes are in view, then a packet of `p` bytes. -/
def fixedLength (p : Nat) : Extractor := fun _ buffer_size =>
  if (p : Int) ≤ buffer_size then (p : Int) else 0

/-- The identity framer of section 8: whatever is in view is one packet. -/
def identityFramer : Extractor := fun _ buffer_size => buffer_size

/-! ## The write path -/

/-- `Driver::writePacket(buffer, buffer_size, timeout)`, lines 796-814: the
`while (true)` loop, entered with `written`.  Every listener's `writeData` gets
the span `buffer[written .. written + c)`.  The test `time_out.elapsed()` and
`time_out.timeLeft()` are those of a `Timeout` constructed with `timeout`.  A
`TimeoutError` that `waitWrite` raises is not caught here: it leaves the call as
the stream's own exception (`stream_error`). -/
def writePacketLoop {σ : Type} (io : IOStream σ) (buffer : List Byte)
    (buffer_size timeout : Int) (time_out : Timeout) :
    Nat → Int → Driver σ → Outcome (Driver σ) Bool
  | 0, _, _ => .diverge
  | fuel + 1, written, d =>
    match d.m_stream with
    | none => .throw .null_stream d
    | some w =>
      match io.write w ((buffer.drop written.toNat).take (buffer_size - written).toNat) with
      | (none, w1) => .throw .stream_error { d with m_stream := some w1 }
      | (some c, w1) =>
        let d1 : Driver σ :=
          { d with m_stream := some w1
                   write_log := (buffer.drop written.toNat).take c.toNat :: d.write_log }
        let written1 := written + c
        if written1 = buffer_size then
          .ret true { d1 with m_stats := { d1.m_stats with tx := d1.m_stats.tx + buffer_size } }
        else
          let (now1, w2) := io.now w1
          if time_out.elapsed now1 timeout then
            .throw .timeout_packet { d1 with m_stream := some w2 }
          else
            let (now2, w3) := io.now w2
            let remaining_timeout := time_out.timeLeft now2 timeout
            let (ready, w4) := io.waitWrite w3 remaining_timeout
            if ready then
              writePacketLoop io buffer buffer_size timeout time_out fuel written1
                { d1 with m_stream := some w4 }
            else .throw .stream_error { d1 with m_stream := some w4 }

/-- `Driver::writePacket(buffer, buffer_size, timeout)`, lines 790-815, the
timeout in milliseconds. -/
def writePacket {σ : Type} (io : IOStream σ) (fuel : Nat) (d : Driver σ) (buffer : List Byte)
    (buffer_size timeout : Int) : Outcome (Driver σ) Bool :=
  match d.m_stream with
  | none => .throw .runtime_error d
  | some w =>
    let (now0, w0) := io.now w
    writePacketLoop io buffer buffer_size timeout { start := now0 } fuel 0
      { d with m_stream := some w0 }

/-- The stream takes the bytes `data` before the timeout elapses, in `n`
non-blocking writes: each write but the last accepts some but not all of what
is left (possibly nothing), the timeout has not elapsed after it and the wait
for writability succeeds; the last write accepts all that is left. -/
inductive Accepts {σ : Type} (io : IOStream σ) (timeout : Int) (time_out : Timeout) :
    Nat → σ → List Byte → Prop where
  | last (w : σ) (data : List Byte) :
      (io.write w data).1 = some (data.length : Int) → Accepts io timeout time_out 1 w data
  | step (n : Nat) (w : σ) (data : List Byte) (c : Int) :
      (io.write w data).1 = some c → 0 ≤ c → c < data.length →
      time_out.elapsed (io.now (io.write w data).2).1 timeout = false →
      (io.waitWrite (io.now (io.now (io.write w data).2).2).2
        (time_out.timeLeft (io.now (io.now (io.write w data).2).2).1 timeout)).1 = true →
      Accepts io timeout time_out n
        (io.waitWrite (io.now (io.now (io.write w data).2).2).2
          (time_out.timeLeft (io.now (io.now (io.write w data).2).2).1 timeout)).2
        (data.drop c.toNat) →
      Accepts io timeout time_out (n + 1) w data

/-- An in-memory stream whose non-blocking `write` accepts at most `k` bytes
at a time. -/
def throttledStream (k : Nat) : IOStream Feed :=
  { feedStream with write := fun w bytes => (some ((min k bytes.length : Nat) : Int), w) }

/-! ## The formatters -/

/-- The value of `str[i]` for the byte `b`, read through `char const*`: with a
signed `char` the bytes from `0x80` on are negative.  Whether `char` is signed
is up to the platform. -/
def asChar (char_is_signed : Bool) (b : Byte) : Int :=
  if char_is_signed && decide (128 ≤ b) then (b : Int) - 256 else (b : Int)

/-- `result << hex << v` for an `unsigned int` `v`: the digits of `v` in base 16,
the letters in lower case. -/
def hexOut (v : Nat) : List Char := Nat.toDigits 16 v

/-- `Driver::binary_com(str, str_size)`, lines 75-85: for each byte,
`unsigned int code = str[i]`, then the two values `(code & 0xF0) >> 4` and
`code & 0xF` written in base 16. -/
def binary_com (char_is_signed : Bool) (str : List Byte) : String :=
  String.mk (str.flatMap fun b =>
    let code : Nat := (asUnsigned (asChar char_is_signed b)).toNat
    hexOut ((code &&& 0xF0) >>> 4) ++ hexOut (code &&& 0xF))

/-- The lowercase hexadecimal digit of a value below 16: `0` to `9` are the
characters from code 48 on, `a` to `f` those from code 97 on. -/
def lowerHexDigit (n : Nat) : Char :=
  if n < 10 then Char.ofNat (48 + n) else Char.ofNat (97 + (n - 10))

/-! ## The engine with `int` arithmetic on 32 bits

`findPacket` and `doPacketExtraction` above compute with mathematical integers.
That is the program as long as the extractor's skips stay within the slice it
is given: every `int` is then a count between 0 and `MAX_PACKET_SIZE`.  After a
skip beyond the slice `findPacket` goes on with a negative `buffer_size` and
with a pointer past the slice, and `remaining` (line 553) may leave the range
of `int`.  The definitions of this section follow the same lines with every
`int` result reduced to 32 bits, which is what the machine computes (the
language leaves a signed overflow undefined), and with pointers as offsets from
the start of the array.  The functions between `doPacketExtraction` and
`readPacket` are repeated unchanged but for the function they call. -/

/-- The array of the internal buffer has `MAX_PACKET_SIZE` bytes, a number
within the range of `int`, of which `used` are in use. -/
def Driver.Fits {σ : Type} (d : Driver σ) : Prop :=
  0 ≤ d.internal_buffer_size ∧ d.internal_buffer_size ≤ d.MAX_PACKET_SIZE ∧
    (d.internal_buffer.length : Int) = d.MAX_PACKET_SIZE ∧ d.MAX_PACKET_SIZE < 2147483648

/-! ## Facts about `findPacket` -/

/-- The body of `findPacket` in first-match mode, case by case on the
extractor's answer `r`. -/
theorem findPacket_first_eq (ex : Extractor) (fuel : Nat) (buffer : List Byte) (n : Int)
    (st : Status) :
    findPacket ex false (fuel + 1) buffer n st =
      if n < ex (buffer.take n.toNat) n then .throw .length_error st
      else if ex (buffer.take n.toNat) n = 0 then .ret (0, 0) st
      else if 0 < ex (buffer.take n.toNat) n then .ret (0, ex (buffer.take n.toNat) n) st
      else if n + ex (buffer.take n.toNat) n = 0 then .ret (-ex (buffer.take n.toNat) n, 0) st
      else
        match findPacket ex false fuel (buffer.drop (-ex (buffer.take n.toNat) n).toNat)
            (n + ex (buffer.take n.toNat) n) st with
        | .ret np s1 => .ret (-ex (buffer.take n.toNat) n + np.1, np.2) s1
        | .throw e s1 => .throw e s1
        | .diverge => .diverge := by
  rw [findPacket]
  generalize ex (buffer.take n.toNat) n = r
  simp only [gt_iff_lt, Bool.false_eq_true, and_false, or_false, ite_false]
  split_ifs <;> first
    | rfl
    | omega
    | (simp only [add_zero, zero_add, sub_neg_eq_add] ; try rfl)

/-- The body of `findPacket` in extract_last mode, case by case on the
extractor's answer `r`. -/
theorem findPacket_last_eq (ex : Extractor) (fuel : Nat) (buffer : List Byte) (n : Int)
    (st : Status) :
    findPacket ex true (fuel + 1) buffer n st =
      if n < ex (buffer.take n.toNat) n then .throw .length_error st
      else if ex (buffer.take n.toNat) n = 0 then .ret (0, 0) st
      else if 0 < ex (buffer.take n.toNat) n then
        if n - ex (buffer.take n.toNat) n = 0 then
          .ret (0, ex (buffer.take n.toNat) n) (countSegment st (ex (buffer.take n.toNat) n))
        else
          match findPacket ex true fuel (buffer.drop (ex (buffer.take n.toNat) n).toNat)
              (n - ex (buffer.take n.toNat) n) (countSegment st (ex (buffer.take n.toNat) n)) with
          | .ret np s1 =>
            if np.2 = 0 then .ret (0, ex (buffer.take n.toNat) n) s1
            else .ret (ex (buffer.take n.toNat) n + np.1, np.2) s1
          | .throw e s1 => .throw e s1
          | .diverge => .diverge
      else if n + ex (buffer.take n.toNat) n = 0 then
        .ret (-ex (buffer.take n.toNat) n, 0) (countSegment st (ex (buffer.take n.toNat) n))
      else
        match findPacket ex true fuel (buffer.drop (-ex (buffer.take n.toNat) n).toNat)
            (n + ex (buffer.take n.toNat) n) (countSegment st (ex (buffer.take n.toNat) n)) with
        | .ret np s1 =>
          if np.2 = 0 then .ret (-ex (buffer.take n.toNat) n, 0) s1
          else .ret (-ex (buffer.take n.toNat) n + np.1, np.2) s1
        | .throw e s1 => .throw e s1
        | .diverge => .diverge := by
  rw [findPacket]
  generalize ex (buffer.take n.toNat) n = r
  simp only [gt_iff_lt, and_true, ite_true, countSegment]
  split_ifs <;> first
    | rfl
    | omega
    | (simp only [add_zero, zero_add, sub_neg_eq_add] ; try rfl)

/-- Over mathematical integers, a view that `findPacket` returns lies inside
the searched buffer, and `findPacket` returns none for a negative
`buffer_size`, whatever the extractor answers.  (With `int` on 32 bits this
holds for extractors that never skip beyond the slice and fails for others:
see the section on the search with `int` on 32 bits.) -/
theorem findPacket_ret_bounds (ex : Extractor) (last : Bool) :
    ∀ (fuel : Nat) (buffer : List Byte) (n : Int) (st : Status) (r : Int × Int) (st1 : Status),
      findPacket ex last fuel buffer n st = .ret r st1 →
        0 ≤ n ∧ 0 ≤ r.1 ∧ 0 ≤ r.2 ∧ r.1 + r.2 ≤ n := by
  intro fuel
  induction fuel with
  | zero => intro buffer n st r st1 h; simp [findPacket] at h
  | succ fuel ih =>
    intro buffer n st r st1 h
    cases last
    · rw [findPacket_first_eq] at h
      split_ifs at h
      any_goals (cases h; simp only; omega)
      split at h
      · rename_i np s1 hrec
        have := ih _ _ _ _ _ hrec
        cases h; simp only; omega
      · cases h
      · cases h
    · rw [findPacket_last_eq] at h
      split_ifs at h
      any_goals (cases h; simp only; omega)
      all_goals
        split at h
        · rename_i np s1 hrec
          have := ih _ _ _ _ _ hrec
          split_ifs at h <;> (cases h; simp only; omega)
        · cases h
        · cases h

/-- The only exception `findPacket` raises is the length violation. -/
theorem findPacket_throw_kind (ex : Extractor) (last : Bool) :
    ∀ (fuel : Nat) (buffer : List Byte) (n : Int) (st : Status) (e : Thrown) (st1 : Status),
      findPacket ex last fuel buffer n st = .throw e st1 → e = .length_error := by
  intro fuel
  induction fuel with
  | zero => intro buffer n st e st1 h; simp [findPacket] at h
  | succ fuel ih =>
    intro buffer n st e st1 h
    cases last
    · rw [findPacket_first_eq] at h
      split_ifs at h
      · cases h; rfl
      · split at h
        · cases h
        · rename_i e1 s1 hrec
          cases h; exact ih _ _ _ _ _ hrec
        · cases h
    · rw [findPacket_last_eq] at h
      split_ifs at h
      · cases h; rfl
      all_goals
        split at h
        · split_ifs at h
        · rename_i e1 s1 hrec
          cases h; exact ih _ _ _ _ _ hrec
        · cases h

/-- In first-match mode `findPacket` leaves the counters alone, however it ends. -/
theorem findPacket_first_stats (ex : Extractor) :
    ∀ (fuel : Nat) (buffer : List Byte) (n : Int) (st : Status),
      (∀ r st1, findPacket ex false fuel buffer n st = .ret r st1 → st1 = st) ∧
      (∀ e st1, findPacket ex false fuel buffer n st = .throw e st1 → st1 = st) := by
  intro fuel
  induction fuel with
  | zero => intro buffer n st; simp [findPacket]
  | succ fuel ih =>
    intro buffer n st
    rw [findPacket_first_eq]
    split_ifs
    · exact ⟨fun _ _ h => (by cases h), fun _ _ h => (by cases h; rfl)⟩
    · exact ⟨fun _ _ h => (by cases h; rfl), fun _ _ h => (by cases h)⟩
    · exact ⟨fun _ _ h => (by cases h; rfl), fun _ _ h => (by cases h)⟩
    · exact ⟨fun _ _ h => (by cases h; rfl), fun _ _ h => (by cases h)⟩
    have := ih (buffer.drop (-ex (buffer.take n.toNat) n).toNat) (n + ex (buffer.take n.toNat) n) st
    split
    · rename_i np s1 hrec
      constructor
      · intro r st1 h; cases h; exact this.1 _ _ hrec
      · intro e st1 h; cases h
    · rename_i e1 s1 hrec
      constructor
      · intro r st1 h; cases h
      · intro e st1 h; cases h; exact this.2 _ _ hrec
    · constructor <;> (intro _ _ h; cases h)

/-- In extract_last mode `findPacket` only adds to `good_rx` and `bad_rx`, and
it adds at least the length of the view it returns to `good_rx`. -/
theorem findPacket_last_stats (ex : Extractor) :
    ∀ (fuel : Nat) (buffer : List Byte) (n : Int) (st : Status),
      (∀ r st1, findPacket ex true fuel buffer n st = .ret r st1 →
        st1.tx = st.tx ∧ st1.queued_bytes = st.queued_bytes ∧
          st.good_rx + r.2 ≤ st1.good_rx ∧ st.bad_rx ≤ st1.bad_rx) ∧
      (∀ e st1, findPacket ex true fuel buffer n st = .throw e st1 →
        st1.tx = st.tx ∧ st1.queued_bytes = st.queued_bytes ∧
          st.good_rx ≤ st1.good_rx ∧ st.bad_rx ≤ st1.bad_rx) := by
  intro fuel
  induction fuel with
  | zero => intro buffer n st; simp [findPacket]
  | succ fuel ih =>
    intro buffer n st
    rw [findPacket_last_eq]
    generalize ex (buffer.take n.toNat) n = r
    split_ifs with h1 h2 h3 h4 h5
    · exact ⟨fun _ _ h => (by cases h), fun _ _ h => (by cases h; simp)⟩
    · exact ⟨fun _ _ h => (by cases h; simp), fun _ _ h => (by cases h)⟩
    · refine ⟨fun _ _ h => ?_, fun _ _ h => (by cases h)⟩
      cases h; simp [countSegment]; omega
    · have := ih (buffer.drop r.toNat) (n - r) (countSegment st r)
      split
      · rename_i np s1 hrec
        have h6 := this.1 _ _ hrec
        have h7 := findPacket_ret_bounds ex true _ _ _ _ _ _ hrec
        simp only [countSegment] at h6
        refine ⟨fun _ _ h => ?_, fun _ _ h => (by split_ifs at h)⟩
        split_ifs at h <;> (cases h; simp only; split_ifs at h6 <;> omega)
      · rename_i e1 s1 hrec
        have h6 := this.2 _ _ hrec
        simp only [countSegment] at h6
        refine ⟨fun _ _ h => (by cases h), fun _ _ h => ?_⟩
        cases h; split_ifs at h6 <;> omega
      · exact ⟨fun _ _ h => (by cases h), fun _ _ h => (by cases h)⟩
    · refine ⟨fun _ _ h => ?_, fun _ _ h => (by cases h)⟩
      cases h; simp [countSegment]; split_ifs <;> omega
    · have := ih (buffer.drop (-r).toNat) (n + r) (countSegment st r)
      split
      · rename_i np s1 hrec
        have h6 := this.1 _ _ hrec
        have h7 := findPacket_ret_bounds ex true _ _ _ _ _ _ hrec
        simp only [countSegment] at h6
        refine ⟨fun _ _ h => ?_, fun _ _ h => (by split_ifs at h)⟩
        split_ifs at h <;> (cases h; simp only; split_ifs at h6 <;> omega)
      · rename_i e1 s1 hrec
        have h6 := this.2 _ _ hrec
        simp only [countSegment] at h6
        refine ⟨fun _ _ h => (by cases h), fun _ _ h => ?_⟩
        cases h; split_ifs at h6 <;> omega
      · exact ⟨fun _ _ h => (by cases h), fun _ _ h => (by cases h)⟩

/-- More fuel does not change an outcome that the fuel sufficed for. -/
theorem findPacket_fuel_succ (ex : Extractor) (last : Bool) :
    ∀ (fuel : Nat) (buffer : List Byte) (n : Int) (st : Status),
      findPacket ex last fuel buffer n st ≠ .diverge →
        findPacket ex last (fuel + 1) buffer n st = findPacket ex last fuel buffer n st := by
  intro fuel
  induction fuel with
  | zero => intro buffer n st h; simp [findPacket] at h
  | succ fuel ih =>
    intro buffer n st h
    cases last
    · rw [findPacket_first_eq ex fuel buffer n st] at h ⊢
      rw [findPacket_first_eq ex (fuel + 1) buffer n st]
      split_ifs at h ⊢ <;> try rfl
      rw [ih]
      intro hd
      rw [hd] at h
      exact h rfl
    · rw [findPacket_last_eq ex fuel buffer n st] at h ⊢
      rw [findPacket_last_eq ex (fuel + 1) buffer n st]
      split_ifs at h ⊢ <;> try rfl
      all_goals
        rw [ih]
        intro hd
        rw [hd] at h
        exact h rfl

/-- More fuel does not change an outcome that the fuel sufficed for. -/
theorem findPacket_fuel_le (ex : Extractor) (last : Bool) (fuel fuel1 : Nat) (buffer : List Byte)
    (n : Int) (st : Status) (hle : fuel ≤ fuel1)
    (h : findPacket ex last fuel buffer n st ≠ .diverge) :
    findPacket ex last fuel1 buffer n st = findPacket ex last fuel buffer n st := by
  induction hle with
  | refl => rfl
  | step _ ih2 =>
    rw [findPacket_fuel_succ, ih2]
    rw [ih2]; exact h

/-- What `findPacket` does depends on the first `buffer_size` bytes only. -/
theorem findPacket_take (ex : Extractor) (last : Bool) :
    ∀ (fuel : Nat) (buffer : List Byte) (n : Int) (st : Status),
      findPacket ex last fuel (buffer.take n.toNat) n st = findPacket ex last fuel buffer n st := by
  intro fuel
  induction fuel with
  | zero => intro buffer n st; simp [findPacket]
  | succ fuel ih =>
    intro buffer n st
    have key : ∀ (r : Int) (k : Int) (m : Int) (s : Status), 0 ≤ k → m = n - k →
        findPacket ex last fuel ((buffer.take n.toNat).drop k.toNat) m s =
          findPacket ex last fuel (buffer.drop k.toNat) m s := by
      intro r k m s hk hm
      rw [← ih ((buffer.take n.toNat).drop k.toNat), ← ih (buffer.drop k.toNat)]
      congr 1
      rw [List.drop_take, List.take_take]
      congr 1
      omega
    cases last
    · rw [findPacket_first_eq, findPacket_first_eq, List.take_take, min_self]
      generalize ex (buffer.take n.toNat) n = r
      split_ifs <;> try rfl
      rw [key r (-r) (n + r) st (by omega) (by omega)]
    · rw [findPacket_last_eq, findPacket_last_eq, List.take_take, min_self]
      generalize ex (buffer.take n.toNat) n = r
      split_ifs <;> try rfl
      · rw [key r r (n - r) _ (by omega) (by omega)]
      · rw [key r (-r) (n + r) _ (by omega) (by omega)]

/-! ## First-match search -/

/-- Garbage counts are positive, so their sum is not negative. -/
theorem skipsSum_nonneg (ex : Extractor) :
    ∀ (ks : List Int) (buf : List Byte), skipsAlong ex buf ks → 0 ≤ ks.sum := by
  intro ks
  induction ks with
  | nil => intro buf _; simp
  | cons k ks ih =>
    intro buf h
    have := ih _ h.2.2
    have := h.1
    simp only [List.sum_cons]
    omega

/-- The search in first-match mode, with an extractor that keeps within
`-n ≤ r ≤ n`: `findPacket` returns `(start, length)` where `start` is the sum
of the garbage counts `k1..km` the extractor reports on the successive suffixes
of the buffer, and `length` is the first non-negative answer reached after
those skips, or 0 when the skips use up the buffer.  No counter changes.  A
positive first answer `p` gives `(0, p)`: what follows the packet is not looked
at. -/
theorem findPacket_first_skips (ex : Extractor) (hex : WithinBounds ex) (st : Status) :
    ∀ (fuel : Nat) (buffer : List Byte), buffer.length < fuel →
      (∃ (ks : List Int) (l : Int),
        skipsAlong ex buffer ks ∧
        findPacket ex false fuel buffer buffer.length st = .ret (ks.sum, l) st ∧
        ks.sum ≤ buffer.length ∧
        ((ks ≠ [] ∧ ks.sum = buffer.length ∧ l = 0) ∨
          (0 ≤ l ∧ ex (buffer.drop ks.sum.toNat) (buffer.length - ks.sum) = l))) ∧
      (0 < ex buffer buffer.length →
        findPacket ex false fuel buffer buffer.length st =
          .ret (0, ex buffer buffer.length) st) := by
  intro fuel
  induction fuel with
  | zero => intro buffer h; omega
  | succ fuel ih =>
    intro buffer hfuel
    have hb := hex buffer
    rw [findPacket_first_eq]
    simp only [Int.toNat_ofNat, List.take_length]
    generalize hr : ex buffer buffer.length = r at hb
    split_ifs with h1 h2 h3 h4
    · omega
    · refine ⟨⟨[], 0, trivial, by simp, by simp, Or.inr ⟨le_refl _, by simpa using hr.trans h2⟩⟩, ?_⟩
      intro h; omega
    · refine ⟨⟨[], r, trivial, by simp, by simp, Or.inr ⟨by omega, by simpa using hr⟩⟩, ?_⟩
      intro _; rfl
    · refine ⟨⟨[-r], 0, ⟨by omega, by simpa using hr, trivial⟩, by simp, by simp; omega,
        Or.inl ⟨by simp, by simp; omega, rfl⟩⟩, ?_⟩
      intro h; omega
    · have hlen : ((buffer.drop (-r).toNat).length : Int) = buffer.length + r := by
        rw [List.length_drop]; omega
      obtain ⟨⟨ks, l, hsk, hfp, hsum, hcase⟩, -⟩ := ih (buffer.drop (-r).toNat) (by
        rw [List.length_drop]; omega)
      rw [hlen] at hfp hsum hcase
      rw [hfp]
      refine ⟨⟨-r :: ks, l, ⟨by omega, by simpa using hr, by simpa using hsk⟩, by simp,
        by simp; omega, ?_⟩, ?_⟩
      · rcases hcase with ⟨h5, h6, h7⟩ | ⟨h5, h6⟩
        · exact Or.inl ⟨by simp, by simp; omega, h7⟩
        · refine Or.inr ⟨h5, ?_⟩
          have hs := (skipsSum_nonneg ex _ _ hsk)
          rw [List.drop_drop] at h6
          rw [← h6]
          congr 1
          · congr 1; simp; omega
          · simp; omega
      · intro h; omega

/-- The extractor of the scenarios keeps within its contract. -/
theorem aaExtractor_withinBounds : WithinBounds aaExtractor := by
  intro slice
  cases slice with
  | nil => simp [aaExtractor]
  | cons b t =>
    simp only [aaExtractor, List.length_cons]
    split_ifs <;> constructor <;> push_cast <;> omega

/-! ## Last-match search -/

/-- A walk does not depend on the fuel once there is more of it than bytes. -/
theorem segmentWalk_fuel (ex : Extractor) :
    ∀ (fuel fuel1 : Nat) (buf : List Byte), buf.length < fuel → buf.length < fuel1 →
      segmentWalk ex fuel buf = segmentWalk ex fuel1 buf := by
  intro fuel
  induction fuel with
  | zero => intro fuel1 buf h; omega
  | succ fuel ih =>
    intro fuel1 buf h h1
    cases fuel1 with
    | zero => omega
    | succ fuel1 =>
      simp only [segmentWalk]
      split_ifs with h2 h3
      · rfl
      · rfl
      · rw [ih fuel1]
        · rw [List.length_drop]; omega
        · rw [List.length_drop]; omega

/-- The last packet segment of a walk that starts at `off` is the one of the
walk that starts at 0, moved by `off`. -/
theorem lastPacketSegment_shift :
    ∀ (segs : List Int) (off : Int),
      lastPacketSegment off segs =
        (lastPacketSegment 0 segs).map (fun view => (off + view.1, view.2)) := by
  intro segs
  induction segs with
  | nil => intro off; rfl
  | cons r rs ih =>
    intro off
    simp only [lastPacketSegment]
    rw [ih (off + r.natAbs), ih (0 + r.natAbs)]
    cases lastPacketSegment 0 rs with
    | none => simp only [Option.map_none']; split_ifs <;> simp
    | some v => simp only [Option.map_some']; simp; ring

/-- A packet segment has a positive length. -/
theorem lastPacketSegment_pos :
    ∀ (segs : List Int) (off : Int) (view : Int × Int),
      lastPacketSegment off segs = some view → 0 < view.2 := by
  intro segs
  induction segs with
  | nil => intro off view h; simp [lastPacketSegment] at h
  | cons r rs ih =>
    intro off view h
    simp only [lastPacketSegment] at h
    split at h
    · rename_i v hv
      cases h; exact ih _ _ hv
    · split_ifs at h with h1
      cases h; exact h1

/-- The counters after a walk: every skip is added to `bad_rx`, every packet
segment to `good_rx`. -/
theorem findPacket_last_walk (ex : Extractor) (hex : WithinBounds ex) :
    ∀ (fuel : Nat) (buffer : List Byte) (st : Status), buffer.length < fuel →
      findPacket ex true fuel buffer buffer.length st =
        .ret (lastMatchView (segmentWalk ex fuel buffer))
          ((segmentWalk ex fuel buffer).foldl countSegment st) := by
  intro fuel
  induction fuel with
  | zero => intro buffer st h; omega
  | succ fuel ih =>
    intro buffer st hfuel
    have hb := hex buffer
    rw [findPacket_last_eq]
    simp only [Int.toNat_ofNat, List.take_length, segmentWalk]
    generalize ex buffer buffer.length = r at hb
    have hlen : ∀ k : Nat, (k : Int) ≤ buffer.length →
        ((buffer.drop k).length : Int) = buffer.length - k := by
      intro k hk; rw [List.length_drop]; omega
    split_ifs with h1 h2 h3
    any_goals omega
    · simp [lastMatchView, lastPacketSegment, firstSkip]
    · simp [lastMatchView, lastPacketSegment, h3]
    · have e1 : r.toNat = r.natAbs := by omega
      have e2 : (buffer.length : Int) - r = ((buffer.drop r.natAbs).length : Int) := by
        rw [hlen _ (by omega)]; omega
      rw [e1, e2, ih _ _ (by rw [List.length_drop]; omega)]
      simp only [List.foldl_cons]
      generalize segmentWalk ex fuel (buffer.drop r.natAbs) = W
      simp only [lastMatchView, lastPacketSegment]
      rw [lastPacketSegment_shift W (0 + r.natAbs)]
      cases hW : lastPacketSegment 0 W with
      | none => simp [h3]
      | some v =>
        have := lastPacketSegment_pos _ _ _ hW
        have e3 : (r.natAbs : Int) = r := by omega
        simp only [Option.map_some', zero_add, e3]
        rw [if_neg (by omega)]
    · simp [lastMatchView, lastPacketSegment, firstSkip, h3]
      omega
    · have e1 : (-r).toNat = r.natAbs := by omega
      have e2 : (buffer.length : Int) + r = ((buffer.drop r.natAbs).length : Int) := by
        rw [hlen _ (by omega)]; omega
      rw [e1, e2, ih _ _ (by rw [List.length_drop]; omega)]
      simp only [List.foldl_cons]
      generalize segmentWalk ex fuel (buffer.drop r.natAbs) = W
      simp only [lastMatchView, lastPacketSegment]
      rw [lastPacketSegment_shift W (0 + r.natAbs)]
      cases hW : lastPacketSegment 0 W with
      | none => simp [h3, firstSkip]; omega
      | some v =>
        have := lastPacketSegment_pos _ _ _ hW
        have e3 : (r.natAbs : Int) = -r := by omega
        simp only [Option.map_some', zero_add, e3]
        rw [if_neg (by omega)]

/-- Without a positive answer there is no packet segment. -/
theorem lastPacketSegment_none :
    ∀ (segs : List Int) (off : Int), (∀ x ∈ segs, ¬ 0 < x) → lastPacketSegment off segs = none := by
  intro segs
  induction segs with
  | nil => intro off _; rfl
  | cons r rs ih =>
    intro off h
    simp only [lastPacketSegment]
    rw [ih _ (fun x hx => h x (List.mem_cons_of_mem _ hx))]
    simp only
    rw [if_neg (h r (List.mem_cons_self _ _))]

/-- The last packet segment is the last positive answer, at the offset that is
the total length of the segments before it. -/
theorem lastPacketSegment_last :
    ∀ (pre : List Int) (p : Int) (post : List Int) (off : Int), 0 < p →
      (∀ x ∈ post, ¬ 0 < x) →
      lastPacketSegment off (pre ++ p :: post) =
        some (off + ((pre.map Int.natAbs).sum : Nat), p) := by
  intro pre
  induction pre with
  | nil =>
    intro p post off hp hpost
    simp only [List.nil_append, lastPacketSegment, List.map_nil, List.sum_nil]
    rw [lastPacketSegment_none _ _ hpost]
    simp [hp]
  | cons r rs ih =>
    intro p post off hp hpost
    simp only [List.cons_append, lastPacketSegment, List.map_cons, List.sum_cons, List.append_eq]
    rw [ih p post _ hp hpost]
    simp only [Nat.cast_add]
    congr 2
    ring

/-- C3. In extract_last mode, with an extractor that keeps within `-n ≤ r ≤ n`,
`findPacket` walks the buffer segment by segment until the extractor answers 0
or the buffer is used up, counts every skip in `bad_rx` and every packet
segment in `good_rx`, and returns the view of the walk: offset and length of
the last packet segment (the last positive answer, at the total length of the
segments before it), and without a packet segment length 0 at the offset of the
first segment's skip. -/
theorem findPacket_extract_last (ex : Extractor) (hex : WithinBounds ex) (buffer : List Byte)
    (st : Status) (fuel : Nat) (hfuel : buffer.length < fuel) :
    findPacket ex true fuel buffer buffer.length st =
        .ret (lastMatchView (segments ex buffer))
          ((segments ex buffer).foldl countSegment st) ∧
      (∀ (pre : List Int) (p : Int) (post : List Int),
        segments ex buffer = pre ++ p :: post → 0 < p → (∀ x ∈ post, ¬ 0 < x) →
          lastMatchView (segments ex buffer) = ((((pre.map Int.natAbs).sum : Nat) : Int), p)) ∧
      ((∀ x ∈ segments ex buffer, ¬ 0 < x) →
        lastMatchView (segments ex buffer) = (firstSkip (segments ex buffer), 0)) := by
  refine ⟨?_, ?_, ?_⟩
  · rw [findPacket_last_walk ex hex fuel buffer st hfuel]
    rw [segments, segmentWalk_fuel ex fuel (buffer.length + 1) buffer hfuel (by omega)]
  · intro pre p post hseg hp hpost
    rw [hseg, lastMatchView, lastPacketSegment_last pre p post 0 hp hpost]
    simp
  · intro h
    rw [lastMatchView, lastPacketSegment_none _ _ h]

/-- Witness of C3: of two back-to-back packets the second is the view, and both
are counted in `good_rx`; three bytes of garbage give length 0 at offset 1, the
skip of the first segment, and are all counted in `bad_rx`. -/
theorem findPacket_extract_last_witness :
    segments aaExtractor [0xAA, 1, 2, 3, 0xAA, 4, 5, 6] = [4, 4] ∧
    findPacket aaExtractor true 9 [0xAA, 1, 2, 3, 0xAA, 4, 5, 6] 8 Status.init =
      .ret (4, 4) { tx := 0, good_rx := 8, bad_rx := 0, queued_bytes := 0 } ∧
    segments aaExtractor [0, 0, 0] = [-1, -1, -1] ∧
    findPacket aaExtractor true 4 [0, 0, 0] 3 Status.init =
      .ret (1, 0) { tx := 0, good_rx := 0, bad_rx := 3, queued_bytes := 0 } ∧
    findPacket aaExtractor true 4 [0, 0, 0] 3 Status.init =
      .ret (lastMatchView (segments aaExtractor [0, 0, 0]))
        ((segments aaExtractor [0, 0, 0]).foldl countSegment Status.init) :=
  ⟨by decide, by decide, by decide, by decide,
   (findPacket_extract_last aaExtractor aaExtractor_withinBounds [0, 0, 0] Status.init 4
     (by decide)).1⟩

/-! ## Length violation -/

/-- C4. In either mode, if the extractor answers more than the length of the
slice it was given, at the top level (`depth = 0`) or at any level of the
recursion of `findPacket`, then `findPacket` raises the length violation and
returns no view. -/
theorem findPacket_length_violation (ex : Extractor) (last : Bool) :
    ∀ (depth : Nat) (buffer : List Byte) (n : Int) (st : Status) (buffer1 : List Byte) (n1 : Int),
      sliceAt ex last depth buffer n = some (buffer1, n1) →
      n1 < ex (buffer1.take n1.toNat) n1 →
      ∀ fuel : Nat, depth < fuel →
        ∃ st1, findPacket ex last fuel buffer n st = .throw .length_error st1 := by
  intro depth
  induction depth with
  | zero =>
    intro buffer n st buffer1 n1 hs hv fuel hfuel
    simp only [sliceAt, Option.some.injEq, Prod.mk.injEq] at hs
    obtain ⟨rfl, rfl⟩ := hs
    obtain ⟨f, rfl⟩ : ∃ f, fuel = f + 1 := ⟨fuel - 1, by omega⟩
    refine ⟨st, ?_⟩
    rw [findPacket]
    simp only [gt_iff_lt, hv, if_true]
  | succ depth ih =>
    intro buffer n st buffer1 n1 hs hv fuel hfuel
    obtain ⟨f, rfl⟩ : ∃ f, fuel = f + 1 := ⟨fuel - 1, by omega⟩
    simp only [sliceAt] at hs
    cases last
    · rw [findPacket_first_eq]
      split_ifs at hs ⊢
      all_goals first
        | contradiction
        | (obtain ⟨st1, h⟩ := ih _ _ st _ _ hs hv f (by omega)
           rw [h]
           exact ⟨st1, rfl⟩)
    · rw [findPacket_last_eq]
      split_ifs at hs ⊢
      all_goals first
        | contradiction
        | (obtain ⟨st1, h⟩ := ih _ _ (countSegment st (ex (buffer.take n.toNat) n)) _ _ hs hv f
             (by omega)
           rw [h]
           exact ⟨st1, rfl⟩)

/-- Witness of C4: after one byte of garbage the extractor claims a packet of 5
bytes in a slice of 2; the search ends in the length violation, in both modes. -/
theorem findPacket_length_violation_witness :
    sliceAt declaredLength false 1 [0, 5, 1] 3 = some ([5, 1], 2) ∧
    (2 : Int) < declaredLength (List.take (2 : Int).toNat [5, 1]) 2 ∧
    findPacket declaredLength false 2 [0, 5, 1] 3 Status.init = .throw .length_error Status.init ∧
    findPacket declaredLength true 2 [0, 5, 1] 3 Status.init =
      .throw .length_error { tx := 0, good_rx := 0, bad_rx := 1, queued_bytes := 0 } ∧
    (∃ st1, findPacket declaredLength true 2 [0, 5, 1] 3 Status.init = .throw .length_error st1) :=
  ⟨by decide, by decide, by decide, by decide,
   findPacket_length_violation declaredLength true 1 [0, 5, 1] 3 Status.init [5, 1] 2
     (by decide) (by decide) 2 (by decide)⟩

/-! ## Extraction from the internal buffer -/

/-- The bytes of the internal buffer that are in use. -/
theorem copyTo_take (dst src : List Byte) (off n : Nat) (h : off + n ≤ src.length) :
    (copyTo dst src off n).take n = (src.drop off).take n ∧
      (copyTo dst src off n).drop n = dst.drop n := by
  have hl : ((src.drop off).take n).length = n := by
    rw [List.length_take, List.length_drop]; omega
  simp only [copyTo, Int.toNat_ofNat]
  constructor
  · rw [List.take_append_of_le_length (by omega), List.take_take, min_self]
  · rw [List.drop_append_of_le_length (by omega), List.drop_eq_nil_of_le (by omega),
      List.nil_append]

/-- C5. If `findPacket` on the internal buffer, `n` bytes in use, yields
`(s, l)`, then `doPacketExtraction` returns `l`, writes the old bytes
`[s, s + l)` to `out[0 .. l)` and leaves the rest of `out` alone, and leaves
`n - s - l` bytes in use, the old bytes `[s + l, n)` in their order: the old
buffer is the `s` discarded bytes, then the packet, then the new buffer.  In
first-match mode it adds `s` to `bad_rx` and `l` to `good_rx`; in extract_last
mode the counters are as `findPacket` left them.  Nothing else changes. -/
theorem doPacketExtraction_spec {σ : Type} (ex : Extractor) (fuel : Nat) (d : Driver σ)
    (out : List Byte) (s l : Int) (st1 : Status)
    (hcap : d.internal_buffer_size ≤ d.internal_buffer.length)
    (hfind : findPacket ex d.m_extract_last fuel d.internal_buffer d.internal_buffer_size
      d.m_stats = .ret (s, l) st1) :
    ∃ (d1 : Driver σ) (out1 : List Byte),
      doPacketExtraction ex fuel d out = .ret l (d1, out1) ∧
      out1.take l.toNat =
        ((d.internal_buffer.take d.internal_buffer_size.toNat).drop s.toNat).take l.toNat ∧
      out1.drop l.toNat = out.drop l.toNat ∧
      d1.internal_buffer_size = d.internal_buffer_size - s - l ∧
      d1.internal_buffer.take d1.internal_buffer_size.toNat =
        (d.internal_buffer.take d.internal_buffer_size.toNat).drop (s + l).toNat ∧
      d.internal_buffer.take d.internal_buffer_size.toNat =
        (d.internal_buffer.take d.internal_buffer_size.toNat).take s.toNat ++
          out1.take l.toNat ++ d1.internal_buffer.take d1.internal_buffer_size.toNat ∧
      (d.m_extract_last = false →
        d1.m_stats = { st1 with bad_rx := d.m_stats.bad_rx + s,
                                good_rx := d.m_stats.good_rx + l } ∧ st1 = d.m_stats) ∧
      (d.m_extract_last = true → d1.m_stats = st1) ∧
      d1.internal_buffer.length = d.internal_buffer.length ∧
      d1.MAX_PACKET_SIZE = d.MAX_PACKET_SIZE ∧ d1.m_stream = d.m_stream ∧
      d1.m_extract_last = d.m_extract_last ∧ d1.read_log = d.read_log ∧
      d1.write_log = d.write_log := by
  obtain ⟨hn, hs, hl, hsl⟩ := findPacket_ret_bounds ex _ _ _ _ _ _ _ hfind
  simp only at hs hl hsl
  generalize hB : d.internal_buffer = B at *
  generalize hnn : d.internal_buffer_size = n at *
  lift n to ℕ using hn
  lift s to ℕ using hs
  lift l to ℕ using hl
  have hsl1 : s + l ≤ n := by omega
  have hcap1 : n ≤ B.length := by omega
  have h1 := copyTo_take out B s l (by omega)
  have h2 := copyTo_take B B (s + l) (n - (s + l)) (by omega)
  have e1 : ((n : Int) - ((s + l : Nat) : Int)) = ((n - (s + l) : Nat) : Int) := by omega
  have e2 : ((s : Int) + (l : Int)) = ((s + l : Nat) : Int) := by omega
  have e3 : ((n : Int) - (s : Int) - (l : Int)) = ((n - (s + l) : Nat) : Int) := by omega
  simp only [doPacketExtraction, hB, hnn, hfind]
  refine ⟨_, _, rfl, ?_⟩
  simp only [hB, hnn, e2, e1, e3, Int.toNat_ofNat]
  have k1 : ((B.take n).drop s).take l = (B.drop s).take l := by
    rw [List.drop_take, List.take_take]; congr 1; omega
  have k2 : (B.take n).drop (s + l) = (B.drop (s + l)).take (n - (s + l)) := by
    rw [List.drop_take]
  refine ⟨by rw [h1.1, k1], h1.2, trivial, by rw [h2.1, k2], ?_, ?_, ?_, ?_, trivial, trivial,
    trivial, trivial, trivial⟩
  · rw [h1.1, h2.1, ← k1, ← k2, List.append_assoc]
    conv_lhs => rw [← List.take_append_drop s (B.take n)]
    congr 1
    conv_lhs => rw [← List.take_append_drop l ((B.take n).drop s)]
    rw [List.drop_drop, Nat.add_comm]
  · intro hm
    have := (findPacket_first_stats ex fuel B n d.m_stats).1 (s, l) st1 (by rw [← hm]; exact hfind)
    subst this
    simp [hm]
  · intro hm
    simp [hm]
  · simp only [copyTo, Int.toNat_ofNat, List.length_append, List.length_take, List.length_drop]
    omega

/-- Witness of C5: garbage `00 00` before a packet of four bytes; the packet
goes to `out`, `bad_rx = 2`, `good_rx = 4`, and nothing stays queued. -/
theorem doPacketExtraction_spec_witness :
    doPacketExtraction aaExtractor 7
        (Driver.holding [0, 0, 0xAA, 1, 2, 3] 8 false (none : Option Unit)) (List.replicate 8 0) =
      .ret 4
        ({ internal_buffer := [0, 0, 0xAA, 1, 2, 3, 0, 0]
           internal_buffer_size := 0
           MAX_PACKET_SIZE := 8
           m_stream := none
           m_extract_last := false
           m_stats := { tx := 0, good_rx := 4, bad_rx := 2, queued_bytes := 0 }
           read_log := []
           write_log := [] }, [0xAA, 1, 2, 3, 0, 0, 0, 0]) ∧
    ∃ (d1 : Driver Unit) (out1 : List Byte),
      doPacketExtraction aaExtractor 7
        (Driver.holding [0, 0, 0xAA, 1, 2, 3] 8 false (none : Option Unit)) (List.replicate 8 0) =
          .ret 4 (d1, out1) ∧
      d1.internal_buffer_size = 6 - 2 - 4 := by
  obtain ⟨d1, out1, h, -, -, h3, -⟩ :=
    doPacketExtraction_spec aaExtractor 7
      (Driver.holding [0, 0, 0xAA, 1, 2, 3] 8 false (none : Option Unit)) (List.replicate 8 0)
      2 4 Status.init (by decide) (by decide)
  exact ⟨by decide, d1, out1, h, h3⟩

/-! ## What every call keeps: the bounds of `used` and the discipline of the counters -/

theorem Advance.refl {σ : Type} (bounded : Prop) (d : Driver σ) : Advance bounded d d 0 :=
  ⟨rfl, rfl, rfl, le_refl _, le_refl _, fun _ => by simp, fun _ => by simp, fun _ h => h⟩

/-- Calls that delivered nothing, followed by calls that delivered `l`. -/
theorem Advance.after {σ : Type} {bounded : Prop} {d d1 d2 : Driver σ} {l : Int}
    (h1 : Advance bounded d d1 0) (h2 : Advance bounded d1 d2 l) : Advance bounded d d2 l := by
  refine ⟨h2.max_eq.trans h1.max_eq, h2.mode_eq.trans h1.mode_eq, h2.tx_eq.trans h1.tx_eq,
    h2.len_nonneg, le_trans h1.bad_le h2.bad_le, ?_, ?_, fun hb hi => h2.inv hb (h1.inv hb hi)⟩
  · intro hm
    have a := h1.good_first hm
    have b := h2.good_first (h1.mode_eq.trans hm)
    omega
  · intro hm
    have a := h1.good_last hm
    have b := h2.good_last (h1.mode_eq.trans hm)
    omega

/-- In extract_last mode a packet delivered earlier stays accounted for whatever
is delivered later. -/
theorem Advance.keep {σ : Type} {bounded : Prop} {d d1 d2 : Driver σ} {l l2 : Int}
    (hm : d.m_extract_last = true)
    (h1 : Advance bounded d d1 l) (h2 : Advance bounded d1 d2 l2) :
    Advance bounded d d2 l ∧ Advance bounded d d2 l2 := by
  have a := h1.good_last hm
  have b := h2.good_last (h1.mode_eq.trans hm)
  have c := h1.len_nonneg
  have e := h2.len_nonneg
  have hf : ∀ x : Int, d.m_extract_last = false →
      d2.m_stats.good_rx = d.m_stats.good_rx + x := by
    intro x h; rw [hm] at h; cases h
  constructor
  · exact ⟨h2.max_eq.trans h1.max_eq, h2.mode_eq.trans h1.mode_eq, h2.tx_eq.trans h1.tx_eq,
      c, le_trans h1.bad_le h2.bad_le, hf l, (fun _ => by omega),
      fun hb hi => h2.inv hb (h1.inv hb hi)⟩
  · exact ⟨h2.max_eq.trans h1.max_eq, h2.mode_eq.trans h1.mode_eq, h2.tx_eq.trans h1.tx_eq,
      e, le_trans h1.bad_le h2.bad_le, hf l2, (fun _ => by omega),
      fun hb hi => h2.inv hb (h1.inv hb hi)⟩

/-- `doPacketExtraction`, however it ends: it raises nothing but the length
violation, and then only the counters may differ; when it returns, `used` did
not grow and the stream and the logs are as before. -/
theorem doPacketExtraction_outcome {σ : Type} (bounded : Prop) (ex : Extractor) (fuel : Nat)
    (d : Driver σ) (out : List Byte) :
    match doPacketExtraction ex fuel d out with
    | .ret l (d1, _) =>
      Advance bounded d d1 l ∧ d1.internal_buffer_size ≤ d.internal_buffer_size ∧
        (0 ≤ d.internal_buffer_size → 0 ≤ d1.internal_buffer_size) ∧
        (l ≠ 0 → d1.internal_buffer_size < d.internal_buffer_size) ∧
        d1.m_stream = d.m_stream ∧ d1.read_log = d.read_log ∧ d1.write_log = d.write_log
    | .throw e (d1, out1) =>
      e = .length_error ∧ out1 = out ∧ d1 = { d with m_stats := d1.m_stats } ∧
        Advance bounded d d1 0 ∧ (d.m_extract_last = false → d1 = d)
    | .diverge => True := by
  cases hf : findPacket ex d.m_extract_last fuel d.internal_buffer d.internal_buffer_size
      d.m_stats with
  | diverge => simp only [doPacketExtraction, hf]
  | throw e st1 =>
    simp only [doPacketExtraction, hf]
    have hk := findPacket_throw_kind ex _ _ _ _ _ _ _ hf
    cases hm : d.m_extract_last
    · rw [hm] at hf
      have := (findPacket_first_stats ex _ _ _ _).2 _ _ hf
      subst this
      refine ⟨hk, trivial, trivial, ?_, ?_⟩
      · constructor <;> simp [hm, Driver.Inv]
      · intro _; cases d; simp_all
    · rw [hm] at hf
      have := (findPacket_last_stats ex _ _ _ _).2 _ _ hf
      refine ⟨hk, trivial, trivial, ?_, ?_⟩
      · constructor <;> simp [hm, Driver.Inv, this]
      · intro h; cases h
  | ret packet st1 =>
    simp only [doPacketExtraction, hf]
    obtain ⟨hn, hs, hl, hsl⟩ := findPacket_ret_bounds ex _ _ _ _ _ _ _ hf
    refine ⟨?_, by omega, fun _ => by omega, fun _ => by omega, ?_⟩
    · cases hm : d.m_extract_last
      · rw [hm] at hf
        have := (findPacket_first_stats ex _ _ _ _).1 _ _ hf
        subst this
        constructor <;> simp [hm, Driver.Inv, hl, hs] <;> omega
      · rw [hm] at hf
        have := (findPacket_last_stats ex _ _ _ _).1 _ _ hf
        constructor <;> simp [hm, Driver.Inv, hl, hs, this] <;> omega
    · simp

/-- Calls that delivered, last, `l0` (nothing, in first-match mode), followed by
calls that delivered `l`. -/
theorem Advance.step {σ : Type} {bounded : Prop} {d d1 d2 : Driver σ} {l0 l : Int}
    (h1 : Advance bounded d d1 l0) (h0 : d.m_extract_last = false → l0 = 0)
    (h2 : Advance bounded d1 d2 l) : Advance bounded d d2 l := by
  cases hm : d.m_extract_last
  · have := h0 hm
    subst this
    exact h1.after h2
  · exact (Advance.keep hm h1 h2).2

/-- Calls that delivered, last, `l0` (nothing, in first-match mode), followed by
calls that delivered nothing. -/
theorem Advance.carry {σ : Type} {bounded : Prop} {d d1 d2 : Driver σ} {l0 : Int}
    (h1 : Advance bounded d d1 l0) (h0 : d.m_extract_last = false → l0 = 0)
    (h2 : Advance bounded d1 d2 0) : Advance bounded d d2 l0 := by
  cases hm : d.m_extract_last
  · have := h0 hm
    subst this
    exact h1.after h2
  · exact (Advance.keep hm h1 h2).1

/-- The loop of `extractPacketFromInternalBuffer`, however it ends. -/
theorem extractPacketFromInternalBufferLoop_outcome {σ : Type} (bounded : Prop) (ex : Extractor)
    (d0 : Driver σ) :
    ∀ (fuel : Nat) (result_size : Int) (d : Driver σ) (out : List Byte),
      Advance bounded d0 d result_size → (d0.m_extract_last = false → result_size = 0) →
      match extractPacketFromInternalBufferLoop ex fuel result_size d out with
      | .ret v (d1, _) => Advance bounded d0 d1 v.1 ∧ d1.m_stream = d.m_stream
      | .throw _ (d1, _) => Advance bounded d0 d1 0 ∧ d1.m_stream = d.m_stream
      | .diverge => True := by
  intro fuel
  induction fuel with
  | zero => intro rs d out _ _; simp [extractPacketFromInternalBufferLoop]
  | succ fuel ih =>
    intro rs d out hadv hrs
    rw [extractPacketFromInternalBufferLoop]
    split_ifs with hu
    · have hd := doPacketExtraction_outcome bounded ex fuel d out
      cases hx : doPacketExtraction ex fuel d out with
      | diverge => simp only
      | throw e s =>
        obtain ⟨d1, out1⟩ := s
        rw [hx] at hd
        simp only at hd ⊢
        refine ⟨hadv.step hrs hd.2.2.2.1, ?_⟩
        rw [hd.2.2.1]
      | ret l s =>
        obtain ⟨d1, out1⟩ := s
        rw [hx] at hd
        simp only at hd ⊢
        obtain ⟨ha, -, -, -, hs, -, -⟩ := hd
        by_cases hl : l = 0
        · subst hl
          simp only [ne_eq, not_true_eq_false, if_false, true_or, if_true]
          exact ⟨hadv.carry hrs ha, hs⟩
        · by_cases hm1 : d1.m_extract_last = false
          · simp only [ne_eq, hl, not_false_eq_true, if_true, hm1, or_true]
            exact ⟨hadv.step hrs ha, hs⟩
          · simp only [ne_eq, hl, not_false_eq_true, if_true, hm1, or_false, if_false]
            have hm : d0.m_extract_last = true := by
              have := ha.mode_eq; have := hadv.mode_eq
              simp_all
            have := ih l d1 out1 (hadv.step hrs ha) (fun h => by rw [hm] at h; cases h)
            revert this
            cases extractPacketFromInternalBufferLoop ex fuel l d1 out1 with
            | diverge => simp
            | throw e s => intro h; exact ⟨h.1, h.2.trans hs⟩
            | ret v s => intro h; exact ⟨h.1, h.2.trans hs⟩
    · simp only
      exact ⟨hadv, trivial⟩

/-- A change of the stream and of the logs only. -/
theorem Advance.of_frame {σ : Type} (bounded : Prop) (d d1 : Driver σ)
    (h1 : d1.internal_buffer_size = d.internal_buffer_size)
    (h2 : d1.MAX_PACKET_SIZE = d.MAX_PACKET_SIZE) (h3 : d1.m_extract_last = d.m_extract_last)
    (h4 : d1.m_stats.tx = d.m_stats.tx) (h5 : d1.m_stats.good_rx = d.m_stats.good_rx)
    (h6 : d1.m_stats.bad_rx = d.m_stats.bad_rx) : Advance bounded d d1 0 := by
  refine ⟨h2, h3, h4, le_refl _, by rw [h6], fun _ => by rw [h5]; simp, fun _ => by rw [h5]; simp,
    ?_⟩
  intro _ hi
  simp only [Driver.Inv] at hi ⊢
  rw [h1, h2]
  exact hi

/-- Forgetting the packet delivered last. -/
theorem Advance.forget {σ : Type} {bounded : Prop} {d d1 : Driver σ} {l0 : Int}
    (h1 : Advance bounded d d1 l0) (h0 : d.m_extract_last = false → l0 = 0) :
    Advance bounded d d1 0 :=
  h1.step h0 (Advance.refl bounded d1)

/-- The loop of `readPacketInternal`, however it ends. -/
theorem readPacketInternalLoop_outcome {σ : Type} (io : IOStream σ) (ex : Extractor)
    (d0 : Driver σ) :
    ∀ (fuel : Nat) (packet_size : Int) (received : Bool) (d : Driver σ) (out : List Byte),
      Advance (ReadsWithin io) d0 d packet_size → (d0.m_extract_last = false → packet_size = 0) →
      match readPacketInternalLoop io ex fuel packet_size received d out with
      | .ret v (d1, _) => Advance (ReadsWithin io) d0 d1 v.1
      | .throw _ (d1, _) => Advance (ReadsWithin io) d0 d1 0
      | .diverge => True := by
  intro fuel
  induction fuel with
  | zero => intro ps rc d out _ _; simp [readPacketInternalLoop]
  | succ fuel ih =>
    intro ps rc d out hadv hps
    rw [readPacketInternalLoop]
    cases hst : d.m_stream with
    | none => simp only; exact hadv.forget hps
    | some w =>
      simp only
      cases hrd : io.read w (d.MAX_PACKET_SIZE - d.internal_buffer_size) with
      | mk res w1 =>
        cases res with
        | none =>
          simp only
          exact (hadv.carry hps (Advance.of_frame _ d { d with m_stream := some w1 }
            rfl rfl rfl rfl rfl rfl)).forget hps
        | some bytes =>
          simp only
          split_ifs with hc
          · have hread : Advance (ReadsWithin io) d
                ({ d with m_stream := some w1
                          read_log := bytes :: d.read_log
                          internal_buffer := storeAt d.internal_buffer d.internal_buffer_size bytes
                          internal_buffer_size := d.internal_buffer_size + bytes.length } :
                  Driver σ) 0 := by
              refine ⟨rfl, rfl, rfl, le_refl _, le_refl _, fun _ => by simp, fun _ => by simp, ?_⟩
              intro hb hi
              simp only [Driver.Inv] at hi ⊢
              have := hb w (d.MAX_PACKET_SIZE - d.internal_buffer_size) bytes (by omega)
                (by rw [hrd])
              omega
            have hd1 := hadv.carry hps hread
            generalize ({ d with m_stream := some w1
                                 read_log := bytes :: d.read_log
                                 internal_buffer :=
                                   storeAt d.internal_buffer d.internal_buffer_size bytes
                                 internal_buffer_size := d.internal_buffer_size + bytes.length } :
                  Driver σ) = d1 at hd1 ⊢
            have hd := doPacketExtraction_outcome (ReadsWithin io) ex fuel d1 out
            cases hx : doPacketExtraction ex fuel d1 out with
            | diverge => simp only
            | throw e s =>
              obtain ⟨d2, out2⟩ := s
              rw [hx] at hd
              simp only at hd ⊢
              exact hd1.step hps hd.2.2.2.1
            | ret l s =>
              obtain ⟨d2, out2⟩ := s
              rw [hx] at hd
              simp only at hd ⊢
              have ha := hd.1
              have hnew := hd1.step hps ha
              have hmode : l ≠ 0 → ¬(l ≠ 0 ∧ d2.m_extract_last = false) →
                  d0.m_extract_last = false → l = 0 := by
                intro hl h1 hm
                exfalso; apply h1; refine ⟨hl, ?_⟩
                rw [ha.mode_eq, hd1.mode_eq]; exact hm
              split_ifs with h1 h2 h3
              · exact hnew
              · by_cases hl : l = 0
                · subst hl; exact hnew
                · exact hnew.forget (hmode hl h1)
              · exact ih l true d2 out2 hnew (hmode h3 h1)
              · have hl : l = 0 := by simpa using h3
                subst hl
                exact ih ps true d2 out2 (hd1.carry hps ha) hps
          · exact hadv.carry hps (Advance.of_frame _ d { d with m_stream := some w1 }
              rfl rfl rfl rfl rfl rfl)

/-- `readPacketInternal`, however it ends. -/
theorem readPacketInternal_outcome {σ : Type} (io : IOStream σ) (ex : Extractor) (fuel : Nat)
    (d : Driver σ) (out : List Byte) (out_buffer_size : Int) :
    match readPacketInternal io ex fuel d out out_buffer_size with
    | .ret v (d1, _) => Advance (ReadsWithin io) d d1 v.1
    | .throw _ (d1, _) => Advance (ReadsWithin io) d d1 0
    | .diverge => True := by
  rw [readPacketInternal]
  split_ifs with h1 h2
  · exact Advance.refl _ d
  · have hd := doPacketExtraction_outcome (ReadsWithin io) ex fuel d out
    cases hx : doPacketExtraction ex fuel d out with
    | diverge => simp only
    | throw e s =>
      obtain ⟨d2, out2⟩ := s
      rw [hx] at hd
      simp only at hd ⊢
      exact hd.2.2.2.1
    | ret l s =>
      obtain ⟨d2, out2⟩ := s
      rw [hx] at hd
      simp only at hd ⊢
      have ha := hd.1
      split_ifs with h3
      · exact ha
      · exact readPacketInternalLoop_outcome io ex d fuel l false d2 out2 ha (fun hm => by
          by_contra hl
          exact h3 ⟨hl, by rw [ha.mode_eq]; exact hm⟩)
  · exact readPacketInternalLoop_outcome io ex d fuel 0 false d out (Advance.refl _ d)
      (fun _ => rfl)

/-- The loop of `readPacket`, however it ends. -/
theorem readPacketLoop_outcome {σ : Type} (io : IOStream σ) (ex : Extractor)
    (buffer_size packet_timeout first_byte_timeout : Int) (time_out : Timeout) (d0 : Driver σ) :
    ∀ (fuel : Nat) (read_something : Bool) (d : Driver σ) (out : List Byte),
      Advance (ReadsWithin io) d0 d 0 →
      match readPacketLoop io ex buffer_size packet_timeout first_byte_timeout time_out fuel
          read_something d out with
      | .ret v (d1, _) => Advance (ReadsWithin io) d0 d1 v
      | .throw _ (d1, _) => Advance (ReadsWithin io) d0 d1 0
      | .diverge => True := by
  intro fuel
  induction fuel with
  | zero => intro rs d out _; simp [readPacketLoop]
  | succ fuel ih =>
    intro rs d out hadv
    rw [readPacketLoop]
    have hd := readPacketInternal_outcome io ex fuel d out buffer_size
    cases hx : readPacketInternal io ex fuel d out buffer_size with
    | diverge => simp only
    | throw e s =>
      obtain ⟨d1, out1⟩ := s
      rw [hx] at hd
      simp only at hd ⊢
      exact hadv.after hd
    | ret v s =>
      obtain ⟨d1, out1⟩ := s
      rw [hx] at hd
      simp only at hd ⊢
      have hnew := hadv.after hd
      by_cases h1 : v.1 > 0
      · simp only [h1, if_true]; exact hnew
      · have h0 : v.1 = 0 := by have := hd.len_nonneg; omega
        rw [h0] at hnew
        simp only [h1, if_false]
        by_cases h2 : packet_timeout = 0
        · simp only [h2, if_true]; exact hnew
        · simp only [h2, if_false]
          generalize (if (decide (first_byte_timeout ≠ -1) && !(rs || v.2)) = true
            then first_byte_timeout else packet_timeout) = timeout
          generalize (if (decide (first_byte_timeout ≠ -1) && !(rs || v.2)) = true
            then Thrown.timeout_first_byte else Thrown.timeout_packet) = timeout_type
          cases hst : d1.m_stream with
          | none => simp only; exact hnew
          | some w =>
            simp only
            split_ifs with h3 h4
            · exact hnew.after (Advance.of_frame _ d1 { d1 with m_stream := some (io.now w).2 }
                rfl rfl rfl rfl rfl rfl)
            · exact ih _ _ _ (hnew.after (Advance.of_frame _ d1 _ rfl rfl rfl rfl rfl rfl))
            · exact hnew.after (Advance.of_frame _ d1
                { d1 with m_stream := some (io.waitRead (io.now (io.now w).2).2
                    (time_out.timeLeft (io.now (io.now w).2).1 timeout)).2 }
                rfl rfl rfl rfl rfl rfl)

/-- `readPacket`, however it ends: the capacity and the mode stay, `used` stays
within its bounds when the stream keeps its contract, and `good_rx` goes up by
the returned length (first-match) or by at least that (extract_last), by
nothing (first-match) when the call raises. -/
theorem readPacket_outcome {σ : Type} (io : IOStream σ) (ex : Extractor) (fuel : Nat)
    (d : Driver σ) (out : List Byte) (buffer_size packet_timeout first_byte_timeout : Int) :
    match readPacket io ex fuel d out buffer_size packet_timeout first_byte_timeout with
    | .ret v (d1, _) => Advance (ReadsWithin io) d d1 v
    | .throw _ (d1, _) => Advance (ReadsWithin io) d d1 0
    | .diverge => True := by
  rw [readPacket]
  simp only
  generalize (if first_byte_timeout > packet_timeout then (-1 : Int) else first_byte_timeout)
    = first_byte_timeout1
  by_cases h1 : buffer_size < d.MAX_PACKET_SIZE
  · simp only [h1, if_true]; exact Advance.refl _ d
  · simp only [h1, if_false]
    cases hst : d.m_stream with
    | none =>
      simp only
      have hd := extractPacketFromInternalBufferLoop_outcome (ReadsWithin io) ex d fuel 0 d out
        (Advance.refl _ d) (fun _ => rfl)
      rw [extractPacketFromInternalBuffer]
      cases hx : extractPacketFromInternalBufferLoop ex fuel 0 d out with
      | diverge => simp only
      | throw e s =>
        obtain ⟨d1, out1⟩ := s
        rw [hx] at hd
        exact hd.1
      | ret v s =>
        obtain ⟨d1, out1⟩ := s
        rw [hx] at hd
        simp only at hd ⊢
        split_ifs with h2
        · exact hd.1
        · have h0 : v.1 = 0 := by simpa using h2
          rw [← h0]; exact hd.1
    | some w =>
      simp only
      exact readPacketLoop_outcome io ex buffer_size packet_timeout _ _ d fuel false _ out
        (Advance.of_frame _ d _ rfl rfl rfl rfl rfl rfl)

/-- `hasPacket`, however it ends: in first-match mode the driver is as before. -/
theorem hasPacket_outcome {σ : Type} (bounded : Prop) (ex : Extractor) (fuel : Nat)
    (d : Driver σ) :
    match hasPacket ex fuel d with
    | .ret _ d1 => Advance bounded d d1 0 ∧ (d.m_extract_last = false → d1 = d) ∧
        d1 = { d with m_stats := d1.m_stats }
    | .throw _ d1 => Advance bounded d d1 0 ∧ (d.m_extract_last = false → d1 = d) ∧
        d1 = { d with m_stats := d1.m_stats }
    | .diverge => True := by
  rw [hasPacket]
  split_ifs with h0
  · exact ⟨Advance.refl _ d, fun _ => rfl, rfl⟩
  · cases hf : findPacket ex d.m_extract_last fuel d.internal_buffer d.internal_buffer_size
        d.m_stats with
    | diverge => simp only
    | throw e st1 =>
      simp only
      cases hm : d.m_extract_last
      · rw [hm] at hf
        have := (findPacket_first_stats ex _ _ _ _).2 _ _ hf
        subst this
        refine ⟨?_, fun _ => (by cases d; simp_all), trivial⟩
        constructor <;> simp [hm, Driver.Inv]
      · rw [hm] at hf
        have := (findPacket_last_stats ex _ _ _ _).2 _ _ hf
        refine ⟨?_, fun h => (by cases h), trivial⟩
        constructor <;> simp [hm, Driver.Inv, this]
    | ret packet st1 =>
      simp only
      have hb := findPacket_ret_bounds ex _ _ _ _ _ _ _ hf
      cases hm : d.m_extract_last
      · rw [hm] at hf
        have := (findPacket_first_stats ex _ _ _ _).1 _ _ hf
        subst this
        refine ⟨?_, fun _ => (by cases d; simp_all), trivial⟩
        constructor <;> simp [hm, Driver.Inv]
      · rw [hm] at hf
        have := (findPacket_last_stats ex _ _ _ _).1 _ _ hf
        refine ⟨?_, fun h => (by cases h), trivial⟩
        constructor <;> simp [hm, Driver.Inv, this]
        omega

/-- One public call other than `resetStatus`, when the fuel suffices for it. -/
theorem Driver.call_advance {σ : Type} (io : IOStream σ) (ex : Extractor) (fuel : Nat)
    (d d1 : Driver σ) (op : Op σ) (r : Reply) (hop : op ≠ Op.reset_status)
    (h : d.call io ex fuel op = some (r, d1)) : Advance (ReadsWithin io) d d1 r.length := by
  cases op with
  | read_packet out n pt fbt =>
    have hd := readPacket_outcome io ex fuel d out n pt fbt
    simp only [Driver.call] at h
    cases hx : readPacket io ex fuel d out n pt fbt with
    | diverge => rw [hx] at h; cases h
    | throw e s =>
      obtain ⟨d2, out2⟩ := s
      rw [hx] at h hd; cases h
      exact hd
    | ret v s =>
      obtain ⟨d2, out2⟩ := s
      rw [hx] at h hd; cases h
      exact hd
  | has_packet =>
    have hd := hasPacket_outcome (ReadsWithin io) ex fuel d
    simp only [Driver.call] at h
    cases hx : hasPacket ex fuel d with
    | diverge => rw [hx] at h; cases h
    | throw e s => rw [hx] at h hd; cases h; exact hd.1
    | ret v s => rw [hx] at h hd; cases h; exact hd.1
  | clear =>
    simp only [Driver.call, Option.some.injEq, Prod.mk.injEq] at h
    obtain ⟨rfl, rfl⟩ := h
    refine ⟨rfl, rfl, rfl, le_refl _, le_refl _, fun _ => by simp [Reply.length, clear],
      fun _ => by simp [Reply.length, clear], ?_⟩
    intro _ hi
    simp only [Driver.Inv, clear] at hi ⊢
    omega
  | status =>
    simp only [Driver.call, Option.some.injEq, Prod.mk.injEq] at h
    obtain ⟨rfl, rfl⟩ := h
    exact Advance.of_frame _ _ _ rfl rfl rfl rfl rfl rfl
  | reset_status => exact absurd rfl hop
  | set_stream w =>
    simp only [Driver.call, Option.some.injEq, Prod.mk.injEq] at h
    obtain ⟨rfl, rfl⟩ := h
    exact Advance.of_frame _ _ _ rfl rfl rfl rfl rfl rfl
  | close =>
    simp only [Driver.call, Option.some.injEq, Prod.mk.injEq] at h
    obtain ⟨rfl, rfl⟩ := h
    exact Advance.of_frame _ _ _ rfl rfl rfl rfl rfl rfl

/-- A sequence of public calls without `resetStatus`, against the lengths of
the packets it returned. -/
theorem Driver.run_advance {σ : Type} (io : IOStream σ) (ex : Extractor) (fuel : Nat) :
    ∀ (ops : List (Op σ)) (d : Driver σ), (∀ op ∈ ops, op ≠ Op.reset_status) →
      (Driver.run io ex fuel d ops).2.m_extract_last = d.m_extract_last ∧
      (d.m_extract_last = false →
        (Driver.run io ex fuel d ops).2.m_stats.good_rx =
          d.m_stats.good_rx + ((Driver.run io ex fuel d ops).1.map Reply.length).sum) ∧
      (d.m_extract_last = true →
        d.m_stats.good_rx + ((Driver.run io ex fuel d ops).1.map Reply.length).sum ≤
          (Driver.run io ex fuel d ops).2.m_stats.good_rx) := by
  intro ops
  induction ops with
  | nil => intro d _; simp [Driver.run]
  | cons op ops ih =>
    intro d hno
    rw [Driver.run]
    cases hc : d.call io ex fuel op with
    | none => simp
    | some p =>
      obtain ⟨r, d1⟩ := p
      have ha := Driver.call_advance io ex fuel d d1 op r (hno op (List.mem_cons_self _ _)) hc
      obtain ⟨h1, h2, h3⟩ := ih d1 (fun o ho => hno o (List.mem_cons_of_mem _ ho))
      simp only [List.map_cons, List.sum_cons]
      refine ⟨h1.trans ha.mode_eq, ?_, ?_⟩
      · intro hm
        have a := ha.good_first hm
        have b := h2 (ha.mode_eq.trans hm)
        omega
      · intro hm
        have a := ha.good_last hm
        have b := h3 (ha.mode_eq.trans hm)
        omega

/-- The lengths of the packets that a sequence of public calls without
`resetStatus` returned add up to no less than 0. -/
theorem Driver.run_lengths_nonneg {σ : Type} (io : IOStream σ) (ex : Extractor) (fuel : Nat) :
    ∀ (ops : List (Op σ)) (d : Driver σ), (∀ op ∈ ops, op ≠ Op.reset_status) →
      0 ≤ ((Driver.run io ex fuel d ops).1.map Reply.length).sum := by
  intro ops
  induction ops with
  | nil => intro d _; simp [Driver.run]
  | cons op ops ih =>
    intro d hno
    rw [Driver.run]
    cases hc : d.call io ex fuel op with
    | none => simp
    | some p =>
      obtain ⟨r, d1⟩ := p
      have ha := Driver.call_advance io ex fuel d d1 op r (hno op (List.mem_cons_self _ _)) hc
      have h1 := ih d1 (fun o ho => hno o (List.mem_cons_of_mem _ ho))
      have h2 := ha.len_nonneg
      simp only [List.map_cons, List.sum_cons]
      omega

/-- C7, as amended.  Over every sequence of public calls without `resetStatus`:
in first-match mode `good_rx` ends as its value at the start plus the sum of the
lengths of the packets `readPacket` returned (a `readPacket` that returns `l`
adds exactly `l`; one that raises, and every `hasPacket`, adds nothing), and the
counter handed out by `getStatus` is the counter handed out at the start plus
that sum, modulo `2^32`.  In extract_last mode the sum of the returned lengths
is at most what was added to `good_rx`; and as long as the counter has not
wrapped, its total being still below `2^32`, the counter handed out by
`getStatus` is at least the counter handed out at the start plus that sum; in
particular, from a counter of 0, the sum of the returned lengths is at most the
counter. -/
theorem good_rx_against_returned {σ : Type} (io : IOStream σ) (ex : Extractor) (fuel : Nat)
    (d0 : Driver σ) (ops : List (Op σ)) (hno : ∀ op ∈ ops, op ≠ Op.reset_status) :
    (d0.m_extract_last = false →
      (Driver.run io ex fuel d0 ops).2.m_stats.good_rx =
        d0.m_stats.good_rx + ((Driver.run io ex fuel d0 ops).1.map Reply.length).sum ∧
      (getStatus (Driver.run io ex fuel d0 ops).2).1.good_rx =
        (d0.m_stats.good_rx + ((Driver.run io ex fuel d0 ops).1.map Reply.length).sum)
          % 4294967296 ∧
      (getStatus (Driver.run io ex fuel d0 ops).2).1.good_rx =
        ((getStatus d0).1.good_rx + ((Driver.run io ex fuel d0 ops).1.map Reply.length).sum)
          % 4294967296) ∧
    (d0.m_extract_last = true →
      d0.m_stats.good_rx + ((Driver.run io ex fuel d0 ops).1.map Reply.length).sum ≤
        (Driver.run io ex fuel d0 ops).2.m_stats.good_rx ∧
      (0 ≤ d0.m_stats.good_rx →
        (Driver.run io ex fuel d0 ops).2.m_stats.good_rx < 4294967296 →
        (getStatus d0).1.good_rx + ((Driver.run io ex fuel d0 ops).1.map Reply.length).sum ≤
          (getStatus (Driver.run io ex fuel d0 ops).2).1.good_rx)) := by
  obtain ⟨-, h2, h3⟩ := Driver.run_advance io ex fuel ops d0 hno
  have h4 := Driver.run_lengths_nonneg io ex fuel ops d0 hno
  refine ⟨fun hm => ⟨h2 hm, ?_, ?_⟩, fun hm => ⟨h3 hm, fun h0 hw => ?_⟩⟩
  · simp only [getStatus, Status.stored, asUnsigned]
    rw [h2 hm]
  · simp only [getStatus, Status.stored, asUnsigned]
    rw [h2 hm]
    omega
  · have h5 := h3 hm
    simp only [getStatus, Status.stored, asUnsigned]
    omega

/-- Witness of C7 as amended.  Two back-to-back packets, first-match mode, no
stream: a query and three reads; the reads return 4, 4 and raise, and `good_rx`
ends at 8.  The same two packets delivered by a stream in extract_last mode:
the one read returns 4, the length of the last packet, and `getStatus` hands
out `good_rx = 8`. -/
theorem good_rx_against_returned_witness :
    (Driver.run feedStream aaExtractor 20
        (Driver.holding [0xAA, 1, 2, 3, 0xAA, 4, 5, 6] 8 false none)
        [Op.has_packet, Op.read_packet (List.replicate 8 0) 8 10 10,
         Op.read_packet (List.replicate 8 0) 8 10 10,
         Op.read_packet (List.replicate 8 0) 8 10 10]).1 =
      [Reply.flag true, Reply.packet 4 [0xAA, 1, 2, 3, 0, 0, 0, 0],
       Reply.packet 4 [0xAA, 4, 5, 6, 0, 0, 0, 0], Reply.failed Thrown.timeout_packet] ∧
    (Driver.run feedStream aaExtractor 20
        (Driver.holding [0xAA, 1, 2, 3, 0xAA, 4, 5, 6] 8 false none)
        [Op.has_packet, Op.read_packet (List.replicate 8 0) 8 10 10,
         Op.read_packet (List.replicate 8 0) 8 10 10,
         Op.read_packet (List.replicate 8 0) 8 10 10]).2.m_stats.good_rx = 8 ∧
    (Driver.run feedStream aaExtractor 20
        (Driver.holding [0xAA, 1, 2, 3, 0xAA, 4, 5, 6] 8 false none)
        [Op.has_packet, Op.read_packet (List.replicate 8 0) 8 10 10,
         Op.read_packet (List.replicate 8 0) 8 10 10,
         Op.read_packet (List.replicate 8 0) 8 10 10]).2.m_stats.good_rx =
      (Driver.holding [0xAA, 1, 2, 3, 0xAA, 4, 5, 6] 8 false
          (none : Option Feed)).m_stats.good_rx +
        ((Driver.run feedStream aaExtractor 20
          (Driver.holding [0xAA, 1, 2, 3, 0xAA, 4, 5, 6] 8 false none)
          [Op.has_packet, Op.read_packet (List.replicate 8 0) 8 10 10,
           Op.read_packet (List.replicate 8 0) 8 10 10,
           Op.read_packet (List.replicate 8 0) 8 10 10]).1.map Reply.length).sum ∧
    (Driver.run feedStream aaExtractor 20
        (Driver.holding [] 8 true (some { pending := [[0xAA, 1, 2, 3, 0xAA, 4, 5, 6]], clock := 0 }))
        [Op.read_packet (List.replicate 8 0) 8 10 10, Op.status]).1 =
      [Reply.packet 4 [0xAA, 4, 5, 6, 0, 0, 0, 0],
       Reply.stats { tx := 0, good_rx := 8, bad_rx := 0, queued_bytes := 0 }] ∧
    (getStatus (Driver.holding [] 8 true
        (some ({ pending := [[0xAA, 1, 2, 3, 0xAA, 4, 5, 6]], clock := 0 } : Feed)))).1.good_rx +
        ((Driver.run feedStream aaExtractor 20
          (Driver.holding [] 8 true
            (some { pending := [[0xAA, 1, 2, 3, 0xAA, 4, 5, 6]], clock := 0 }))
          [Op.read_packet (List.replicate 8 0) 8 10 10, Op.status]).1.map Reply.length).sum ≤
      (getStatus (Driver.run feedStream aaExtractor 20
          (Driver.holding [] 8 true
            (some { pending := [[0xAA, 1, 2, 3, 0xAA, 4, 5, 6]], clock := 0 }))
          [Op.read_packet (List.replicate 8 0) 8 10 10, Op.status]).2).1.good_rx :=
  ⟨by decide, by decide,
   ((good_rx_against_returned feedStream aaExtractor 20
      (Driver.holding [0xAA, 1, 2, 3, 0xAA, 4, 5, 6] 8 false none)
      [Op.has_packet, Op.read_packet (List.replicate 8 0) 8 10 10,
       Op.read_packet (List.replicate 8 0) 8 10 10,
       Op.read_packet (List.replicate 8 0) 8 10 10]
      (by intro op hop heq; subst heq; simp at hop)).1
        rfl).1,
   by decide,
   ((good_rx_against_returned feedStream aaExtractor 20
      (Driver.holding [] 8 true
        (some { pending := [[0xAA, 1, 2, 3, 0xAA, 4, 5, 6]], clock := 0 }))
      [Op.read_packet (List.replicate 8 0) 8 10 10, Op.status]
      (by intro op hop heq; subst heq; simp at hop)).2
        rfl).2 (by decide) (by decide)⟩

/-- C7 fails as stated once the counter wraps.  A framer in extract_last mode
whose `good_rx` stands at `4294967295 = 2^32 - 1`, with one packet of four bytes
queued and no stream.  The read returns 4, and `getStatus` then hands out
`good_rx = 3`: the `unsigned int` went round.  Whatever the reads before had
returned, the returned lengths now add up to 4 at least, more than the
counter. -/
theorem good_rx_wraps_below_returned :
    (Driver.run feedStream aaExtractor 20
        ({ internal_buffer := [0xAA, 1, 2, 3, 0, 0, 0, 0], internal_buffer_size := 4,
           MAX_PACKET_SIZE := 8, m_stream := none, m_extract_last := true,
           m_stats := { tx := 0, good_rx := 4294967295, bad_rx := 0, queued_bytes := 0 },
           read_log := [], write_log := [] } : Driver Feed)
        [Op.read_packet (List.replicate 8 0) 8 10 10, Op.status]).1 =
      [Reply.packet 4 [0xAA, 1, 2, 3, 0, 0, 0, 0],
       Reply.stats { tx := 0, good_rx := 3, bad_rx := 0, queued_bytes := 0 }] ∧
    (getStatus
        ({ internal_buffer := [0xAA, 1, 2, 3, 0, 0, 0, 0], internal_buffer_size := 4,
           MAX_PACKET_SIZE := 8, m_stream := none, m_extract_last := true,
           m_stats := { tx := 0, good_rx := 4294967295, bad_rx := 0, queued_bytes := 0 },
           read_log := [], write_log := [] } : Driver Feed)).1.good_rx = 4294967295 ∧
    ¬ (((Driver.run feedStream aaExtractor 20
        ({ internal_buffer := [0xAA, 1, 2, 3, 0, 0, 0, 0], internal_buffer_size := 4,
           MAX_PACKET_SIZE := 8, m_stream := none, m_extract_last := true,
           m_stats := { tx := 0, good_rx := 4294967295, bad_rx := 0, queued_bytes := 0 },
           read_log := [], write_log := [] } : Driver Feed)
        [Op.read_packet (List.replicate 8 0) 8 10 10, Op.status]).1.map Reply.length).sum ≤
      (getStatus (Driver.run feedStream aaExtractor 20
        ({ internal_buffer := [0xAA, 1, 2, 3, 0, 0, 0, 0], internal_buffer_size := 4,
           MAX_PACKET_SIZE := 8, m_stream := none, m_extract_last := true,
           m_stats := { tx := 0, good_rx := 4294967295, bad_rx := 0, queued_bytes := 0 },
           read_log := [], write_log := [] } : Driver Feed)
        [Op.read_packet (List.replicate 8 0) 8 10 10, Op.status]).2).1.good_rx) := by
  refine ⟨by decide, by decide, by decide⟩

/-! ## Where the counters go wrong in extract_last mode -/

/-- C8, the code at the failing input.  A fresh framer in extract_last mode
reads `AA 1 2 3 00 00 AA` from its stream: `readPacket` returns the packet,
counts `good_rx = 4` and `bad_rx = 2`, and leaves `00 00 AA` queued.  A call of
`hasPacket` then returns `false` and leaves `bad_rx = 4`, a second one
`bad_rx = 6`: the query counts the two queued bytes of garbage again each time.
On a buffer that holds a whole packet the query does the same to `good_rx`. -/
theorem hasPacket_counts_in_extract_last :
    (Driver.run feedStream aaExtractor 20
        ({ internal_buffer := [0, 0, 0, 0, 0, 0, 0, 0], internal_buffer_size := 0,
           MAX_PACKET_SIZE := 8, m_stream := none, m_extract_last := true,
           m_stats := Status.init, read_log := [], write_log := [] } : Driver Feed)
        [Op.set_stream { pending := [[0xAA, 1, 2, 3, 0, 0, 0xAA]], clock := 0 },
         Op.read_packet (List.replicate 8 0) 8 0 0]).2.m_stats =
      { tx := 0, good_rx := 4, bad_rx := 2, queued_bytes := 0 } ∧
    (Driver.run feedStream aaExtractor 20
        ({ internal_buffer := [0, 0, 0, 0, 0, 0, 0, 0], internal_buffer_size := 0,
           MAX_PACKET_SIZE := 8, m_stream := none, m_extract_last := true,
           m_stats := Status.init, read_log := [], write_log := [] } : Driver Feed)
        [Op.set_stream { pending := [[0xAA, 1, 2, 3, 0, 0, 0xAA]], clock := 0 },
         Op.read_packet (List.replicate 8 0) 8 0 0, Op.has_packet]).2.m_stats =
      { tx := 0, good_rx := 4, bad_rx := 4, queued_bytes := 0 } ∧
    (Driver.run feedStream aaExtractor 20
        ({ internal_buffer := [0, 0, 0, 0, 0, 0, 0, 0], internal_buffer_size := 0,
           MAX_PACKET_SIZE := 8, m_stream := none, m_extract_last := true,
           m_stats := Status.init, read_log := [], write_log := [] } : Driver Feed)
        [Op.set_stream { pending := [[0xAA, 1, 2, 3, 0, 0, 0xAA]], clock := 0 },
         Op.read_packet (List.replicate 8 0) 8 0 0, Op.has_packet, Op.has_packet]).2.m_stats =
      { tx := 0, good_rx := 4, bad_rx := 6, queued_bytes := 0 } ∧
    hasPacket aaExtractor 5 (Driver.holding [0xAA, 1, 2, 3] 8 true (none : Option Unit)) =
      .ret true
        { Driver.holding [0xAA, 1, 2, 3] 8 true (none : Option Unit) with
          m_stats := { tx := 0, good_rx := 4, bad_rx := 0, queued_bytes := 0 } } := by
  refine ⟨by decide, by decide, by decide, by decide⟩

/-- C6, the code at the failing input: a fresh framer in extract_last mode, a
stream that delivers three bytes of garbage and then nothing, two calls of
`readPacket` (both end in a timeout).  Three bytes were delivered;
`bad_rx` is 5, and one byte is still queued. -/
theorem counters_exceed_delivered :
    (Driver.run feedStream aaExtractor 20
        ({ internal_buffer := [0, 0, 0, 0, 0, 0, 0, 0], internal_buffer_size := 0,
           MAX_PACKET_SIZE := 8, m_stream := none, m_extract_last := true,
           m_stats := Status.init, read_log := [], write_log := [] } : Driver Feed)
        [Op.set_stream { pending := [[0, 0, 0]], clock := 0 },
         Op.read_packet (List.replicate 8 0) 8 10 10,
         Op.read_packet (List.replicate 8 0) 8 10 10]).1 =
      [Reply.done, Reply.failed Thrown.timeout_packet, Reply.failed Thrown.timeout_first_byte] ∧
    (Driver.run feedStream aaExtractor 20
        ({ internal_buffer := [0, 0, 0, 0, 0, 0, 0, 0], internal_buffer_size := 0,
           MAX_PACKET_SIZE := 8, m_stream := none, m_extract_last := true,
           m_stats := Status.init, read_log := [], write_log := [] } : Driver Feed)
        [Op.set_stream { pending := [[0, 0, 0]], clock := 0 },
         Op.read_packet (List.replicate 8 0) 8 10 10,
         Op.read_packet (List.replicate 8 0) 8 10 10]).2.m_stats =
      { tx := 0, good_rx := 0, bad_rx := 5, queued_bytes := 0 } ∧
    (Driver.run feedStream aaExtractor 20
        ({ internal_buffer := [0, 0, 0, 0, 0, 0, 0, 0], internal_buffer_size := 0,
           MAX_PACKET_SIZE := 8, m_stream := none, m_extract_last := true,
           m_stats := Status.init, read_log := [], write_log := [] } : Driver Feed)
        [Op.set_stream { pending := [[0, 0, 0]], clock := 0 },
         Op.read_packet (List.replicate 8 0) 8 10 10,
         Op.read_packet (List.replicate 8 0) 8 10 10]).2.delivered = 3 ∧
    (Driver.run feedStream aaExtractor 20
        ({ internal_buffer := [0, 0, 0, 0, 0, 0, 0, 0], internal_buffer_size := 0,
           MAX_PACKET_SIZE := 8, m_stream := none, m_extract_last := true,
           m_stats := Status.init, read_log := [], write_log := [] } : Driver Feed)
        [Op.set_stream { pending := [[0, 0, 0]], clock := 0 },
         Op.read_packet (List.replicate 8 0) 8 10 10,
         Op.read_packet (List.replicate 8 0) 8 10 10]).2.internal_buffer_size = 1 := by
  refine ⟨by decide, by decide, by decide, by decide⟩

/-! ## `hasPacket`, then `readPacket` -/

/-- The view `findPacket` returns does not depend on the counters it starts
from. -/
theorem findPacket_view_indep (ex : Extractor) (last : Bool) :
    ∀ (fuel : Nat) (buffer : List Byte) (n : Int) (st st' : Status) (r : Int × Int)
      (st1 : Status), findPacket ex last fuel buffer n st = .ret r st1 →
        ∃ st1', findPacket ex last fuel buffer n st' = .ret r st1' := by
  intro fuel
  induction fuel with
  | zero => intro buffer n st st' r st1 h; simp [findPacket] at h
  | succ fuel ih =>
    intro buffer n st st' r st1 h
    cases last
    · rw [findPacket_first_eq] at h ⊢
      split_ifs at h ⊢
      any_goals (cases h; exact ⟨_, rfl⟩)
      split at h
      · rename_i np s1 hrec
        obtain ⟨s2, h2⟩ := ih _ _ _ st' _ _ hrec
        rw [h2]
        cases h
        exact ⟨_, rfl⟩
      · cases h
      · cases h
    · rw [findPacket_last_eq] at h ⊢
      split_ifs at h ⊢
      any_goals (cases h; exact ⟨_, rfl⟩)
      all_goals
        split at h
        · rename_i np s1 hrec
          obtain ⟨s2, h2⟩ := ih _ _ _ (countSegment st' (ex (buffer.take n.toNat) n)) _ _ hrec
          rw [h2]
          simp only
          split_ifs at h ⊢ <;> (cases h; exact ⟨_, rfl⟩)
        · cases h
        · cases h

/-- In extract_last mode, behind the packet that `findPacket` returns there is
no further packet: either the packet ends the buffer, or the search of what
follows it, made at a deeper level of the same recursion, found length 0. -/
theorem findPacket_last_tail (ex : Extractor) :
    ∀ (fuel : Nat) (buffer : List Byte) (n : Int) (st : Status) (s l : Int) (st1 : Status),
      findPacket ex true fuel buffer n st = .ret (s, l) st1 → 0 < l →
        s + l = n ∨
        ∃ (fuel1 : Nat) (s1 : Int) (st2 st3 : Status), fuel1 < fuel ∧
          findPacket ex true fuel1 (buffer.drop (s + l).toNat) (n - (s + l)) st2 =
            .ret (s1, 0) st3 := by
  intro fuel
  induction fuel with
  | zero => intro buffer n st s l st1 h; simp [findPacket] at h
  | succ fuel ih =>
    intro buffer n st s l st1 h hl
    rw [findPacket_last_eq] at h
    generalize ex (buffer.take n.toNat) n = r at h
    split_ifs at h with h1 h2 h3 h4 h5
    · cases h; omega
    · cases h; left; omega
    · split at h
      · rename_i np s1 hrec
        have hb := findPacket_ret_bounds ex true _ _ _ _ _ _ hrec
        split_ifs at h with h6
        · cases h
          right
          refine ⟨fuel, np.1, countSegment st l, st1, by omega, ?_⟩
          have : np = (np.1, 0) := by rw [← h6]
          rw [← this]
          simpa using hrec
        · cases h
          rcases ih _ _ _ np.1 np.2 _ hrec hl with h7 | ⟨f1, s2, st2, st3, hf, h8⟩
          · left; omega
          · right
            refine ⟨f1, s2, st2, st3, by omega, ?_⟩
            rw [List.drop_drop] at h8
            have e1 : r.toNat + (np.1 + np.2).toNat = (r + np.1 + np.2).toNat := by omega
            have e2 : n - r - (np.1 + np.2) = n - (r + np.1 + np.2) := by ring
            rw [e1, e2] at h8
            exact h8
      · cases h
      · cases h
    · cases h; omega
    · split at h
      · rename_i np s1 hrec
        have hb := findPacket_ret_bounds ex true _ _ _ _ _ _ hrec
        split_ifs at h with h6
        · cases h; omega
        · cases h
          rcases ih _ _ _ np.1 np.2 _ hrec hl with h7 | ⟨f1, s2, st2, st3, hf, h8⟩
          · left; omega
          · right
            refine ⟨f1, s2, st2, st3, by omega, ?_⟩
            rw [List.drop_drop] at h8
            have e1 : (-r).toNat + (np.1 + np.2).toNat = (-r + np.1 + np.2).toNat := by omega
            have e2 : n + r - (np.1 + np.2) = n - (-r + np.1 + np.2) := by ring
            rw [e1, e2] at h8
            exact h8
      · cases h
      · cases h

/-- What it means that `hasPacket` returned `true`. -/
theorem hasPacket_true {σ : Type} (ex : Extractor) (fuel : Nat) (d d1 : Driver σ)
    (h : hasPacket ex fuel d = .ret true d1) :
    0 < d.internal_buffer_size ∧
      ∃ (s l : Int) (st1 : Status),
        findPacket ex d.m_extract_last fuel d.internal_buffer d.internal_buffer_size d.m_stats =
          .ret (s, l) st1 ∧ 0 < l ∧ d1 = { d with m_stats := st1 } := by
  rw [hasPacket] at h
  split_ifs at h with h0
  · cases h
  · cases hf : findPacket ex d.m_extract_last fuel d.internal_buffer d.internal_buffer_size
        d.m_stats with
    | diverge => rw [hf] at h; cases h
    | throw e st1 => rw [hf] at h; cases h
    | ret packet st1 =>
      rw [hf] at h
      simp only [Outcome.ret.injEq, decide_eq_true_eq] at h
      have hb := findPacket_ret_bounds ex _ _ _ _ _ _ _ hf
      refine ⟨by omega, packet.1, packet.2, st1, rfl, h.1, h.2.symm⟩

/-- `doPacketExtraction` when a search of the internal buffer, with whatever
fuel below and whatever counters, is known to yield the view `(s, l)`. -/
theorem doPacketExtraction_view {σ : Type} (ex : Extractor) (fuel0 fuel : Nat)
    (hfuel : fuel0 ≤ fuel) (d : Driver σ) (out : List Byte) (st0 : Status) (s l : Int)
    (st1 : Status) (hcap : d.internal_buffer_size ≤ d.internal_buffer.length)
    (hfind : findPacket ex d.m_extract_last fuel0 d.internal_buffer d.internal_buffer_size st0 =
      .ret (s, l) st1) :
    ∃ (d1 : Driver σ) (out1 : List Byte),
      doPacketExtraction ex fuel d out = .ret l (d1, out1) ∧
      out1.take l.toNat =
        ((d.internal_buffer.take d.internal_buffer_size.toNat).drop s.toNat).take l.toNat ∧
      out1.drop l.toNat = out.drop l.toNat ∧
      d1.internal_buffer_size = d.internal_buffer_size - s - l ∧
      d1.internal_buffer.take d1.internal_buffer_size.toNat =
        (d.internal_buffer.take d.internal_buffer_size.toNat).drop (s + l).toNat ∧
      d1.internal_buffer.length = d.internal_buffer.length ∧
      d1.MAX_PACKET_SIZE = d.MAX_PACKET_SIZE ∧ d1.m_stream = d.m_stream ∧
      d1.m_extract_last = d.m_extract_last := by
  obtain ⟨st2, h2⟩ := findPacket_view_indep ex _ _ _ _ _ d.m_stats _ _ hfind
  have h3 : findPacket ex d.m_extract_last fuel d.internal_buffer d.internal_buffer_size
      d.m_stats = .ret (s, l) st2 := by
    rw [findPacket_fuel_le ex _ fuel0 fuel _ _ _ hfuel (by rw [h2]; simp), h2]
  obtain ⟨d1, out1, a1, a2, a3, a4, a5, -, -, -, a9, a10, a11, a12, -, -⟩ :=
    doPacketExtraction_spec ex fuel d out s l st2 hcap h3
  exact ⟨d1, out1, a1, a2, a3, a4, a5, a9, a10, a11, a12⟩

/-- What lies behind the returned packet holds no packet: the search of the
buffer as `doPacketExtraction` leaves it yields length 0. -/
theorem findPacket_after_last {σ : Type} (ex : Extractor) (fuel0 : Nat) (d d2 : Driver σ)
    (st0 : Status) (s l : Int) (st1 : Status)
    (hfind : findPacket ex true fuel0 d.internal_buffer d.internal_buffer_size st0 =
      .ret (s, l) st1) (hl : 0 < l)
    (a4 : d2.internal_buffer_size = d.internal_buffer_size - s - l)
    (a5 : d2.internal_buffer.take d2.internal_buffer_size.toNat =
      (d.internal_buffer.take d.internal_buffer_size.toNat).drop (s + l).toNat)
    (hu : 0 < d2.internal_buffer_size) :
    ∃ (fuel1 : Nat) (s1 : Int) (st2 st3 : Status), fuel1 < fuel0 ∧
      findPacket ex true fuel1 d2.internal_buffer d2.internal_buffer_size st2 =
        .ret (s1, 0) st3 := by
  obtain ⟨hn, hs, -, hsl⟩ := findPacket_ret_bounds ex _ _ _ _ _ _ _ hfind
  simp only at hs hsl
  rcases findPacket_last_tail ex _ _ _ _ _ _ _ hfind hl with h | ⟨f1, s1, st2, st3, hf, h⟩
  · omega
  · refine ⟨f1, s1, st2, st3, hf, ?_⟩
    rw [← findPacket_take, a5, List.drop_take]
    have e1 : d2.internal_buffer_size = d.internal_buffer_size - (s + l) := by omega
    have e2 : d.internal_buffer_size.toNat - (s + l).toNat =
        (d.internal_buffer_size - (s + l)).toNat := by omega
    rw [e1, e2, findPacket_take]
    exact h

/-- `extractPacketFromInternalBuffer` on a buffer whose search yields a packet
of `l > 0` bytes: it returns `l`, in both modes, with the packet in `out`. -/
theorem extractPacketFromInternalBuffer_of_view {σ : Type} (ex : Extractor) (fuel0 fuel : Nat)
    (hfuel : fuel0 < fuel) (d : Driver σ) (out : List Byte) (st0 : Status) (s l : Int)
    (st1 : Status) (hfit : d.internal_buffer_size ≤ d.internal_buffer.length)
    (hfind : findPacket ex d.m_extract_last fuel0 d.internal_buffer d.internal_buffer_size st0 =
      .ret (s, l) st1) (hl : 0 < l) :
    ∃ (d2 : Driver σ) (out2 : List Byte),
      extractPacketFromInternalBuffer ex fuel d out = .ret (l, false) (d2, out2) ∧
      out2.take l.toNat =
        ((d.internal_buffer.take d.internal_buffer_size.toNat).drop s.toNat).take l.toNat ∧
      d2.m_stream = d.m_stream := by
  obtain ⟨hn, hs, -, hsl⟩ := findPacket_ret_bounds ex _ _ _ _ _ _ _ hfind
  simp only at hs hsl
  have hpos : 0 < d.internal_buffer_size := by omega
  obtain ⟨f, rfl⟩ : ∃ f, fuel = f + 1 := ⟨fuel - 1, by omega⟩
  have hf0 : 0 < fuel0 := by
    rcases Nat.eq_zero_or_pos fuel0 with h | h
    · subst h; simp [findPacket] at hfind
    · exact h
  obtain ⟨d2, out2, a1, a2, a3, a4, a5, a6, a7, a8, a9⟩ :=
    doPacketExtraction_view ex fuel0 f (by omega) d out st0 s l st1 hfit hfind
  rw [extractPacketFromInternalBuffer, extractPacketFromInternalBufferLoop]
  simp only [gt_iff_lt, hpos, if_true, a1, ne_eq, ne_of_gt hl, not_false_eq_true, false_or]
  cases hm : d.m_extract_last with
  | false =>
    rw [hm] at a9
    simp only [a9, if_true]
    exact ⟨d2, out2, rfl, a2, a8⟩
  | true =>
    rw [hm] at a9 hfind
    simp only [a9, Bool.true_eq_false, if_false]
    obtain ⟨f', rfl⟩ : ∃ f', f = f' + 1 := ⟨f - 1, by omega⟩
    rw [extractPacketFromInternalBufferLoop]
    by_cases hu : d2.internal_buffer_size > 0
    · simp only [hu, if_true]
      obtain ⟨f1, s1, st2, st3, hf1, h1⟩ :=
        findPacket_after_last ex fuel0 d d2 st0 s l st1 hfind hl a4 a5 hu
      rw [← a9] at h1
      obtain ⟨d3, out3, b1, -, b3, -, -, -, -, b8, -⟩ :=
        doPacketExtraction_view ex f1 f' (by omega) d2 out2 st2 s1 0 st3 (by omega) h1
      rw [b1]
      simp only [ne_eq, not_true_eq_false, if_false, true_or, if_true]
      refine ⟨d3, out3, rfl, ?_, b8.trans a8⟩
      have : out3 = out2 := by simpa using b3
      rw [this]; exact a2
    · simp only [hu, if_false]
      exact ⟨d2, out2, rfl, a2, a8⟩

/-- `readPacketInternal` on a buffer whose search yields a packet of `l > 0`
bytes: in first-match mode it returns `l` at once, the stream untouched; in
extract_last mode it goes on to read, and returns `l` when that read delivers
nothing. -/
theorem readPacketInternal_of_view {σ : Type} (io : IOStream σ) (ex : Extractor)
    (fuel0 fuel : Nat) (hfuel : fuel0 < fuel) (d : Driver σ) (out : List Byte)
    (out_buffer_size : Int) (hcap : d.MAX_PACKET_SIZE ≤ out_buffer_size) (w : σ)
    (hw : d.m_stream = some w) (st0 : Status) (s l : Int) (st1 : Status)
    (hfit : d.internal_buffer_size ≤ d.internal_buffer.length)
    (hfind : findPacket ex d.m_extract_last fuel0 d.internal_buffer d.internal_buffer_size st0 =
      .ret (s, l) st1) (hl : 0 < l)
    (hcase : d.m_extract_last = false ∨ ∀ n, (io.read w n).1 = some []) :
    ∃ (d2 : Driver σ) (out2 : List Byte),
      readPacketInternal io ex fuel d out out_buffer_size = .ret (l, false) (d2, out2) ∧
      out2.take l.toNat =
        ((d.internal_buffer.take d.internal_buffer_size.toNat).drop s.toNat).take l.toNat ∧
      (d.m_extract_last = false → d2.m_stream = some w) ∧
      (d.m_extract_last = true →
        d2.m_stream = some (io.read w (d.MAX_PACKET_SIZE - d2.internal_buffer_size)).2) := by
  obtain ⟨hn, hs, -, hsl⟩ := findPacket_ret_bounds ex _ _ _ _ _ _ _ hfind
  simp only at hs hsl
  have hpos : 0 < d.internal_buffer_size := by omega
  have hf0 : 0 < fuel0 := by
    rcases Nat.eq_zero_or_pos fuel0 with h | h
    · subst h; simp [findPacket] at hfind
    · exact h
  obtain ⟨d2, out2, a1, a2, a3, a4, a5, a6, a7, a8, a9⟩ :=
    doPacketExtraction_view ex fuel0 fuel (by omega) d out st0 s l st1 hfit hfind
  rw [readPacketInternal]
  simp only [not_lt.mpr hcap, if_false, gt_iff_lt, hpos, if_true, a1, ne_eq, ne_of_gt hl,
    not_false_eq_true, true_and]
  cases hm : d.m_extract_last with
  | false =>
    rw [hm] at a9
    simp only [a9, if_true]
    exact ⟨d2, out2, rfl, a2, fun _ => a8.trans hw, fun h => (by cases h)⟩
  | true =>
    rw [hm] at a9
    simp only [a9, Bool.true_eq_false, if_false]
    obtain ⟨f, rfl⟩ : ∃ f, fuel = f + 1 := ⟨fuel - 1, by omega⟩
    rw [readPacketInternalLoop]
    have hw2 : d2.m_stream = some w := a8.trans hw
    rcases hcase with h | h
    · rw [hm] at h; cases h
    · have hr := h (d2.MAX_PACKET_SIZE - d2.internal_buffer_size)
      simp only [hw2]
      cases hrd : io.read w (d2.MAX_PACKET_SIZE - d2.internal_buffer_size) with
      | mk res w1 =>
        rw [hrd] at hr
        simp only at hr
        subst hr
        simp only [List.length_nil, Nat.cast_zero, gt_iff_lt, lt_self_iff_false, if_false]
        refine ⟨_, out2, rfl, a2, fun h => (by cases h), fun _ => ?_⟩
        simp only [← a7, hrd]

/-- `readPacket` on a buffer whose search yields a packet of `l > 0` bytes. -/
theorem readPacket_of_view {σ : Type} (io : IOStream σ) (ex : Extractor) (fuel0 fuel : Nat)
    (hfuel : fuel0 + 2 ≤ fuel) (d : Driver σ) (out : List Byte)
    (buffer_size packet_timeout first_byte_timeout : Int)
    (hcap : d.MAX_PACKET_SIZE ≤ buffer_size) (st0 : Status) (s l : Int) (st1 : Status)
    (hfit : d.internal_buffer_size ≤ d.internal_buffer.length)
    (hfind : findPacket ex d.m_extract_last fuel0 d.internal_buffer d.internal_buffer_size st0 =
      .ret (s, l) st1) (hl : 0 < l)
    (hcase : d.m_extract_last = false ∨ d.m_stream = none ∨
      ∃ w, d.m_stream = some w ∧ ∀ n, (io.read (io.now w).2 n).1 = some []) :
    ∃ (d2 : Driver σ) (out2 : List Byte),
      readPacket io ex fuel d out buffer_size packet_timeout first_byte_timeout =
        .ret l (d2, out2) ∧
      out2.take l.toNat =
        ((d.internal_buffer.take d.internal_buffer_size.toNat).drop s.toNat).take l.toNat ∧
      (d.m_stream = none → d2.m_stream = none) ∧
      (∀ w, d.m_stream = some w → d.m_extract_last = false →
        d2.m_stream = some (io.now w).2) ∧
      (∀ w, d.m_stream = some w → d.m_extract_last = true →
        d2.m_stream =
          some (io.read (io.now w).2 (d.MAX_PACKET_SIZE - d2.internal_buffer_size)).2) := by
  rw [readPacket]
  simp only [not_lt.mpr hcap, if_false]
  generalize (if first_byte_timeout > packet_timeout then (-1 : Int) else first_byte_timeout)
    = first_byte_timeout1
  rcases hst : d.m_stream with _ | w
  · simp only
    obtain ⟨d2, out2, a1, a2, a3⟩ :=
      extractPacketFromInternalBuffer_of_view ex fuel0 fuel (by omega) d out st0 s l st1 hfit
        hfind hl
    rw [a1]
    simp only [ne_eq, ne_of_gt hl, not_false_eq_true, if_true]
    refine ⟨d2, out2, rfl, a2, fun _ => a3.trans hst, fun w h => (by cases h),
      fun w h => (by cases h)⟩
  · simp only
    obtain ⟨f, rfl⟩ : ∃ f, fuel = f + 1 := ⟨fuel - 1, by omega⟩
    have hcase' : d.m_extract_last = false ∨ ∀ n, (io.read (io.now w).2 n).1 = some [] := by
      rcases hcase with h | h | ⟨w', h1, h2⟩
      · exact Or.inl h
      · rw [hst] at h; cases h
      · rw [hst] at h1; cases h1; exact Or.inr h2
    obtain ⟨d2, out2, a1, a2, a3, a4⟩ :=
      readPacketInternal_of_view io ex fuel0 f (by omega)
        ({ d with m_stream := some (io.now w).2 } : Driver σ) out buffer_size hcap (io.now w).2
        rfl st0 s l st1 hfit hfind hl hcase'
    rw [readPacketLoop, a1]
    simp only [gt_iff_lt, hl, if_true]
    refine ⟨d2, out2, rfl, a2, fun h => (by cases h), fun w' h hm => ?_, fun w' h hm => ?_⟩
    · cases h; exact a3 hm
    · cases h; exact a4 hm

/-- C9, as amended.  Let `hasPacket` return `true`, `findPacket` having
reported the view `(s, l)`, and let the next call be `readPacket` with an
output capacity of at least `max_packet_size` and any two timeouts.  In
first-match mode (stream attached or not), in extract_last mode with no stream
attached, and in extract_last mode with a stream whose non-blocking read has
nothing to deliver, `readPacket` returns exactly `l` with the packet in `out`.
It does not wait on the stream: without a stream nothing is touched; in
first-match mode the only thing done outside the driver is the reading of the
clock by which the call starts; in extract_last mode with a stream attached
there is in addition the one `read` that delivers nothing. -/
theorem readPacket_after_hasPacket {σ : Type} (io : IOStream σ) (ex : Extractor)
    (fuel fuel1 : Nat) (hfuel : fuel + 2 ≤ fuel1) (d d1 : Driver σ) (out : List Byte)
    (buffer_size packet_timeout first_byte_timeout : Int)
    (hcap : d.MAX_PACKET_SIZE ≤ buffer_size)
    (hfit : d.internal_buffer_size ≤ d.internal_buffer.length)
    (hhas : hasPacket ex fuel d = .ret true d1)
    (hcase : d.m_extract_last = false ∨ d.m_stream = none ∨
      ∃ w, d.m_stream = some w ∧ ∀ n, (io.read (io.now w).2 n).1 = some []) :
    ∃ (s l : Int) (st1 : Status),
      findPacket ex d.m_extract_last fuel d.internal_buffer d.internal_buffer_size d.m_stats =
        .ret (s, l) st1 ∧ 0 < l ∧
      ∃ (d2 : Driver σ) (out2 : List Byte),
        readPacket io ex fuel1 d1 out buffer_size packet_timeout first_byte_timeout =
          .ret l (d2, out2) ∧
        out2.take l.toNat =
          ((d.internal_buffer.take d.internal_buffer_size.toNat).drop s.toNat).take l.toNat ∧
        (d.m_stream = none → d2.m_stream = none) ∧
        (∀ w, d.m_stream = some w → d.m_extract_last = false →
          d2.m_stream = some (io.now w).2) ∧
        (∀ w, d.m_stream = some w → d.m_extract_last = true →
          d2.m_stream =
            some (io.read (io.now w).2 (d.MAX_PACKET_SIZE - d2.internal_buffer_size)).2) := by
  obtain ⟨-, s, l, st1, hfind, hl, rfl⟩ := hasPacket_true ex fuel d d1 hhas
  exact ⟨s, l, st1, hfind, hl,
    readPacket_of_view io ex fuel fuel1 hfuel ({ d with m_stats := st1 } : Driver σ) out
      buffer_size packet_timeout first_byte_timeout hcap d.m_stats s l st1 hfit hfind hl hcase⟩

/-- Witness of C9 as amended: two back-to-back packets queued, first-match
mode, a stream attached that has more to deliver; the read after the query
returns the first packet and the stream is not read. -/
theorem readPacket_after_hasPacket_witness :
    (readPacket feedStream aaExtractor 11
        (Driver.holding [0xAA, 1, 2, 3, 0xAA, 4, 5, 6] 8 false
          (some { pending := [[0xAA, 7, 8, 9]], clock := 0 }))
        (List.replicate 8 0) 8 0 0).value = some 4 ∧
    ∃ (l : Int) (d2 : Driver Feed) (out2 : List Byte), 0 < l ∧
      readPacket feedStream aaExtractor 11
        (Driver.holding [0xAA, 1, 2, 3, 0xAA, 4, 5, 6] 8 false
          (some { pending := [[0xAA, 7, 8, 9]], clock := 0 }))
        (List.replicate 8 0) 8 0 0 = .ret l (d2, out2) ∧
      d2.m_stream = some { pending := [[0xAA, 7, 8, 9]], clock := 1 } := by
  obtain ⟨s, l, st1, -, hl, d2, out2, h1, -, -, h2, -⟩ :=
    readPacket_after_hasPacket feedStream aaExtractor 9 11 (by decide)
      (Driver.holding [0xAA, 1, 2, 3, 0xAA, 4, 5, 6] 8 false
        (some { pending := [[0xAA, 7, 8, 9]], clock := 0 }))
      (Driver.holding [0xAA, 1, 2, 3, 0xAA, 4, 5, 6] 8 false
        (some { pending := [[0xAA, 7, 8, 9]], clock := 0 }))
      (List.replicate 8 0) 8 0 0 (by decide) (by decide) (by decide) (Or.inl rfl)
  exact ⟨by decide, l, d2, out2, hl, h1, h2 _ rfl rfl⟩

/-- C9 fails as stated, in extract_last mode with a stream attached.  A framer
of capacity 4 reads `01 02 09` in first-match mode and returns the packet `01`;
`02 09` stays queued.  Switched to extract_last mode, `hasPacket` returns
`true`, `findPacket` reporting a packet of 2 bytes; the next `readPacket` takes
that packet, reads on, finds the packet `01` the stream delivers next and
returns 1.  With capacity 2 and a stream that delivers `03 07` next, the read
after the query raises the length violation. -/
theorem readPacket_after_hasPacket_shorter :
    (findPacket lengthPrefixed true 20
        (setExtractLastPacket (Driver.run feedStream lengthPrefixed 20
          ({ internal_buffer := [0, 0, 0, 0], internal_buffer_size := 0, MAX_PACKET_SIZE := 4,
             m_stream := none, m_extract_last := false, m_stats := Status.init, read_log := [],
             write_log := [] } : Driver Feed)
          [Op.set_stream { pending := [[1, 2, 9], [1]], clock := 0 },
           Op.read_packet [0, 0, 0, 0] 4 0 0]).2 true).internal_buffer
        2 Status.init).value = some (0, 2) ∧
    (Driver.run feedStream lengthPrefixed 20
        (setExtractLastPacket (Driver.run feedStream lengthPrefixed 20
          ({ internal_buffer := [0, 0, 0, 0], internal_buffer_size := 0, MAX_PACKET_SIZE := 4,
             m_stream := none, m_extract_last := false, m_stats := Status.init, read_log := [],
             write_log := [] } : Driver Feed)
          [Op.set_stream { pending := [[1, 2, 9], [1]], clock := 0 },
           Op.read_packet [0, 0, 0, 0] 4 0 0]).2 true)
        [Op.has_packet, Op.read_packet [0, 0, 0, 0] 4 0 0]).1 =
      [Reply.flag true, Reply.packet 1 [1, 9, 0, 0]] ∧
    (Driver.run feedStream lengthPrefixed 20
        (setExtractLastPacket (Driver.run feedStream lengthPrefixed 20
          ({ internal_buffer := [0, 0], internal_buffer_size := 0, MAX_PACKET_SIZE := 2,
             m_stream := none, m_extract_last := false, m_stats := Status.init, read_log := [],
             write_log := [] } : Driver Feed)
          [Op.set_stream { pending := [[1, 1], [3, 7]], clock := 0 },
           Op.read_packet [0, 0] 2 0 0]).2 true)
        [Op.has_packet, Op.read_packet [0, 0] 2 0 0]).1 =
      [Reply.flag true, Reply.failed Thrown.length_error] := by
  refine ⟨by decide, by decide, by decide⟩

/-! ## extract_last mode on back-to-back complete packets -/

/-- The packets that are all there are the first of the packets. -/
theorem takePackets_spec :
    ∀ (ps : List (List Byte)) (n : Nat),
      takePackets ps n <+: ps ∧ (takePackets ps n).flatten.length ≤ n ∧
        takePackets (ps.drop (takePackets ps n).length) (n - (takePackets ps n).flatten.length) = []
          := by
  intro ps
  induction ps with
  | nil => intro n; simp [takePackets]
  | cons p rest ih =>
    intro n
    simp only [takePackets]
    split_ifs with h
    · obtain ⟨h1, h2, h3⟩ := ih (n - p.length)
      refine ⟨by simpa using h1, ?_, ?_⟩
      · simp only [List.flatten_cons, List.length_append]; omega
      · simp only [List.length_cons, List.drop_succ_cons, List.flatten_cons, List.length_append]
        rw [← Nat.sub_sub]
        exact h3
    · simp [takePackets, h]

/-- Every packet of back-to-back complete packets has at least one byte. -/
theorem Framed.nonempty (ex : Extractor) :
    ∀ (ps : List (List Byte)), Framed ex ps → ∀ q ∈ ps, q ≠ [] := by
  intro ps
  induction ps with
  | nil => intro _ q hq; simp at hq
  | cons p rest ih =>
    intro h q hq
    rcases List.mem_cons.mp hq with rfl | hq
    · exact h.1
    · exact ih h.2.2 q hq

/-- What is left of back-to-back complete packets behind the first of them. -/
theorem Framed.drop (ex : Extractor) :
    ∀ (k : Nat) (ps : List (List Byte)), Framed ex ps → Framed ex (ps.drop k) := by
  intro k
  induction k with
  | zero => intro ps h; simpa using h
  | succ k ih =>
    intro ps h
    cases ps with
    | nil => simpa using h
    | cons p rest => simpa using ih rest h.2.2

/-- No packet is all there in no bytes. -/
theorem takePackets_zero (ex : Extractor) (ps : List (List Byte)) (h : Framed ex ps) :
    takePackets ps 0 = [] := by
  cases ps with
  | nil => rfl
  | cons p rest =>
    have := List.length_pos.mpr h.1
    simp only [takePackets]
    rw [if_neg (by omega)]

/-- The view of the last packet, with one more packet in front. -/
theorem lastView_cons (p : List Byte) (cs : List (List Byte)) (hne : ∀ q ∈ cs, q ≠ []) :
    lastView (p :: cs) =
      if (lastView cs).2 = 0 then (0, (p.length : Int))
      else ((p.length : Int) + (lastView cs).1, (lastView cs).2) := by
  rcases List.eq_nil_or_concat cs with rfl | ⟨init, q, rfl⟩
  · simp [lastView]
  · rw [List.concat_eq_append] at hne ⊢
    have hq : 0 < q.length := List.length_pos.mpr (hne q (by simp))
    have h1 : lastView (p :: (init ++ [q])) =
        (((p :: (init ++ [q])).flatten.length : Int) - q.length, (q.length : Int)) := by
      have : (p :: (init ++ [q])).getLast? = some q := by
        rw [← List.cons_append, List.getLast?_append]; simp
      simp only [lastView, this]
    have h2 : lastView (init ++ [q]) =
        (((init ++ [q]).flatten.length : Int) - q.length, (q.length : Int)) := by
      have : (init ++ [q]).getLast? = some q := by
        rw [List.getLast?_append]; simp
      simp only [lastView, this]
    rw [h1, h2]
    simp only
    rw [if_neg (by omega)]
    simp only [List.flatten_cons, List.length_append, Nat.cast_add, Prod.mk.injEq, and_true]
    ring

/-- The search of extract_last mode over a view of back-to-back packets: all
the packets that are all in view are counted in `good_rx`, and the last of them
is the view returned. -/
theorem findPacket_framed (ex : Extractor) :
    ∀ (fuel : Nat) (ps : List (List Byte)) (V : List Byte) (st : Status),
      Framed ex ps → V <+: ps.flatten → V ≠ [] → V.length < fuel →
      ∃ st1, findPacket ex true fuel V V.length st =
          .ret (lastView (takePackets ps V.length)) st1 ∧
        st1.good_rx = st.good_rx + (takePackets ps V.length).flatten.length ∧
        st1.bad_rx = st.bad_rx ∧ st1.tx = st.tx ∧ st1.queued_bytes = st.queued_bytes := by
  intro fuel
  induction fuel with
  | zero => intro ps V st _ _ _ h; omega
  | succ fuel ih =>
    intro ps V st hfr hpre hne hfuel
    cases ps with
    | nil =>
      simp only [List.flatten_nil, List.prefix_nil] at hpre
      exact absurd hpre hne
    | cons p rest =>
      obtain ⟨hp, hex, hrest⟩ := hfr
      have hVlen : V.length ≤ (p ++ rest.flatten).length := by
        have := hpre.length_le; simpa using this
      have hVpos : 0 < V.length := List.length_pos.mpr hne
      have hVeq : (p ++ rest.flatten).take V.length = V := by
        have := List.prefix_iff_eq_take.mp hpre
        simpa using this.symm
      have hr := hex V.length hVlen hVpos
      rw [hVeq] at hr
      have hplen : 0 < p.length := List.length_pos.mpr hp
      rw [findPacket_last_eq]
      simp only [Int.toNat_ofNat, List.take_length, hr, takePackets]
      by_cases h1 : p.length ≤ V.length
      · simp only [h1, if_true]
        rw [if_neg (by omega), if_neg (by omega), if_pos (by omega)]
        by_cases h5 : (V.length : Int) - p.length = 0
        · rw [if_pos h5]
          have e : V.length - p.length = 0 := by omega
          rw [e, takePackets_zero ex rest hrest]
          exact ⟨countSegment st p.length, by simp [lastView], by simp [countSegment],
            by simp [countSegment], rfl, rfl⟩
        · rw [if_neg h5]
          have hV' : V.drop p.length <+: rest.flatten := by
            have h2 : V = p ++ V.drop p.length := by
              conv_lhs => rw [← List.take_append_drop p.length V]
              congr 1
              rw [← hVeq, List.take_take, min_eq_left h1, List.take_left']
              rfl
            rw [h2] at hpre
            simpa using hpre
          have hlen' : (V.drop p.length).length = V.length - p.length := List.length_drop _ _
          obtain ⟨st1, a1, a2, a3, a4, a5⟩ := ih rest (V.drop p.length)
            (countSegment st p.length) hrest hV'
            (by intro h; rw [h] at hlen'; simp at hlen'; omega) (by omega)
          have e : ((V.drop p.length).length : Int) = (V.length : Int) - p.length := by
            rw [hlen']; omega
          rw [e] at a1
          rw [hlen'] at a1 a2
          simp only [Int.toNat_ofNat]
          rw [a1]
          simp only
          refine ⟨st1, ?_, ?_, ?_, ?_, ?_⟩
          · rw [lastView_cons p _ (fun q hq => Framed.nonempty ex rest hrest q
              ((takePackets_spec rest _).1.subset hq))]
            split_ifs <;> rfl
          · rw [a2]
            simp only [countSegment, List.flatten_cons, List.length_append, Nat.cast_add]
            rw [if_neg (by omega)]
            ring
          · rw [a3]; simp [countSegment]
          · rw [a4]; rfl
          · rw [a5]; rfl
      · simp only [h1, if_false]
        rw [if_neg (by omega)]
        simp only [if_true]
        exact ⟨st, by simp [lastView], by simp, rfl, rfl, rfl⟩

/-- The view of the last packet ends where the packets end. -/
theorem lastView_sum (cs : List (List Byte)) :
    (lastView cs).1 + (lastView cs).2 = cs.flatten.length := by
  rcases List.eq_nil_or_concat cs with rfl | ⟨init, q, rfl⟩
  · simp [lastView]
  · rw [List.concat_eq_append]
    have : (init ++ [q]).getLast? = some q := by
      rw [List.getLast?_append]; simp
    simp only [lastView, this]
    ring

/-- The bytes of the view of the last packet are the last packet. -/
theorem lastView_bytes (cs : List (List Byte)) (q : List Byte) (tail : List Byte)
    (h : cs.getLast? = some q) :
    ((cs.flatten ++ tail).drop (lastView cs).1.toNat).take (lastView cs).2.toNat = q ∧
      lastView cs = ((cs.flatten.length : Int) - q.length, (q.length : Int)) := by
  rcases List.eq_nil_or_concat cs with rfl | ⟨init, q', rfl⟩
  · simp at h
  · rw [List.concat_eq_append] at h ⊢
    have hq : (init ++ [q']).getLast? = some q' := by
      rw [List.getLast?_append]; simp
    rw [hq] at h
    cases h
    simp only [lastView, hq, and_true]
    have e0 : (init ++ [q]).flatten.length = init.flatten.length + q.length := by
      simp [List.flatten_append]
    have e1 : ((((init ++ [q]).flatten.length : Nat) : Int) - (q.length : Int)).toNat
        = init.flatten.length := by
      rw [e0]
      omega
    rw [e1]
    simp only [Int.toNat_ofNat, List.flatten_append, List.flatten_cons, List.flatten_nil,
      List.append_nil, List.append_assoc]
    rw [List.drop_left', List.take_left']
    · rfl
    · rfl

/-- `doPacketExtraction` in extract_last mode on a buffer that holds a view of
back-to-back packets: the packets that are all there are taken out and counted
in `good_rx`, the last of them is in `out`, the bytes behind them stay. -/
theorem doPacketExtraction_framed {σ : Type} (ex : Extractor) (fuel : Nat) (d : Driver σ)
    (out : List Byte) (ps : List (List Byte)) (V : List Byte)
    (hmode : d.m_extract_last = true) (hold : d.Holds V) (hfr : Framed ex ps)
    (hpre : V <+: ps.flatten) (hne : V ≠ []) (hfuel : V.length < fuel) :
    ∃ (d2 : Driver σ) (out2 : List Byte),
      doPacketExtraction ex fuel d out =
        .ret (lastView (takePackets ps V.length)).2 (d2, out2) ∧
      d2.Holds (V.drop (takePackets ps V.length).flatten.length) ∧
      (takePackets ps V.length = [] → out2 = out) ∧
      (∀ q, (takePackets ps V.length).getLast? = some q →
        (lastView (takePackets ps V.length)).2 = q.length ∧ out2.take q.length = q) ∧
      d2.m_stats.good_rx = d.m_stats.good_rx + (takePackets ps V.length).flatten.length ∧
      d2.m_stats.bad_rx = d.m_stats.bad_rx ∧
      d2.MAX_PACKET_SIZE = d.MAX_PACKET_SIZE ∧ d2.m_stream = d.m_stream ∧
      d2.m_extract_last = d.m_extract_last := by
  obtain ⟨h1, h2, h3⟩ := hold
  obtain ⟨st1, b1, b2, b3, -, -⟩ := findPacket_framed ex fuel ps V d.m_stats hfr hpre hne hfuel
  have hfind : findPacket ex d.m_extract_last fuel d.internal_buffer d.internal_buffer_size
      d.m_stats = .ret (lastView (takePackets ps V.length)) st1 := by
    rw [hmode, h1, ← findPacket_take, Int.toNat_ofNat, h2]
    exact b1
  have hb := findPacket_ret_bounds ex _ _ _ _ _ _ _ hfind
  generalize hcs : takePackets ps V.length = cs at *
  have hsum := lastView_sum cs
  have hcsV : cs.flatten <+: V := by
    have hp1 : cs <+: ps := by rw [← hcs]; exact (takePackets_spec ps V.length).1
    have hp2 : cs.flatten.length ≤ V.length := by
      rw [← hcs]; exact (takePackets_spec ps V.length).2.1
    obtain ⟨t, ht⟩ := hp1
    have hp3 : cs.flatten <+: ps.flatten := ⟨t.flatten, by rw [← ht, List.flatten_append]⟩
    exact List.prefix_of_prefix_length_le hp3 hpre hp2
  obtain ⟨d2, out2, a1, a2, a3, a4, a5, -, -, a8, a9, a10, a11, a12, -, -⟩ :=
    doPacketExtraction_spec ex fuel d out (lastView cs).1 (lastView cs).2 st1
      (by
        have hV : V.length ≤ d.internal_buffer.length := by
          have := congrArg List.length h2
          rw [List.length_take] at this
          omega
        rw [h1]
        exact_mod_cast hV) hfind
  rw [h1, Int.toNat_ofNat, h2] at a2 a5
  refine ⟨d2, out2, a1, ⟨?_, ?_, by rw [a9, h3, a10]⟩, ?_, ?_, ?_, ?_, a10, a11, a12⟩
  · rw [a4, h1, List.length_drop]
    have := hcsV.length_le
    omega
  · have e : d2.internal_buffer_size.toNat = (V.drop cs.flatten.length).length := by
      rw [a4, h1, List.length_drop]
      have := hcsV.length_le
      omega
    rw [← e, a5, hsum, Int.toNat_ofNat]
  · intro hnil
    rw [hnil] at a3
    simpa [lastView] using a3
  · intro q hq
    obtain ⟨t, ht⟩ := hcsV
    have := lastView_bytes cs q t hq
    rw [ht] at this
    refine ⟨by rw [this.2], ?_⟩
    rw [this.2] at a2
    simp only [Int.toNat_ofNat] at a2
    rw [a2]
    have h5 := this.1
    rw [this.2] at h5
    simpa using h5
  · rw [a8 hmode, b2]
  · rw [a8 hmode, b3]

/-- Storing a chunk behind the live bytes: the live bytes are then the old ones
followed by the chunk, and the array keeps its length. -/
theorem storeAt_spec (arr V c : List Byte) (h2 : arr.take V.length = V)
    (hle : V.length + c.length ≤ arr.length) :
    (storeAt arr (V.length : Int) c).take (V ++ c).length = V ++ c ∧
      (storeAt arr (V.length : Int) c).length = arr.length := by
  simp only [storeAt, Int.toNat_ofNat, h2]
  constructor
  · rw [List.take_left']
    rfl
  · simp only [List.length_append, List.length_drop]
    have := congrArg List.length h2
    rw [List.length_take] at this
    omega

/-- A buffer that holds all the bytes of the packets holds at least the first
packet. -/
theorem takePackets_all (ps : List (List Byte)) (V : List Byte) (hne : ps ≠ [])
    (hV : V = ps.flatten) : takePackets ps V.length ≠ [] := by
  cases ps with
  | nil => exact absurd rfl hne
  | cons p rest =>
    subst hV
    simp only [takePackets, List.flatten_cons, List.length_append]
    rw [if_pos (by omega)]
    simp

/-- What an extraction leaves of back-to-back packets: the packets that were
not yet all in the buffer, the first of them cut short. -/
theorem framed_split (ex : Extractor) (ps : List (List Byte)) (V data : List Byte)
    (hfr : Framed ex ps) (hcat : V ++ data = ps.flatten) :
    ∃ (ps1 : List (List Byte)),
      takePackets ps V.length ++ ps1 = ps ∧ Framed ex ps1 ∧
      (takePackets ps V.length).flatten.length ≤ V.length ∧
      takePackets ps1 (V.drop (takePackets ps V.length).flatten.length).length = [] ∧
      V.drop (takePackets ps V.length).flatten.length ++ data = ps1.flatten := by
  obtain ⟨t1, t2, t3⟩ := takePackets_spec ps V.length
  generalize hcs : takePackets ps V.length = cs at *
  have hsplit : cs ++ ps.drop cs.length = ps := by
    obtain ⟨t, ht⟩ := t1
    rw [← ht, List.drop_left]
  have hcsV : cs.flatten <+: V := by
    have hp3 : cs.flatten <+: ps.flatten := by
      rw [← hsplit, List.flatten_append]
      exact List.prefix_append _ _
    exact List.prefix_of_prefix_length_le hp3 ⟨data, hcat⟩ t2
  have hV1 : cs.flatten ++ V.drop cs.flatten.length = V := by
    obtain ⟨t, ht⟩ := hcsV
    rw [← ht, List.drop_left]
  refine ⟨ps.drop cs.length, hsplit, Framed.drop ex _ _ hfr, t2, ?_, ?_⟩
  · rw [List.length_drop]
    exact t3
  · have h5 : V ++ data = (cs ++ ps.drop cs.length).flatten := by rw [hsplit, hcat]
    rw [List.flatten_append] at h5
    conv at h5 => lhs; rw [← hV1]
    rw [List.append_assoc] at h5
    exact List.append_cancel_left h5

/-- What is left of back-to-back packets after an extraction is shorter than
the buffer. -/
theorem framed_rest_short (ps1 : List (List Byte)) (V1 data : List Byte) (m : Int)
    (hmax : ∀ q ∈ ps1, (q.length : Int) ≤ m) (hpos : 0 < m)
    (htp : takePackets ps1 V1.length = []) (hcat : V1 ++ data = ps1.flatten) :
    (V1.length : Int) < m := by
  cases ps1 with
  | nil =>
    simp only [List.flatten_nil, List.append_eq_nil] at hcat
    rw [hcat.1]
    simpa using hpos
  | cons p1 rest1 =>
    have hp1 := hmax p1 (by simp)
    simp only [takePackets] at htp
    have : ¬ p1.length ≤ V1.length := by
      intro hcon
      rw [if_pos hcon] at htp
      cases htp
    omega

/-- The last packet of those extracted first and those extracted later: the
length remembered and the bytes in `out` are those of the last one. -/
theorem last_of_split (cs ps1 : List (List Byte)) (lv packet_size r : Int)
    (out2 out3 : List Byte) (hn : ∀ q ∈ cs, q ≠ [])
    (e4 : ∀ q, cs.getLast? = some q → lv = q.length ∧ out2.take q.length = q)
    (g2 : ps1 = [] → r = (if lv ≠ 0 then lv else packet_size) ∧ out3 = out2)
    (g3 : ∀ q, ps1.getLast? = some q → r = q.length ∧ out3.take q.length = q) :
    ∀ q, (cs ++ ps1).getLast? = some q → r = q.length ∧ out3.take q.length = q := by
  intro q hq
  rw [List.getLast?_append] at hq
  cases hl : ps1.getLast? with
  | some q1 =>
    rw [hl] at hq
    simp only [Option.or_some, Option.some.injEq] at hq
    subst hq
    exact g3 _ hl
  | none =>
    rw [hl] at hq
    simp only [Option.none_or] at hq
    have hnil : ps1 = [] := List.getLast?_eq_none_iff.mp hl
    obtain ⟨k1, k2⟩ := g2 hnil
    obtain ⟨k3, k4⟩ := e4 q hq
    have hq0 : q ≠ [] := hn q (List.mem_of_mem_getLast? hq)
    have : (q.length : Int) ≠ 0 := by
      have := List.length_pos.mpr hq0
      omega
    rw [k1, k2, k3, if_pos this]
    exact ⟨rfl, k4⟩

/-- The loop of `readPacketInternal` in extract_last mode on a stream that
delivers the rest of back-to-back packets: it ends with the length of the last
packet, the last packet in `out`, every packet counted in `good_rx`, and an
empty internal buffer. -/
theorem readPacketInternalLoop_framed {σ : Type} (io : IOStream σ) (ex : Extractor) :
    ∀ (w : σ) (data : List Byte), Delivers io w data →
    ∀ (fuel : Nat) (ps : List (List Byte)) (V : List Byte) (d : Driver σ) (out : List Byte)
      (packet_size : Int) (rs : Bool),
      d.m_stream = some w → d.m_extract_last = true → d.Holds V → Framed ex ps →
      (∀ p ∈ ps, (p.length : Int) ≤ d.MAX_PACKET_SIZE) → 0 < d.MAX_PACKET_SIZE →
      V ++ data = ps.flatten → takePackets ps V.length = [] →
      V.length + 2 * data.length + 2 ≤ fuel →
      ∃ (r : Int) (rs1 : Bool) (d2 : Driver σ) (out2 : List Byte),
        readPacketInternalLoop io ex fuel packet_size rs d out = .ret (r, rs1) (d2, out2) ∧
        (ps = [] → r = packet_size ∧ out2 = out) ∧
        (∀ q, ps.getLast? = some q → r = q.length ∧ out2.take q.length = q) ∧
        d2.internal_buffer_size = 0 ∧
        d2.m_stats.good_rx = d.m_stats.good_rx + ps.flatten.length ∧
        d2.m_stats.bad_rx = d.m_stats.bad_rx ∧
        d2.MAX_PACKET_SIZE = d.MAX_PACKET_SIZE ∧ d2.m_extract_last = d.m_extract_last := by
  intro w data h
  induction h with
  | done w hread =>
    intro fuel ps V d out packet_size rs hs hmode hold hfr hmax hpos hcat htp hfuel
    have hps : ps = [] := by
      by_contra hne
      exact takePackets_all ps V hne (by simpa using hcat) htp
    subst hps
    have hV : V = [] := by simpa using hcat
    subst hV
    obtain ⟨h1, h2, h3⟩ := hold
    have hroom : 0 < d.MAX_PACKET_SIZE - d.internal_buffer_size := by
      rw [h1]; simpa using hpos
    have hc := hread _ hroom
    obtain ⟨fuel1, rfl⟩ : ∃ f, fuel = f + 1 := ⟨fuel - 1, by omega⟩
    cases hrd : io.read w (d.MAX_PACKET_SIZE - d.internal_buffer_size) with
    | mk o w1 =>
      rw [hrd] at hc
      simp only at hc
      subst hc
      simp only [readPacketInternalLoop, hs, hrd]
      refine ⟨_, _, _, _, rfl, ?_⟩
      simp [h1]
  | more w data hne hread hnext ih =>
    intro fuel ps V d out packet_size rs hs hmode hold hfr hmax hpos hcat htp hfuel
    obtain ⟨p, rest, rfl⟩ : ∃ p rest, ps = p :: rest := by
      cases ps with
      | nil =>
        exfalso
        simp only [List.flatten_nil, List.append_eq_nil] at hcat
        exact hne hcat.2
      | cons p rest => exact ⟨p, rest, rfl⟩
    have hVp : V.length < p.length := by
      simp only [takePackets] at htp
      by_contra hcon
      rw [if_pos (by omega)] at htp
      cases htp
    have hpm := hmax p (by simp)
    have hold0 := hold
    obtain ⟨h1, h2, h3⟩ := hold
    have hroom : 0 < d.MAX_PACKET_SIZE - d.internal_buffer_size := by rw [h1]; omega
    obtain ⟨c, hc, hcne, hclen, hcpre⟩ := hread _ hroom
    have ih1 := ih _ c hroom hc
    obtain ⟨fuel1, rfl⟩ : ∃ f, fuel = f + 1 := ⟨fuel - 1, by omega⟩
    cases hrd : io.read w (d.MAX_PACKET_SIZE - d.internal_buffer_size) with
    | mk o w1 =>
      rw [hrd] at hc ih1
      simp only at hc ih1
      subst hc
      have hcpos : (0 : Int) < (c.length : Int) := by
        have := List.length_pos.mpr hcne
        omega
      have hdata : c ++ data.drop c.length = data := by
        obtain ⟨t, ht⟩ := hcpre
        rw [← ht]
        simp
      have hcap : V.length + c.length ≤ d.internal_buffer.length := by
        rw [h1] at hclen
        omega
      obtain ⟨s1, s2⟩ := storeAt_spec d.internal_buffer V c h2 hcap
      obtain ⟨d1, hd1⟩ : ∃ d1 : Driver σ, d1 =
          { d with m_stream := some w1
                   read_log := c :: d.read_log
                   internal_buffer := storeAt d.internal_buffer d.internal_buffer_size c
                   internal_buffer_size := d.internal_buffer_size + (c.length : Int) } := ⟨_, rfl⟩
      have hmode1 : d1.m_extract_last = true := by rw [hd1]; exact hmode
      have hmax1 : d1.MAX_PACKET_SIZE = d.MAX_PACKET_SIZE := by rw [hd1]
      have hst1 : d1.m_stats = d.m_stats := by rw [hd1]
      have hw1 : d1.m_stream = some w1 := by rw [hd1]
      have hold1 : d1.Holds (V ++ c) := by
        rw [hd1]
        refine ⟨?_, ?_, ?_⟩
        · simp [h1]
        · simp only [h1]
          exact s1
        · simp only [h1]
          rw [s2, h3]
      have hpre1 : V ++ c <+: (p :: rest).flatten := by
        rw [← hcat, ← hdata, ← List.append_assoc]
        exact List.prefix_append _ _
      have hne1 : V ++ c ≠ [] := by simp [hcne]
      have hlen1 : (V ++ c).length < fuel1 := by
        have := congrArg List.length hdata
        simp only [List.length_append] at this ⊢
        omega
      obtain ⟨d2, out2, e1, e2, e3, e4, e5, e6, e7, e8, e9⟩ :=
        doPacketExtraction_framed ex fuel1 d1 out (p :: rest) (V ++ c) hmode1 hold1 hfr hpre1 hne1
          hlen1
      simp only [readPacketInternalLoop, hs, hrd, hcpos, if_true, ← hd1, e1]
      have hcat0 : (V ++ c) ++ data.drop c.length = (p :: rest).flatten := by
        rw [← hcat, List.append_assoc, hdata]
      obtain ⟨ps1, hsplit, hfr1, t2, htp1, hcat1⟩ :=
        framed_split ex (p :: rest) (V ++ c) (data.drop c.length) hfr hcat0
      have hnonempty := Framed.nonempty ex (p :: rest) hfr
      generalize hcs : takePackets (p :: rest) (V ++ c).length = cs at *
      generalize hV1def : (V ++ c).drop cs.flatten.length = V1 at *
      have hV1len : V1.length ≤ (V ++ c).length := by
        rw [← hV1def, List.length_drop]
        omega
      have hmax2 : ∀ q ∈ ps1, (q.length : Int) ≤ d2.MAX_PACKET_SIZE := by
        intro q hq
        rw [e7, hmax1]
        exact hmax q (by rw [← hsplit]; exact List.mem_append_right _ hq)
      have hlt : d2.internal_buffer_size ≠ d2.MAX_PACKET_SIZE := by
        rw [e2.1]
        have := framed_rest_short ps1 V1 _ d2.MAX_PACKET_SIZE hmax2
          (by rw [e7, hmax1]; exact hpos) htp1 hcat1
        omega
      have hfuel1 : V1.length + 2 * (data.drop c.length).length + 2 ≤ fuel1 := by
        have h6 := congrArg List.length hdata
        simp only [List.length_append] at h6 hV1len
        have := List.length_pos.mpr hcne
        rw [List.length_drop]
        omega
      rw [e9, hmode1]
      simp only [Bool.true_eq_false, and_false, if_false, hlt]
      obtain ⟨r, rs1, d3, out3, g1, g2, g3, g4, g5, g6, g7, g8⟩ :=
        ih1 fuel1 ps1 V1 d2 out2
          (if (lastView cs).2 ≠ 0 then (lastView cs).2 else packet_size) true
          (by rw [e8, hw1]) (by rw [e9, hmode1]) e2 hfr1 hmax2 (by rw [e7, hmax1]; exact hpos)
          hcat1 htp1 hfuel1
      refine ⟨r, rs1, d3, out3, g1, (fun h => by cases h), ?_, g4, ?_, ?_, ?_, ?_⟩
      · rw [← hsplit]
        exact last_of_split cs ps1 _ packet_size r out2 out3
          (fun q hq => hnonempty q (by rw [← hsplit]; exact List.mem_append_left _ hq)) e4 g2 g3
      · rw [g5, e5, hst1, ← hsplit, List.flatten_append, List.length_append]
        push_cast
        ring
      · rw [g6, e6, hst1]
      · rw [g7, e7, hmax1]
      · rw [g8, e9, hmode1, hmode]

/-- `readPacketInternal` in extract_last mode when the internal buffer and what
the stream delivers are back-to-back packets: one call takes them all. -/
theorem readPacketInternal_framed {σ : Type} (io : IOStream σ) (ex : Extractor) (fuel : Nat)
    (d : Driver σ) (w : σ) (out : List Byte) (buffer_size : Int)
    (packets : List (List Byte)) (live rest : List Byte)
    (hmode : d.m_extract_last = true) (hs : d.m_stream = some w)
    (hcap : d.MAX_PACKET_SIZE ≤ buffer_size) (hold : d.Holds live) (hne : packets ≠ [])
    (hfr : Framed ex packets) (hmax : ∀ p ∈ packets, (p.length : Int) ≤ d.MAX_PACKET_SIZE)
    (hcat : live ++ rest = packets.flatten) (hdel : Delivers io w rest)
    (hfuel : live.length + 2 * rest.length + 2 ≤ fuel) :
    ∃ (rs1 : Bool) (d2 : Driver σ) (out2 : List Byte),
      readPacketInternal io ex fuel d out buffer_size =
        .ret (((packets.getLast hne).length : Int), rs1) (d2, out2) ∧
      out2.take (packets.getLast hne).length = packets.getLast hne ∧
      d2.internal_buffer_size = 0 ∧
      d2.m_stats.good_rx = d.m_stats.good_rx + packets.flatten.length ∧
      d2.m_stats.bad_rx = d.m_stats.bad_rx := by
  have hnonempty := Framed.nonempty ex packets hfr
  have hlast : packets.getLast? = some (packets.getLast hne) := List.getLast?_eq_getLast _ hne
  have hpos : 0 < d.MAX_PACKET_SIZE := by
    have h1 := hmax _ (List.getLast_mem hne)
    have h2 := List.length_pos.mpr (hnonempty _ (List.getLast_mem hne))
    omega
  simp only [readPacketInternal, if_neg (not_lt.mpr hcap)]
  by_cases hl : live = []
  · subst hl
    have h0 : ¬ d.internal_buffer_size > 0 := by rw [hold.1]; simp
    rw [if_neg h0]
    obtain ⟨r, rs1, d3, out3, g1, -, g3, g4, g5, g6, -, -⟩ :=
      readPacketInternalLoop_framed io ex w rest hdel fuel packets [] d out 0 false hs hmode hold
        hfr hmax hpos hcat (takePackets_zero ex packets hfr) hfuel
    obtain ⟨k1, k2⟩ := g3 _ hlast
    rw [k1] at g1
    exact ⟨rs1, d3, out3, g1, k2, g4, g5, g6⟩
  · have h0 : d.internal_buffer_size > 0 := by
      rw [hold.1]
      have := List.length_pos.mpr hl
      omega
    rw [if_pos h0]
    obtain ⟨d2, out2, e1, e2, e3, e4, e5, e6, e7, e8, e9⟩ :=
      doPacketExtraction_framed ex fuel d out packets live hmode hold hfr ⟨rest, hcat⟩ hl
        (by omega)
    obtain ⟨ps1, hsplit, hfr1, t2, htp1, hcat1⟩ := framed_split ex packets live rest hfr hcat
    generalize hcs : takePackets packets live.length = cs at *
    generalize hV1def : live.drop cs.flatten.length = V1 at *
    have hV1len : V1.length ≤ live.length := by
      rw [← hV1def, List.length_drop]
      omega
    have hmax2 : ∀ q ∈ ps1, (q.length : Int) ≤ d2.MAX_PACKET_SIZE := by
      intro q hq
      rw [e7]
      exact hmax q (by rw [← hsplit]; exact List.mem_append_right _ hq)
    simp only [e1, e9, hmode, Bool.true_eq_false, and_false, if_false]
    obtain ⟨r, rs1, d3, out3, g1, g2, g3, g4, g5, g6, -, -⟩ :=
      readPacketInternalLoop_framed io ex w rest hdel fuel ps1 V1 d2 out2
        (lastView cs).2 false (by rw [e8, hs]) (by rw [e9, hmode]) e2 hfr1 hmax2
        (by rw [e7]; exact hpos) hcat1 htp1 (by omega)
    have hq := last_of_split cs ps1 (lastView cs).2 (lastView cs).2 r out2 out3
      (fun q hq => hnonempty q (by rw [← hsplit]; exact List.mem_append_left _ hq)) e4
      (fun h => by
        obtain ⟨k1, k2⟩ := g2 h
        refine ⟨?_, k2⟩
        rw [k1]
        split_ifs <;> rfl) g3
    rw [hsplit] at hq
    obtain ⟨k1, k2⟩ := hq _ hlast
    rw [k1] at g1
    refine ⟨rs1, d3, out3, g1, k2, g4, ?_, ?_⟩
    · rw [g5, e5, ← hsplit, List.flatten_append, List.length_append]
      push_cast
      ring
    · rw [g6, e6]

/-- The in-memory stream with one pending chunk delivers that chunk, in pieces
as large as the room offered. -/
theorem feedStream_delivers :
    ∀ (k : Nat) (data : List Byte) (clock : Int), data.length ≤ k →
      Delivers feedStream ⟨if data = [] then [] else [data], clock⟩ data := by
  intro k
  induction k with
  | zero =>
    intro data clock hk
    have hnil : data = [] := List.length_eq_zero.mp (by omega)
    subst hnil
    exact Delivers.done _ (fun n _ => rfl)
  | succ k ih =>
    intro data clock hk
    by_cases hnil : data = []
    · subst hnil
      exact Delivers.done _ (fun n _ => rfl)
    · have hlen := List.length_pos.mpr hnil
      rw [if_neg hnil]
      refine Delivers.more _ data hnil ?_ ?_
      · intro n hn
        refine ⟨data.take n.toNat, rfl, ?_, ?_, List.take_prefix _ _⟩
        · intro h
          have := congrArg List.length h
          rw [List.length_take] at this
          simp only [List.length_nil] at this
          omega
        · rw [List.length_take]
          omega
      · intro n c hn hc
        have hc1 : c = data.take n.toNat := by
          simp only [feedStream, Option.some.injEq] at hc
          exact hc.symm
        subst hc1
        have hdrop : data.drop (data.take n.toNat).length = data.drop n.toNat := by
          rw [List.length_take]
          by_cases hle : n.toNat ≤ data.length
          · rw [Nat.min_eq_left hle]
          · rw [Nat.min_eq_right (by omega), List.drop_length,
              List.drop_eq_nil_of_le (by omega)]
        rw [hdrop]
        have := ih (data.drop n.toNat) clock (by rw [List.length_drop]; omega)
        simp only [feedStream]
        by_cases hd : data.drop n.toNat = []
        · simp only [hd, if_true] at this ⊢
          exact this
        · simp only [hd, if_false] at this ⊢
          exact this

/-- The extractor of the scenarios sees `AA 1 2 3 AA 4 5 6` as two packets. -/
theorem aaExtractor_framed :
    Framed aaExtractor [[0xAA, 1, 2, 3], [0xAA, 4, 5, 6]] := by
  refine ⟨by decide, ?_, by decide, ?_, trivial⟩
  · intro k hk hpos
    simp only [List.flatten_cons, List.flatten_nil, List.append_nil, List.cons_append,
      List.nil_append, List.length_cons, List.length_nil] at hk
    interval_cases k <;> rfl
  · intro k hk hpos
    simp only [List.flatten_nil, List.append_nil, List.length_cons, List.length_nil] at hk
    interval_cases k <;> rfl

/-- C10. In extract_last mode with a stream attached, when the bytes of the
internal buffer (`live`) followed by the bytes the stream delivers before it
returns 0 (`rest`) are exactly the back-to-back complete packets `packets`, at
least one and each of at most `MAX_PACKET_SIZE` bytes, a single `readPacket`
with an output buffer of at least `MAX_PACKET_SIZE` bytes and any timeouts
returns the length of the last packet, `out` holds the last packet's bytes,
`good_rx` has grown by the length of all the packets, `bad_rx` is as it was and
`used` and the reported `queued_bytes` are 0. -/
theorem readPacket_extract_last_packets {σ : Type} (io : IOStream σ) (ex : Extractor)
    (fuel : Nat) (d : Driver σ) (w : σ) (out : List Byte)
    (buffer_size packet_timeout first_byte_timeout : Int)
    (packets : List (List Byte)) (live rest : List Byte)
    (hmode : d.m_extract_last = true) (hs : d.m_stream = some w)
    (hcap : d.MAX_PACKET_SIZE ≤ buffer_size) (hold : d.Holds live) (hne : packets ≠ [])
    (hfr : Framed ex packets) (hmax : ∀ p ∈ packets, (p.length : Int) ≤ d.MAX_PACKET_SIZE)
    (hcat : live ++ rest = packets.flatten) (hdel : Delivers io (io.now w).2 rest)
    (hfuel : 2 * packets.flatten.length + 3 ≤ fuel) :
    ∃ (d2 : Driver σ) (out2 : List Byte),
      readPacket io ex fuel d out buffer_size packet_timeout first_byte_timeout =
        .ret ((packets.getLast hne).length : Int) (d2, out2) ∧
      out2.take (packets.getLast hne).length = packets.getLast hne ∧
      d2.m_stats.good_rx = d.m_stats.good_rx + packets.flatten.length ∧
      d2.m_stats.bad_rx = d.m_stats.bad_rx ∧
      d2.internal_buffer_size = 0 ∧ (getStatus d2).1.queued_bytes = 0 := by
  obtain ⟨f, rfl⟩ : ∃ f, fuel = f + 1 := ⟨fuel - 1, by omega⟩
  have hlen : live.length + rest.length = packets.flatten.length := by
    have := congrArg List.length hcat
    simpa using this
  obtain ⟨rs1, d2, out2, a1, a2, a3, a4, a5⟩ :=
    readPacketInternal_framed io ex f ({ d with m_stream := some (io.now w).2 } : Driver σ)
      (io.now w).2 out buffer_size packets live rest hmode rfl hcap hold hne hfr hmax hcat hdel
      (by omega)
  have hq : ((packets.getLast hne).length : Int) > 0 := by
    have := List.length_pos.mpr (Framed.nonempty ex packets hfr _ (List.getLast_mem hne))
    omega
  refine ⟨d2, out2, ?_, a2, a4, a5, a3, ?_⟩
  · simp only [readPacket, if_neg (not_lt.mpr hcap), hs, readPacketLoop, a1, hq, if_true]
  · simp [getStatus, Status.stored, asUnsigned, a3]

/-- Scenario 3 of the spec: a fresh framer in extract_last mode whose stream
delivers `AA 1 2 3 AA 4 5 6` returns `AA 4 5 6` from a single `readPacket`,
with `good_rx = 8`, `bad_rx = 0` and nothing queued. -/
theorem readPacket_extract_last_packets_witness :
    readPacket feedStream aaExtractor 19
        (Driver.holding [] 8 true (some ⟨[[0xAA, 1, 2, 3, 0xAA, 4, 5, 6]], 0⟩))
        (List.replicate 8 0) 8 100 100 =
      .ret 4
        ({ internal_buffer := [0xAA, 1, 2, 3, 0xAA, 4, 5, 6]
           internal_buffer_size := 0
           MAX_PACKET_SIZE := 8
           m_stream := some ⟨[], 1⟩
           m_extract_last := true
           m_stats := { tx := 0, good_rx := 8, bad_rx := 0, queued_bytes := 0 }
           read_log := [[0xAA, 1, 2, 3, 0xAA, 4, 5, 6]]
           write_log := [] }, [0xAA, 4, 5, 6, 0, 0, 0, 0]) ∧
    ∃ (d2 : Driver Feed) (out2 : List Byte),
      readPacket feedStream aaExtractor 19
        (Driver.holding [] 8 true (some ⟨[[0xAA, 1, 2, 3, 0xAA, 4, 5, 6]], 0⟩))
        (List.replicate 8 0) 8 100 100 = .ret 4 (d2, out2) ∧
      out2.take 4 = [0xAA, 4, 5, 6] ∧ d2.m_stats.good_rx = 8 ∧ d2.m_stats.bad_rx = 0 ∧
      d2.internal_buffer_size = 0 ∧ (getStatus d2).1.queued_bytes = 0 := by
  refine ⟨by decide, ?_⟩
  obtain ⟨d2, out2, h1, h2, h3, h4, h5, h6⟩ :=
    readPacket_extract_last_packets feedStream aaExtractor 19
      (Driver.holding [] 8 true (some ⟨[[0xAA, 1, 2, 3, 0xAA, 4, 5, 6]], 0⟩))
      ⟨[[0xAA, 1, 2, 3, 0xAA, 4, 5, 6]], 0⟩ (List.replicate 8 0) 8 100 100
      [[0xAA, 1, 2, 3], [0xAA, 4, 5, 6]] [] [0xAA, 1, 2, 3, 0xAA, 4, 5, 6]
      rfl rfl (by decide) ⟨rfl, rfl, rfl⟩ (by decide) aaExtractor_framed (by decide) rfl
      (feedStream_delivers 8 [0xAA, 1, 2, 3, 0xAA, 4, 5, 6] 1 (by decide)) (by decide)
  exact ⟨d2, out2, h1, h2, h3, h4, h5, h6⟩

/-! ## `readPacket` with no stream attached -/

/-- `doPacketExtraction` when a search of the internal buffer yields no packet:
it returns 0 and leaves the caller's buffer alone. -/
theorem doPacketExtraction_none {σ : Type} (ex : Extractor) (fuel0 fuel : Nat)
    (hfuel : fuel0 ≤ fuel) (d : Driver σ) (out : List Byte) (st0 : Status) (s : Int)
    (st1 : Status)
    (hfind : findPacket ex d.m_extract_last fuel0 d.internal_buffer d.internal_buffer_size st0 =
      .ret (s, 0) st1) :
    ∃ (d1 : Driver σ), doPacketExtraction ex fuel d out = .ret 0 (d1, out) ∧
      d1.internal_buffer_size = d.internal_buffer_size - s ∧
      d1.MAX_PACKET_SIZE = d.MAX_PACKET_SIZE ∧ d1.m_stream = d.m_stream ∧
      d1.m_extract_last = d.m_extract_last ∧ d1.read_log = d.read_log := by
  obtain ⟨st2, h2⟩ := findPacket_view_indep ex _ _ _ _ _ d.m_stats _ _ hfind
  have h3 : findPacket ex d.m_extract_last fuel d.internal_buffer d.internal_buffer_size
      d.m_stats = .ret (s, 0) st2 := by
    rw [findPacket_fuel_le ex _ fuel0 fuel _ _ _ hfuel (by rw [h2]; simp), h2]
  simp only [doPacketExtraction, h3, copyTo, Int.toNat_zero, List.take_zero, List.nil_append,
    List.drop_zero, add_zero]
  exact ⟨_, rfl, rfl, rfl, rfl, rfl, rfl⟩

/-- `doPacketExtraction` when the search of the internal buffer raises: the
length violation goes on to the caller. -/
theorem doPacketExtraction_throw {σ : Type} (ex : Extractor) (fuel0 fuel : Nat)
    (hfuel : fuel0 ≤ fuel) (d : Driver σ) (out : List Byte) (e : Thrown) (st1 : Status)
    (hfind : findPacket ex d.m_extract_last fuel0 d.internal_buffer d.internal_buffer_size
      d.m_stats = .throw e st1) :
    doPacketExtraction ex fuel d out = .throw .length_error ({ d with m_stats := st1 }, out) := by
  have hk := findPacket_throw_kind ex _ _ _ _ _ _ _ hfind
  subst hk
  have h3 : findPacket ex d.m_extract_last fuel d.internal_buffer d.internal_buffer_size
      d.m_stats = .throw .length_error st1 := by
    rw [findPacket_fuel_le ex _ fuel0 fuel _ _ _ hfuel (by rw [hfind]; simp), hfind]
  simp only [doPacketExtraction, h3]

/-- The loop of `extractPacketFromInternalBuffer` raises nothing but the length
violation. -/
theorem extractPacketFromInternalBufferLoop_throw_kind {σ : Type} (ex : Extractor) :
    ∀ (fuel : Nat) (result_size : Int) (d : Driver σ) (out : List Byte) (e : Thrown)
      (s : Driver σ × List Byte),
      extractPacketFromInternalBufferLoop ex fuel result_size d out = .throw e s →
        e = .length_error := by
  intro fuel
  induction fuel with
  | zero => intro result_size d out e s h; simp [extractPacketFromInternalBufferLoop] at h
  | succ fuel ih =>
    intro result_size d out e s h
    rw [extractPacketFromInternalBufferLoop] at h
    by_cases hpos : d.internal_buffer_size > 0
    · simp only [hpos, if_true] at h
      have hd := doPacketExtraction_outcome True ex fuel d out
      cases hx : doPacketExtraction ex fuel d out with
      | diverge => rw [hx] at h; cases h
      | throw e1 s1 =>
        rw [hx] at h hd
        cases h
        exact hd.1
      | ret l s1 =>
        obtain ⟨d1, out1⟩ := s1
        rw [hx] at h
        simp only at h
        split_ifs at h <;> exact ih _ _ _ _ _ h
    · simp only [hpos, if_false] at h
      cases h

/-- C11. With no stream attached and an output capacity of at least
`max_packet_size`, whatever the two timeouts: when `findPacket` on the internal
buffer yields a view of positive length `l`, `readPacket` returns `l` with that
packet in `out`; when the internal buffer is empty or `findPacket` yields
length 0, `readPacket` raises the packet timeout; when `findPacket` raises,
`readPacket` raises the length violation.  So `readPacket` returns exactly when
`findPacket` yields a positive length, and it never raises the first-byte
timeout.  A second call, made in the state the first one left, is a call of the
same kind: it raises the packet timeout when no packet is left. -/
theorem readPacket_without_stream {σ : Type} (io : IOStream σ) (ex : Extractor)
    (fuel fuel1 : Nat) (hfuel : fuel + 2 ≤ fuel1) (d : Driver σ) (out : List Byte)
    (buffer_size packet_timeout first_byte_timeout : Int)
    (hs : d.m_stream = none) (hcap : d.MAX_PACKET_SIZE ≤ buffer_size)
    (hfit : d.internal_buffer_size ≤ d.internal_buffer.length) :
    (∀ (s l : Int) (st1 : Status),
      findPacket ex d.m_extract_last fuel d.internal_buffer d.internal_buffer_size d.m_stats =
        .ret (s, l) st1 → 0 < l →
      ∃ (d2 : Driver σ) (out2 : List Byte),
        readPacket io ex fuel1 d out buffer_size packet_timeout first_byte_timeout =
          .ret l (d2, out2) ∧
        out2.take l.toNat =
          ((d.internal_buffer.take d.internal_buffer_size.toNat).drop s.toNat).take l.toNat ∧
        d2.m_stream = none) ∧
    ((d.internal_buffer_size ≤ 0 ∨ ∃ (s : Int) (st1 : Status),
        findPacket ex d.m_extract_last fuel d.internal_buffer d.internal_buffer_size d.m_stats =
          .ret (s, 0) st1) →
      ∃ (d2 : Driver σ),
        readPacket io ex fuel1 d out buffer_size packet_timeout first_byte_timeout =
          .throw .timeout_packet (d2, out) ∧ d2.m_stream = none ∧
        d2.MAX_PACKET_SIZE = d.MAX_PACKET_SIZE) ∧
    (∀ (e : Thrown) (st1 : Status), 0 < d.internal_buffer_size →
      findPacket ex d.m_extract_last fuel d.internal_buffer d.internal_buffer_size d.m_stats =
        .throw e st1 →
      readPacket io ex fuel1 d out buffer_size packet_timeout first_byte_timeout =
        .throw .length_error ({ d with m_stats := st1 }, out)) ∧
    (findPacket ex d.m_extract_last fuel d.internal_buffer d.internal_buffer_size d.m_stats ≠
        .diverge →
      ((∃ (l : Int) (s2 : Driver σ × List Byte),
          readPacket io ex fuel1 d out buffer_size packet_timeout first_byte_timeout =
            .ret l s2) ↔
        ∃ (s l : Int) (st1 : Status),
          findPacket ex d.m_extract_last fuel d.internal_buffer d.internal_buffer_size
            d.m_stats = .ret (s, l) st1 ∧ 0 < l)) ∧
    (∀ (s2 : Driver σ × List Byte),
      readPacket io ex fuel1 d out buffer_size packet_timeout first_byte_timeout ≠
        .throw .timeout_first_byte s2) := by
  obtain ⟨f, rfl⟩ : ∃ f, fuel1 = f + 1 := ⟨fuel1 - 1, by omega⟩
  have hA : ∀ (s l : Int) (st1 : Status),
      findPacket ex d.m_extract_last fuel d.internal_buffer d.internal_buffer_size d.m_stats =
        .ret (s, l) st1 → 0 < l →
      ∃ (d2 : Driver σ) (out2 : List Byte),
        readPacket io ex (f + 1) d out buffer_size packet_timeout first_byte_timeout =
          .ret l (d2, out2) ∧
        out2.take l.toNat =
          ((d.internal_buffer.take d.internal_buffer_size.toNat).drop s.toNat).take l.toNat ∧
        d2.m_stream = none := by
    intro s l st1 hfind hl
    obtain ⟨d2, out2, a1, a2, a3, -, -⟩ :=
      readPacket_of_view io ex fuel (f + 1) hfuel d out buffer_size packet_timeout
        first_byte_timeout hcap d.m_stats s l st1 hfit hfind hl (Or.inr (Or.inl hs))
    exact ⟨d2, out2, a1, a2, a3 hs⟩
  have hB : (d.internal_buffer_size ≤ 0 ∨ ∃ (s : Int) (st1 : Status),
        findPacket ex d.m_extract_last fuel d.internal_buffer d.internal_buffer_size d.m_stats =
          .ret (s, 0) st1) →
      ∃ (d2 : Driver σ),
        readPacket io ex (f + 1) d out buffer_size packet_timeout first_byte_timeout =
          .throw .timeout_packet (d2, out) ∧ d2.m_stream = none ∧
        d2.MAX_PACKET_SIZE = d.MAX_PACKET_SIZE := by
    intro h
    simp only [readPacket, if_neg (not_lt.mpr hcap), hs, extractPacketFromInternalBuffer,
      extractPacketFromInternalBufferLoop]
    by_cases hpos : d.internal_buffer_size > 0
    · rcases h with h | ⟨s, st1, hfind⟩
      · omega
      · obtain ⟨d1, a1, -, a3, a4, -, -⟩ :=
          doPacketExtraction_none ex fuel f (by omega) d out d.m_stats s st1 hfind
        simp only [hpos, if_true, a1, true_or, ne_eq, not_true_eq_false, if_false]
        exact ⟨d1, rfl, a4.trans hs, a3⟩
    · simp only [hpos, if_false, ne_eq, not_true_eq_false]
      exact ⟨d, rfl, hs, rfl⟩
  have hC : ∀ (e : Thrown) (st1 : Status), 0 < d.internal_buffer_size →
      findPacket ex d.m_extract_last fuel d.internal_buffer d.internal_buffer_size d.m_stats =
        .throw e st1 →
      readPacket io ex (f + 1) d out buffer_size packet_timeout first_byte_timeout =
        .throw .length_error ({ d with m_stats := st1 }, out) := by
    intro e st1 hpos hfind
    have a1 := doPacketExtraction_throw ex fuel f (by omega) d out e st1 hfind
    simp only [readPacket, if_neg (not_lt.mpr hcap), hs, extractPacketFromInternalBuffer,
      extractPacketFromInternalBufferLoop, gt_iff_lt, hpos, if_true, a1]
  refine ⟨hA, hB, hC, ?_, ?_⟩
  · intro hnd
    constructor
    · rintro ⟨l, s2, hret⟩
      cases hf : findPacket ex d.m_extract_last fuel d.internal_buffer d.internal_buffer_size
          d.m_stats with
      | diverge => exact absurd hf hnd
      | throw e st1 =>
        by_cases hpos : 0 < d.internal_buffer_size
        · rw [hC e st1 hpos hf] at hret
          cases hret
        · obtain ⟨d2, a1, -⟩ := hB (Or.inl (by omega))
          rw [a1] at hret
          cases hret
      | ret r st1 =>
        obtain ⟨s, l0⟩ := r
        obtain ⟨-, -, hl, -⟩ := findPacket_ret_bounds ex _ _ _ _ _ _ _ hf
        simp only at hl
        by_cases hl0 : l0 = 0
        · subst hl0
          obtain ⟨d2, a1, -⟩ := hB (Or.inr ⟨s, st1, hf⟩)
          rw [a1] at hret
          cases hret
        · exact ⟨s, l0, st1, rfl, by omega⟩
    · rintro ⟨s, l, st1, hfind, hl⟩
      obtain ⟨d2, out2, a1, -⟩ := hA s l st1 hfind hl
      exact ⟨l, (d2, out2), a1⟩
  · intro s2 h
    simp only [readPacket, if_neg (not_lt.mpr hcap), hs, extractPacketFromInternalBuffer] at h
    cases hx : extractPacketFromInternalBufferLoop ex (f + 1) 0 d out with
    | diverge => rw [hx] at h; cases h
    | throw e s3 =>
      rw [hx] at h
      have := extractPacketFromInternalBufferLoop_throw_kind ex _ _ _ _ _ _ hx
      subst this
      cases h
    | ret v s3 =>
      rw [hx] at h
      simp only at h
      split_ifs at h
      cases h

/-- A framer without a stream whose buffer holds the one packet `AA 1 2 3`:
the first `readPacket` returns it, the second one raises the packet timeout. -/
theorem readPacket_without_stream_witness :
    (Driver.run feedStream aaExtractor 8 (Driver.holding [0xAA, 1, 2, 3] 8 false none)
        [Op.read_packet (List.replicate 8 0) 8 100 10,
         Op.read_packet (List.replicate 8 0) 8 100 10]).1 =
      [Reply.packet 4 [0xAA, 1, 2, 3, 0, 0, 0, 0], Reply.failed Thrown.timeout_packet] ∧
    ∃ (d2 : Driver Feed) (out2 : List Byte),
      readPacket feedStream aaExtractor 8 (Driver.holding [0xAA, 1, 2, 3] 8 false none)
        (List.replicate 8 0) 8 100 10 = .ret 4 (d2, out2) ∧
      out2.take 4 = [0xAA, 1, 2, 3] ∧ d2.m_stream = none := by
  refine ⟨by decide, ?_⟩
  obtain ⟨d2, out2, h1, h2, h3⟩ :=
    (readPacket_without_stream feedStream aaExtractor 6 8 (by decide)
      (Driver.holding [0xAA, 1, 2, 3] 8 false none) (List.replicate 8 0) 8 100 10 rfl
      (by decide) (by decide)).1 0 4 Status.init (by decide) (by decide)
  exact ⟨d2, out2, h1, h2, h3⟩

/-! ## The output buffer is too small -/

/-- C12. If the capacity of the output buffer is below `max_packet_size`,
`readPacket` raises the length violation, whether or not a stream is attached,
whatever the timeouts and whatever is buffered; the driver is exactly as it
was (internal buffer, `used`, counters, the state of the stream and the spans
handed to the listeners, so no `read` took place) and so is the output buffer. -/
theorem readPacket_small_buffer {σ : Type} (io : IOStream σ) (ex : Extractor) (fuel : Nat)
    (d : Driver σ) (out : List Byte) (buffer_size packet_timeout first_byte_timeout : Int)
    (h : buffer_size < d.MAX_PACKET_SIZE) :
    readPacket io ex fuel d out buffer_size packet_timeout first_byte_timeout =
      .throw .length_error (d, out) := by
  simp only [readPacket, h, if_true]

/-- A framer of capacity 8 that holds a whole packet and has a stream with
bytes to deliver, asked to read into 7 bytes. -/
theorem readPacket_small_buffer_witness :
    readPacket feedStream aaExtractor 0
        (Driver.holding [0xAA, 1, 2, 3] 8 false (some { pending := [[0xAA, 4]], clock := 0 }))
        (List.replicate 7 0) 7 100 10 =
      .throw .length_error
        (Driver.holding [0xAA, 1, 2, 3] 8 false (some { pending := [[0xAA, 4]], clock := 0 }),
          List.replicate 7 0) :=
  readPacket_small_buffer feedStream aaExtractor 0
    (Driver.holding [0xAA, 1, 2, 3] 8 false (some { pending := [[0xAA, 4]], clock := 0 }))
    (List.replicate 7 0) 7 100 10 (by decide)

/-! ## The packet does not fit the internal buffer -/

/-- `findPacket` when the extractor is undecided on the buffer. -/
theorem findPacket_undecided (ex : Extractor) (last : Bool) (fuel : Nat) (buffer : List Byte)
    (n : Int) (st : Status) (h0 : 0 ≤ n) (h : ex (buffer.take n.toNat) n = 0) :
    findPacket ex last (fuel + 1) buffer n st = .ret (0, 0) st := by
  cases last
  · rw [findPacket_first_eq, h]
    simp only [gt_iff_lt, if_true]
    rw [if_neg (by omega)]
  · rw [findPacket_last_eq, h]
    simp only [gt_iff_lt, if_true]
    rw [if_neg (by omega)]

/-- `doPacketExtraction` when the extractor is undecided on the internal buffer:
nothing changes. -/
theorem doPacketExtraction_undecided {σ : Type} (ex : Extractor) (fuel : Nat) (d : Driver σ)
    (out : List Byte) (h0 : 0 ≤ d.internal_buffer_size)
    (h : ex (d.internal_buffer.take d.internal_buffer_size.toNat) d.internal_buffer_size = 0) :
    doPacketExtraction ex (fuel + 1) d out = .ret 0 (d, out) := by
  have hf := findPacket_undecided ex d.m_extract_last fuel d.internal_buffer
    d.internal_buffer_size d.m_stats h0 h
  simp only [doPacketExtraction, hf, copyTo, add_zero, sub_zero, Int.toNat_zero, List.drop_zero,
    List.take_zero, List.nil_append, List.take_append_drop]
  cases d with
  | mk b n m s e st rl wl =>
    cases st
    cases e <;> simp

/-- The driver after a `read` stored the chunk `c` behind the live bytes. -/
theorem Driver.Holds.store {σ : Type} (d : Driver σ) (V c : List Byte) (w1 : σ)
    (hold : d.Holds V) (hroom : (c.length : Int) ≤ d.MAX_PACKET_SIZE - d.internal_buffer_size) :
    Driver.Holds
      ({ d with m_stream := some w1
                read_log := c :: d.read_log
                internal_buffer := storeAt d.internal_buffer d.internal_buffer_size c
                internal_buffer_size := d.internal_buffer_size + (c.length : Int) } : Driver σ)
      (V ++ c) := by
  obtain ⟨h1, h2, h3⟩ := hold
  have hcap : V.length + c.length ≤ d.internal_buffer.length := by
    rw [h1] at hroom
    omega
  obtain ⟨s1, s2⟩ := storeAt_spec d.internal_buffer V c h2 hcap
  refine ⟨?_, ?_, ?_⟩
  · simp [h1]
  · simp only [h1]
    exact s1
  · simp only [h1]
    rw [s2, h3]

/-- The loop of `readPacketInternal` when the extractor stays undecided on
whatever fits the internal buffer and the stream delivers enough to fill it:
the loop raises the length violation with the buffer full. -/
theorem readPacketInternalLoop_fills {σ : Type} (io : IOStream σ) (ex : Extractor) :
    ∀ (w : σ) (data : List Byte), Delivers io w data →
    ∀ (fuel : Nat) (V : List Byte) (d : Driver σ) (out : List Byte)
      (packet_size : Int) (rs : Bool),
      d.m_stream = some w → d.Holds V → (V.length : Int) < d.MAX_PACKET_SIZE →
      d.MAX_PACKET_SIZE ≤ V.length + data.length →
      (∀ slice : List Byte, (slice.length : Int) ≤ d.MAX_PACKET_SIZE →
        ex slice slice.length = 0) →
      data.length + 1 ≤ fuel →
      ∃ (d2 : Driver σ),
        readPacketInternalLoop io ex fuel packet_size rs d out =
          .throw .length_error (d2, out) ∧
        d2.Holds ((V ++ data).take d.MAX_PACKET_SIZE.toNat) ∧
        d2.internal_buffer_size = d.MAX_PACKET_SIZE ∧
        d2.MAX_PACKET_SIZE = d.MAX_PACKET_SIZE ∧ d2.m_stats = d.m_stats ∧
        d2.m_extract_last = d.m_extract_last := by
  intro w data h
  induction h with
  | done w hread =>
    intro fuel V d out packet_size rs hs hold hlt hge hzero hfuel
    simp only [List.length_nil, Nat.cast_zero, add_zero] at hge
    omega
  | more w data hne hread hnext ih =>
    intro fuel V d out packet_size rs hs hold hlt hge hzero hfuel
    have hold0 := hold
    obtain ⟨h1, h2, h3⟩ := hold
    have hroom : 0 < d.MAX_PACKET_SIZE - d.internal_buffer_size := by rw [h1]; omega
    obtain ⟨c, hc, hcne, hclen, hcpre⟩ := hread _ hroom
    have ih1 := ih _ c hroom hc
    have hdl := List.length_pos.mpr hne
    obtain ⟨fuel1, rfl⟩ : ∃ f, fuel = f + 2 := ⟨fuel - 2, by omega⟩
    cases hrd : io.read w (d.MAX_PACKET_SIZE - d.internal_buffer_size) with
    | mk o w1 =>
      rw [hrd] at hc ih1
      simp only at hc ih1
      subst hc
      have hcl := List.length_pos.mpr hcne
      have hcpos : (0 : Int) < (c.length : Int) := by omega
      have hdata : c ++ data.drop c.length = data := by
        obtain ⟨t, ht⟩ := hcpre
        rw [← ht]
        simp
      have hdlen : c.length + (data.drop c.length).length = data.length := by
        have := congrArg List.length hdata
        simpa using this
      have hold1 := Driver.Holds.store d V c w1 hold0 hclen
      obtain ⟨d1, hd1⟩ : ∃ d1 : Driver σ, d1 =
          { d with m_stream := some w1
                   read_log := c :: d.read_log
                   internal_buffer := storeAt d.internal_buffer d.internal_buffer_size c
                   internal_buffer_size := d.internal_buffer_size + (c.length : Int) } := ⟨_, rfl⟩
      rw [← hd1] at hold1
      have hmax1 : d1.MAX_PACKET_SIZE = d.MAX_PACKET_SIZE := by rw [hd1]
      have hst1 : d1.m_stats = d.m_stats := by rw [hd1]
      have hw1 : d1.m_stream = some w1 := by rw [hd1]
      have hm1 : d1.m_extract_last = d.m_extract_last := by rw [hd1]
      have hlen1 : ((V ++ c).length : Int) ≤ d.MAX_PACKET_SIZE := by
        rw [h1] at hclen
        simp only [List.length_append, Nat.cast_add]
        omega
      have hex : ex (d1.internal_buffer.take d1.internal_buffer_size.toNat)
          d1.internal_buffer_size = 0 := by
        rw [hold1.1, Int.toNat_ofNat, hold1.2.1]
        exact hzero (V ++ c) hlen1
      have e1 := doPacketExtraction_undecided ex fuel1 d1 out (by rw [hold1.1]; omega) hex
      simp only [readPacketInternalLoop, hs, hrd, hcpos, if_true, ← hd1, e1, ne_eq,
        not_true_eq_false, false_and, if_false]
      by_cases hfull : d1.internal_buffer_size = d1.MAX_PACKET_SIZE
      · simp only [hfull, if_true]
        refine ⟨d1, rfl, ?_, by rw [hfull, hmax1], hmax1, hst1, hm1⟩
        have e2 : (V ++ data).take d.MAX_PACKET_SIZE.toNat = V ++ c := by
          rw [← hdata, ← List.append_assoc]
          apply List.take_left'
          rw [hold1.1, hmax1] at hfull
          omega
        rw [e2]
        exact hold1
      · simp only [hfull, if_false]
        have hlt1 : ((V ++ c).length : Int) < d1.MAX_PACKET_SIZE := by
          rw [hold1.1] at hfull
          rw [hmax1] at hfull ⊢
          omega
        obtain ⟨d2, g1, g2, g3, g4, g5, g6⟩ :=
          ih1 (fuel1 + 1) (V ++ c) d1 out packet_size true hw1 hold1 hlt1
            (by
              rw [hmax1]
              simp only [List.length_append, Nat.cast_add]
              omega)
            (by rw [hmax1]; exact hzero) (by omega)
        refine ⟨d2, g1, ?_, by rw [g3, hmax1], by rw [g4, hmax1], by rw [g5, hst1],
          by rw [g6, hm1]⟩
        rw [List.append_assoc, hdata, hmax1] at g2
        exact g2

/-- C13. With a stream attached: (1) in whichever round of the reading loop,
if a `read` delivers bytes that bring the internal buffer to exactly
`max_packet_size` bytes and the search of that buffer finds no packet and
discards nothing (`findPacket` yields the view `(0, 0)`), the loop raises the
length violation, which `readPacketInternal` and `readPacket` pass on as it is,
and the buffer is left full.  (2) In particular, for every `max_packet_size`,
with an internal buffer that is not yet full, an extractor that stays undecided
(answers 0) on everything that fits the buffer, as does the extractor that
always answers 0 and the one that waits for a packet one byte larger than the
buffer, and a stream that delivers at least the bytes that fill the buffer,
`readPacket` raises the length violation once the buffer is full; the counters
are as they were. -/
theorem readPacket_packet_too_large {σ : Type} (io : IOStream σ) (ex : Extractor) :
    (∀ (fuel : Nat) (packet_size : Int) (rs : Bool) (d : Driver σ) (out : List Byte)
      (w w1 : σ) (bytes : List Byte) (st1 : Status),
      d.m_stream = some w →
      io.read w (d.MAX_PACKET_SIZE - d.internal_buffer_size) = (some bytes, w1) →
      bytes ≠ [] → d.internal_buffer_size + bytes.length = d.MAX_PACKET_SIZE →
      findPacket ex d.m_extract_last fuel
        (storeAt d.internal_buffer d.internal_buffer_size bytes) d.MAX_PACKET_SIZE d.m_stats =
          .ret (0, 0) st1 →
      ∃ (d2 : Driver σ),
        readPacketInternalLoop io ex (fuel + 1) packet_size rs d out =
          .throw .length_error (d2, out) ∧
        d2.internal_buffer_size = d.MAX_PACKET_SIZE ∧ d2.read_log = bytes :: d.read_log) ∧
    (∀ (fuel : Nat) (d : Driver σ) (w : σ) (out : List Byte)
      (buffer_size packet_timeout first_byte_timeout : Int) (live data : List Byte),
      d.m_stream = some w → d.MAX_PACKET_SIZE ≤ buffer_size → d.Holds live →
      (live.length : Int) < d.MAX_PACKET_SIZE →
      d.MAX_PACKET_SIZE ≤ live.length + data.length →
      Delivers io (io.now w).2 data →
      (∀ slice : List Byte, (slice.length : Int) ≤ d.MAX_PACKET_SIZE →
        ex slice slice.length = 0) →
      data.length + 3 ≤ fuel →
      ∃ (d2 : Driver σ),
        readPacket io ex fuel d out buffer_size packet_timeout first_byte_timeout =
          .throw .length_error (d2, out) ∧
        d2.internal_buffer_size = d.MAX_PACKET_SIZE ∧
        d2.Holds ((live ++ data).take d.MAX_PACKET_SIZE.toNat) ∧
        d2.m_stats = d.m_stats) := by
  constructor
  · intro fuel packet_size rs d out w w1 bytes st1 hs hrd hne hfull hfind
    have hpos : (0 : Int) < (bytes.length : Int) := by
      have := List.length_pos.mpr hne
      omega
    obtain ⟨d1, hd1⟩ : ∃ d1 : Driver σ, d1 =
        { d with m_stream := some w1
                 read_log := bytes :: d.read_log
                 internal_buffer := storeAt d.internal_buffer d.internal_buffer_size bytes
                 internal_buffer_size := d.internal_buffer_size + (bytes.length : Int) } :=
      ⟨_, rfl⟩
    have hfind1 : findPacket ex d1.m_extract_last fuel d1.internal_buffer
        d1.internal_buffer_size d.m_stats = .ret (0, 0) st1 := by
      rw [hd1]
      simp only [hfull]
      exact hfind
    obtain ⟨d2, a1, a2, a3, a4, a5, a6⟩ :=
      doPacketExtraction_none ex fuel fuel (le_refl _) d1 out d.m_stats 0 st1 hfind1
    have hsz : d2.internal_buffer_size = d2.MAX_PACKET_SIZE := by
      rw [a2, a3, hd1]
      simp only [sub_zero]
      exact hfull
    simp only [readPacketInternalLoop, hs, hrd, gt_iff_lt, hpos, if_true, ← hd1, a1, ne_eq,
      not_true_eq_false, false_and, if_false, hsz]
    refine ⟨d2, rfl, ?_, ?_⟩
    · rw [hsz, a3, hd1]
    · rw [a6, hd1]
  · intro fuel d w out buffer_size packet_timeout first_byte_timeout live data hs hcap hold hlt
      hge hdel hzero hfuel
    obtain ⟨f, rfl⟩ : ∃ f, fuel = f + 2 := ⟨fuel - 2, by omega⟩
    obtain ⟨d0, hd0⟩ : ∃ d0 : Driver σ, d0 = { d with m_stream := some (io.now w).2 } :=
      ⟨_, rfl⟩
    have hold0 : d0.Holds live := by rw [hd0]; exact hold
    have hmax0 : d0.MAX_PACKET_SIZE = d.MAX_PACKET_SIZE := by rw [hd0]
    have hst0 : d0.m_stats = d.m_stats := by rw [hd0]
    obtain ⟨d2, g1, g2, g3, g4, g5, -⟩ :=
      readPacketInternalLoop_fills io ex (io.now w).2 data hdel (f + 1) live d0 out 0 false
        (by rw [hd0]) hold0 (by rw [hmax0]; exact hlt) (by rw [hmax0]; exact hge)
        (by rw [hmax0]; exact hzero) (by omega)
    rw [hmax0] at g2 g3
    have hint : readPacketInternal io ex (f + 1) d0 out buffer_size =
        .throw .length_error (d2, out) := by
      simp only [readPacketInternal, hmax0, if_neg (not_lt.mpr hcap)]
      by_cases hpos : d0.internal_buffer_size > 0
      · have hex : ex (d0.internal_buffer.take d0.internal_buffer_size.toNat)
            d0.internal_buffer_size = 0 := by
          rw [hold0.1, Int.toNat_ofNat, hold0.2.1]
          exact hzero live (le_of_lt hlt)
        have e1 := doPacketExtraction_undecided ex f d0 out (le_of_lt hpos) hex
        simp only [hpos, if_true, e1, ne_eq, not_true_eq_false, false_and, if_false]
        exact g1
      · simp only [hpos, if_false]
        exact g1
    refine ⟨d2, ?_, g3, g2, by rw [g5, hst0]⟩
    simp only [readPacket, if_neg (not_lt.mpr hcap), hs, readPacketLoop, ← hd0, hint]

/-- A framer of 4 bytes waiting for a packet of 5: its stream delivers the 5
bytes, `readPacket` raises the length violation with the first 4 buffered. -/
theorem readPacket_packet_too_large_witness :
    readPacket feedStream (fixedLength 5) 8
        (Driver.holding [] 4 false (some { pending := [[1, 2, 3, 4, 5]], clock := 0 }))
        (List.replicate 4 0) 4 100 10 =
      .throw .length_error
        ({ internal_buffer := [1, 2, 3, 4]
           internal_buffer_size := 4
           MAX_PACKET_SIZE := 4
           m_stream := some { pending := [[5]], clock := 1 }
           m_extract_last := false
           m_stats := Status.init
           read_log := [[1, 2, 3, 4]]
           write_log := [] }, List.replicate 4 0) ∧
    ∃ (d2 : Driver Feed),
      readPacket feedStream (fixedLength 5) 8
        (Driver.holding [] 4 false (some { pending := [[1, 2, 3, 4, 5]], clock := 0 }))
        (List.replicate 4 0) 4 100 10 = .throw .length_error (d2, List.replicate 4 0) ∧
      d2.internal_buffer_size = 4 ∧ d2.m_stats = Status.init := by
  refine ⟨by decide, ?_⟩
  obtain ⟨d2, h1, h2, -, h4⟩ :=
    (readPacket_packet_too_large feedStream (fixedLength 5)).2 8
      (Driver.holding [] 4 false (some { pending := [[1, 2, 3, 4, 5]], clock := 0 }))
      { pending := [[1, 2, 3, 4, 5]], clock := 0 } (List.replicate 4 0) 4 100 10 []
      [1, 2, 3, 4, 5] rfl (by decide) ⟨rfl, rfl, rfl⟩ (by decide) (by decide)
      (feedStream_delivers 5 [1, 2, 3, 4, 5] 1 (by decide))
      (by
        intro slice hl
        simp only [fixedLength]
        rw [if_neg]
        change ¬ ((5 : Int) ≤ slice.length)
        have : (slice.length : Int) ≤ 4 := hl
        omega)
      (by decide)
  exact ⟨d2, h1, h2, h4⟩

/-! ## A packet that fills the internal buffer exactly -/

/-- The loop of `readPacketInternal` in first-match mode when the stream
delivers the rest of a packet that fills the internal buffer exactly: the
packet is returned by the round that completes it. -/
theorem readPacketInternalLoop_exact {σ : Type} (io : IOStream σ) (ex : Extractor)
    (data : List Byte) :
    ∀ (w : σ) (rest : List Byte), Delivers io w rest →
    ∀ (fuel : Nat) (V : List Byte) (d : Driver σ) (out : List Byte)
      (packet_size : Int) (rs : Bool),
      d.m_stream = some w → d.m_extract_last = false → d.Holds V → V ++ rest = data →
      V.length < data.length → (data.length : Int) = d.MAX_PACKET_SIZE →
      (∀ slice : List Byte, slice.length < data.length → ex slice slice.length = 0) →
      (∀ slice : List Byte, slice.length = data.length → ex slice slice.length = data.length) →
      rest.length + 1 ≤ fuel →
      ∃ (d2 : Driver σ) (out2 : List Byte),
        readPacketInternalLoop io ex fuel packet_size rs d out =
          .ret ((data.length : Int), true) (d2, out2) ∧
        out2.take data.length = data ∧ d2.internal_buffer_size = 0 ∧
        d2.m_stats.good_rx = d.m_stats.good_rx + data.length ∧
        d2.m_stats.bad_rx = d.m_stats.bad_rx := by
  intro w rest h
  induction h with
  | done w hread =>
    intro fuel V d out packet_size rs hs hmode hold hcat hlt hN hlow hfull hfuel
    rw [List.append_nil] at hcat
    rw [hcat] at hlt
    omega
  | more w rest hne hread hnext ih =>
    intro fuel V d out packet_size rs hs hmode hold hcat hlt hN hlow hfull hfuel
    have hold0 := hold
    obtain ⟨h1, h2, h3⟩ := hold
    have hroom : 0 < d.MAX_PACKET_SIZE - d.internal_buffer_size := by rw [h1]; omega
    obtain ⟨c, hc, hcne, hclen, hcpre⟩ := hread _ hroom
    have ih1 := ih _ c hroom hc
    have hdl := List.length_pos.mpr hne
    obtain ⟨fuel1, rfl⟩ : ∃ f, fuel = f + 2 := ⟨fuel - 2, by omega⟩
    cases hrd : io.read w (d.MAX_PACKET_SIZE - d.internal_buffer_size) with
    | mk o w1 =>
      rw [hrd] at hc ih1
      simp only at hc ih1
      subst hc
      have hcl := List.length_pos.mpr hcne
      have hcpos : (0 : Int) < (c.length : Int) := by omega
      have hrest : c ++ rest.drop c.length = rest := by
        obtain ⟨t, ht⟩ := hcpre
        rw [← ht]
        simp
      have hold1 := Driver.Holds.store d V c w1 hold0 hclen
      obtain ⟨d1, hd1⟩ : ∃ d1 : Driver σ, d1 =
          { d with m_stream := some w1
                   read_log := c :: d.read_log
                   internal_buffer := storeAt d.internal_buffer d.internal_buffer_size c
                   internal_buffer_size := d.internal_buffer_size + (c.length : Int) } := ⟨_, rfl⟩
      rw [← hd1] at hold1
      have hmax1 : d1.MAX_PACKET_SIZE = d.MAX_PACKET_SIZE := by rw [hd1]
      have hst1 : d1.m_stats = d.m_stats := by rw [hd1]
      have hw1 : d1.m_stream = some w1 := by rw [hd1]
      have hm1 : d1.m_extract_last = false := by rw [hd1]; exact hmode
      have hlen1 : (V ++ c).length ≤ data.length := by
        rw [h1] at hclen
        simp only [List.length_append]
        omega
      have hcat1 : (V ++ c) ++ rest.drop c.length = data := by
        rw [List.append_assoc, hrest, hcat]
      simp only [readPacketInternalLoop, hs, hrd, hcpos, if_true, ← hd1]
      by_cases hfl : (V ++ c).length = data.length
      · have hVc : V ++ c = data := by
          have hp : V ++ c <+: data := ⟨_, hcat1⟩
          exact hp.eq_of_length hfl
        have hex : ex (d1.internal_buffer.take d1.internal_buffer_size.toNat)
            d1.internal_buffer_size = data.length := by
          rw [hold1.1, Int.toNat_ofNat, hold1.2.1, hfl, ← hfl]
          rw [hfull (V ++ c) hfl, hfl]
        have hfind : findPacket ex d1.m_extract_last (fuel1 + 1) d1.internal_buffer
            d1.internal_buffer_size d1.m_stats = .ret (0, (data.length : Int)) d1.m_stats := by
          rw [hm1, findPacket_first_eq, hex, hold1.1]
          rw [if_neg (by omega), if_neg (by omega), if_pos (by omega)]
        obtain ⟨d2, out2, a1, a2, -, a4, -, -, a7, -⟩ :=
          doPacketExtraction_spec ex (fuel1 + 1) d1 out 0 data.length d1.m_stats
            (by rw [hold1.1]; exact_mod_cast (by
              have := congrArg List.length hold1.2.1
              rw [List.length_take] at this
              omega)) hfind
        obtain ⟨a7, -⟩ := a7 hm1
        have hne0 : (data.length : Int) ≠ 0 := by omega
        have hm2 : d2.m_extract_last = false := by
          have := doPacketExtraction_outcome True ex (fuel1 + 1) d1 out
          rw [a1] at this
          rw [this.1.mode_eq, hm1]
        simp only [a1, ne_eq, hne0, not_false_eq_true, hm2, and_self, if_true]
        refine ⟨d2, out2, rfl, ?_, ?_, ?_, ?_⟩
        · rw [Int.toNat_ofNat, hold1.1, Int.toNat_ofNat, hold1.2.1, Int.toNat_zero,
            List.drop_zero, hVc, List.take_length] at a2
          exact a2
        · rw [a4, hold1.1, hfl]
          omega
        · rw [a7, hst1]
        · rw [a7, hst1]
          simp
      · have hlt1 : (V ++ c).length < data.length := by omega
        have hex : ex (d1.internal_buffer.take d1.internal_buffer_size.toNat)
            d1.internal_buffer_size = 0 := by
          rw [hold1.1, Int.toNat_ofNat, hold1.2.1]
          exact hlow (V ++ c) hlt1
        have e1 := doPacketExtraction_undecided ex fuel1 d1 out (by rw [hold1.1]; omega) hex
        have hnf : d1.internal_buffer_size ≠ d1.MAX_PACKET_SIZE := by
          rw [hold1.1, hmax1, ← hN]
          omega
        simp only [e1, ne_eq, not_true_eq_false, false_and, if_false, hnf]
        have h6 := congrArg List.length hrest
        simp only [List.length_append] at h6
        obtain ⟨d2, out2, g1, g2, g3, g4, g5⟩ :=
          ih1 (fuel1 + 1) (V ++ c) d1 out packet_size true hw1 hm1 hold1 hcat1 hlt1
            (by rw [hmax1]; exact hN) hlow hfull (by omega)
        exact ⟨d2, out2, g1, g2, g3, by rw [g4, hst1], by rw [g5, hst1]⟩

/-- C14. A packet that fills the internal buffer exactly is delivered.  For
every `N = max_packet_size ≥ 1`, in both modes, from an empty internal buffer,
with an extractor that answers 0 while fewer than `N` bytes are in view and `N`
on `N` bytes, and a stream that hands over the `N` bytes `data` in whatever
non-empty pieces, `readPacket` returns `N` (it raises nothing), `out` holds
these `N` bytes, and `used` is 0 afterwards; `good_rx` went up by `N`. -/
theorem readPacket_exact_fit {σ : Type} (io : IOStream σ) (ex : Extractor) (fuel : Nat)
    (d : Driver σ) (w : σ) (out : List Byte)
    (buffer_size packet_timeout first_byte_timeout : Int) (data : List Byte)
    (hs : d.m_stream = some w) (hcap : d.MAX_PACKET_SIZE ≤ buffer_size) (hold : d.Holds [])
    (hN : (data.length : Int) = d.MAX_PACKET_SIZE) (hne : data ≠ [])
    (hlow : ∀ slice : List Byte, slice.length < data.length → ex slice slice.length = 0)
    (hfull : ∀ slice : List Byte, slice.length = data.length →
      ex slice slice.length = data.length)
    (hdel : Delivers io (io.now w).2 data) (hfuel : 2 * data.length + 3 ≤ fuel) :
    ∃ (d2 : Driver σ) (out2 : List Byte),
      readPacket io ex fuel d out buffer_size packet_timeout first_byte_timeout =
        .ret (data.length : Int) (d2, out2) ∧
      out2.take data.length = data ∧ d2.internal_buffer_size = 0 ∧
      d2.m_stats.good_rx = d.m_stats.good_rx + data.length ∧
      d2.m_stats.bad_rx = d.m_stats.bad_rx := by
  obtain ⟨f, rfl⟩ : ∃ f, fuel = f + 1 := ⟨fuel - 1, by omega⟩
  have hpos := List.length_pos.mpr hne
  obtain ⟨d0, hd0⟩ : ∃ d0 : Driver σ, d0 = { d with m_stream := some (io.now w).2 } :=
    ⟨_, rfl⟩
  have hold0 : d0.Holds [] := by rw [hd0]; exact hold
  have hmax0 : d0.MAX_PACKET_SIZE = d.MAX_PACKET_SIZE := by rw [hd0]
  have hst0 : d0.m_stats = d.m_stats := by rw [hd0]
  have hint : ∃ (rs1 : Bool) (d2 : Driver σ) (out2 : List Byte),
      readPacketInternal io ex f d0 out buffer_size =
        .ret ((data.length : Int), rs1) (d2, out2) ∧
      out2.take data.length = data ∧ d2.internal_buffer_size = 0 ∧
      d2.m_stats.good_rx = d.m_stats.good_rx + data.length ∧
      d2.m_stats.bad_rx = d.m_stats.bad_rx := by
    cases hm : d.m_extract_last with
    | false =>
      have h0 : ¬ d0.internal_buffer_size > 0 := by rw [hold0.1]; simp
      simp only [readPacketInternal, hmax0, if_neg (not_lt.mpr hcap), h0, if_false]
      obtain ⟨d2, out2, g1, g2, g3, g4, g5⟩ :=
        readPacketInternalLoop_exact io ex data (io.now w).2 data hdel f [] d0 out 0 false
          (by rw [hd0]) (by rw [hd0]; exact hm) hold0 (List.nil_append _) hpos
          (by rw [hmax0]; exact hN) hlow hfull (by omega)
      exact ⟨true, d2, out2, g1, g2, g3, by rw [g4, hst0], by rw [g5, hst0]⟩
    | true =>
      have hfr : Framed ex [data] := by
        refine ⟨hne, ?_, trivial⟩
        intro k hk hk0
        simp only [List.flatten_nil, List.append_nil] at hk ⊢
        have hlen : (data.take k).length = k := by
          rw [List.length_take]
          omega
        by_cases hkN : data.length ≤ k
        · have := hfull (data.take k) (by omega)
          rw [hlen] at this
          rw [if_pos hkN, this]
        · have := hlow (data.take k) (by omega)
          rw [hlen] at this
          rw [if_neg hkN, this]
      obtain ⟨rs1, d2, out2, g1, g2, g3, g4, g5⟩ :=
        readPacketInternal_framed io ex f d0 (io.now w).2 out buffer_size [data] [] data
          (by rw [hd0]; exact hm) (by rw [hd0]) (by rw [hmax0]; exact hcap) hold0
          (by simp) hfr
          (by
            intro p hp
            simp only [List.mem_singleton] at hp
            rw [hp, hmax0, hN])
          (by simp) hdel
          (by
            simp only [List.length_nil]
            omega)
      simp only [List.getLast_singleton, List.flatten_cons, List.flatten_nil,
        List.append_nil] at g1 g2 g4
      exact ⟨rs1, d2, out2, g1, g2, g3, by rw [g4, hst0], by rw [g5, hst0]⟩
  obtain ⟨rs1, d2, out2, g1, g2, g3, g4, g5⟩ := hint
  refine ⟨d2, out2, ?_, g2, g3, g4, g5⟩
  have hq : ((data.length : Int)) > 0 := by omega
  simp only [readPacket, if_neg (not_lt.mpr hcap), hs, readPacketLoop, ← hd0, g1, hq, if_true]

/-- A framer of 4 bytes in first-match mode receives a packet of 4 bytes in
pieces of 3 and 1 bytes. -/
theorem readPacket_exact_fit_witness :
    readPacket feedStream (fixedLength 4) 11
        (Driver.holding [] 4 false (some { pending := [[7, 8, 9], [10]], clock := 0 }))
        (List.replicate 4 0) 4 100 10 =
      .ret 4
        ({ internal_buffer := [7, 8, 9, 10]
           internal_buffer_size := 0
           MAX_PACKET_SIZE := 4
           m_stream := some { pending := [], clock := 1 }
           m_extract_last := false
           m_stats := { tx := 0, good_rx := 4, bad_rx := 0, queued_bytes := 0 }
           read_log := [[10], [7, 8, 9]]
           write_log := [] }, [7, 8, 9, 10]) ∧
    ∃ (d2 : Driver Feed) (out2 : List Byte),
      readPacket feedStream (fixedLength 4) 11
        (Driver.holding [] 4 true (some { pending := [[7, 8, 9, 10]], clock := 0 }))
        (List.replicate 4 0) 4 100 10 = .ret 4 (d2, out2) ∧
      out2.take 4 = [7, 8, 9, 10] ∧ d2.internal_buffer_size = 0 := by
  refine ⟨by decide, ?_⟩
  obtain ⟨d2, out2, h1, h2, h3, -, -⟩ :=
    readPacket_exact_fit feedStream (fixedLength 4) 11
      (Driver.holding [] 4 true (some { pending := [[7, 8, 9, 10]], clock := 0 }))
      { pending := [[7, 8, 9, 10]], clock := 0 } (List.replicate 4 0) 4 100 10 [7, 8, 9, 10]
      rfl (by decide) ⟨rfl, rfl, rfl⟩ rfl (by decide)
      (by
        intro slice hl
        simp only [fixedLength]
        rw [if_neg]
        change ¬ ((4 : Int) ≤ slice.length)
        have : slice.length < 4 := hl
        omega)
      (by
        intro slice hl
        have : slice.length = 4 := hl
        simp only [fixedLength, this]
        rfl)
      (feedStream_delivers 4 [7, 8, 9, 10] 1 (by decide)) (by decide)
  exact ⟨d2, out2, h1, h2, h3⟩

/-! ## A `packet_timeout` of 0 -/

/-- C16. With a stream attached, a `packet_timeout` of 0, an internal buffer
that holds no complete packet (it is empty, or `findPacket` yields length 0 on
it) and a stream whose non-blocking `read` returns 0, `readPacket` raises the
first-byte timeout, whatever `first_byte_timeout` is.  It does so at once: the
stream is left in the state the reading of the clock and that one `read` put it
in, so `waitRead` was not called, and no span went to the listeners. -/
theorem readPacket_zero_timeout {σ : Type} (io : IOStream σ) (ex : Extractor)
    (fuel fuel1 : Nat) (hfuel : fuel + 3 ≤ fuel1) (d : Driver σ) (w : σ) (out : List Byte)
    (buffer_size first_byte_timeout : Int)
    (hs : d.m_stream = some w) (hcap : d.MAX_PACKET_SIZE ≤ buffer_size)
    (hnone : d.internal_buffer_size ≤ 0 ∨ ∃ (s : Int) (st1 : Status),
      findPacket ex d.m_extract_last fuel d.internal_buffer d.internal_buffer_size d.m_stats =
        .ret (s, 0) st1)
    (hread : ∀ n, (io.read (io.now w).2 n).1 = some []) :
    ∃ (d2 : Driver σ),
      readPacket io ex fuel1 d out buffer_size 0 first_byte_timeout =
        .throw .timeout_first_byte (d2, out) ∧
      d2.m_stream =
        some (io.read (io.now w).2 (d.MAX_PACKET_SIZE - d2.internal_buffer_size)).2 ∧
      d2.read_log = d.read_log ∧ d2.internal_buffer_size ≤ d.internal_buffer_size := by
  obtain ⟨f, rfl⟩ : ∃ f, fuel1 = f + 2 := ⟨fuel1 - 2, by omega⟩
  simp only [readPacket, if_neg (not_lt.mpr hcap), hs, readPacketLoop, readPacketInternal]
  generalize (if first_byte_timeout > 0 then (-1 : Int) else first_byte_timeout)
    = first_byte_timeout1
  have hloop : ∀ (d1 : Driver σ), d1.m_stream = some (io.now w).2 →
      ∃ w1, w1 = (io.read (io.now w).2 (d1.MAX_PACKET_SIZE - d1.internal_buffer_size)).2 ∧
        readPacketInternalLoop io ex (f + 1) 0 false d1 out =
          .ret (0, false) (({ d1 with m_stream := some w1 } : Driver σ), out) := by
    intro d1 h1
    have hr := hread (d1.MAX_PACKET_SIZE - d1.internal_buffer_size)
    cases hrd : io.read (io.now w).2 (d1.MAX_PACKET_SIZE - d1.internal_buffer_size) with
    | mk o w1 =>
      rw [hrd] at hr
      simp only at hr
      subst hr
      refine ⟨w1, rfl, ?_⟩
      simp only [readPacketInternalLoop, h1, hrd, List.length_nil, Nat.cast_zero, gt_iff_lt,
        lt_self_iff_false, if_false]
  by_cases hpos : d.internal_buffer_size > 0
  · rcases hnone with h | ⟨s, st1, hfind⟩
    · omega
    · obtain ⟨hn, hs0, -, -⟩ := findPacket_ret_bounds ex _ _ _ _ _ _ _ hfind
      simp only at hs0
      obtain ⟨d1, a1, a2, a3, a4, a5, a6⟩ :=
        doPacketExtraction_none ex fuel (f + 1) (by omega)
          ({ d with m_stream := some (io.now w).2 } : Driver σ) out d.m_stats s st1 hfind
      obtain ⟨w1, hw1, hl⟩ := hloop d1 a4
      simp only [hpos, if_true, a1, ne_eq, not_true_eq_false, false_and, if_false,
        hl, gt_iff_lt, lt_self_iff_false]
      refine ⟨_, rfl, ?_, a6, ?_⟩
      · simp only [hw1, a3]
      · simp only [a2]
        omega
  · obtain ⟨w1, hw1, hl⟩ := hloop ({ d with m_stream := some (io.now w).2 } : Driver σ) rfl
    simp only [hpos, if_false, hl, gt_iff_lt, lt_self_iff_false, if_true]
    exact ⟨_, rfl, by simp only [hw1], rfl, le_refl _⟩

/-- A framer whose buffer holds the start of a packet and whose stream has
nothing to deliver, read with a `packet_timeout` of 0. -/
theorem readPacket_zero_timeout_witness :
    readPacket feedStream aaExtractor 8
        (Driver.holding [0xAA, 1] 8 false (some { pending := [], clock := 0 }))
        (List.replicate 8 0) 8 0 50 =
      .throw .timeout_first_byte
        (Driver.holding [0xAA, 1] 8 false (some { pending := [], clock := 1 }),
          List.replicate 8 0) ∧
    ∃ (d2 : Driver Feed),
      readPacket feedStream aaExtractor 8
        (Driver.holding [0xAA, 1] 8 false (some { pending := [], clock := 0 }))
        (List.replicate 8 0) 8 0 50 = .throw .timeout_first_byte (d2, List.replicate 8 0) ∧
      d2.read_log = [] := by
  obtain ⟨d2, h1, -, h3, -⟩ :=
    readPacket_zero_timeout feedStream aaExtractor 3 8 (by decide)
      (Driver.holding [0xAA, 1] 8 false (some { pending := [], clock := 0 }))
      { pending := [], clock := 0 } (List.replicate 8 0) 8 50 rfl (by decide)
      (Or.inr ⟨0, Status.init, by decide⟩) (fun _ => rfl)
  exact ⟨by decide, d2, h1, h3⟩

/-! ## Round trip through the identity framer -/

/-- `findPacket` when the extractor takes the whole buffer for one packet. -/
theorem findPacket_whole (ex : Extractor) (last : Bool) (fuel : Nat) (buffer : List Byte)
    (n : Int) (st : Status) (h0 : 0 < n) (h : ex (buffer.take n.toNat) n = n) :
    findPacket ex last (fuel + 1) buffer n st =
      .ret (0, n) (if last then countSegment st n else st) := by
  cases last
  · rw [findPacket_first_eq, h]
    rw [if_neg (by omega), if_neg (by omega), if_pos h0]
    rfl
  · rw [findPacket_last_eq, h]
    simp only [lt_self_iff_false, if_false, if_true]
    rw [if_neg (by omega), if_pos h0, if_pos (sub_self n)]

/-- C19. Round trip through the identity framer (the extractor that takes
whatever is in view for one packet).  From an empty internal buffer, with a
stream whose next `read` hands over the `N` bytes `chunk`,
`1 ≤ N ≤ max_packet_size` (and, in extract_last mode, whose `read` after that
returns 0), `readPacket` returns `N`, `out` holds the bytes of `chunk` in their
order, and `used` is 0 afterwards.  The driver is then again one with an empty
internal buffer, the same capacity and mode and the stream attached, so that
the next chunk fed is returned by the next call in the same way. -/
theorem readPacket_identity {σ : Type} (io : IOStream σ) (fuel : Nat) (d : Driver σ)
    (w w1 : σ) (out : List Byte) (buffer_size packet_timeout first_byte_timeout : Int)
    (chunk : List Byte)
    (hs : d.m_stream = some w) (hcap : d.MAX_PACKET_SIZE ≤ buffer_size) (hold : d.Holds [])
    (hne : chunk ≠ []) (hfit : (chunk.length : Int) ≤ d.MAX_PACKET_SIZE)
    (hread : io.read (io.now w).2 d.MAX_PACKET_SIZE = (some chunk, w1))
    (hnext : d.m_extract_last = true → (io.read w1 d.MAX_PACKET_SIZE).1 = some [])
    (hfuel : 4 ≤ fuel) :
    ∃ (d2 : Driver σ) (out2 : List Byte),
      readPacket io identityFramer fuel d out buffer_size packet_timeout first_byte_timeout =
        .ret (chunk.length : Int) (d2, out2) ∧
      out2.take chunk.length = chunk ∧ d2.internal_buffer_size = 0 ∧ d2.Holds [] ∧
      d2.MAX_PACKET_SIZE = d.MAX_PACKET_SIZE ∧ d2.m_extract_last = d.m_extract_last ∧
      d2.m_stream =
        some (if d.m_extract_last then (io.read w1 d.MAX_PACKET_SIZE).2 else w1) ∧
      d2.m_stats.good_rx = d.m_stats.good_rx + chunk.length ∧
      d2.m_stats.bad_rx = d.m_stats.bad_rx := by
  obtain ⟨f, rfl⟩ : ∃ f, fuel = f + 4 := ⟨fuel - 4, by omega⟩
  have hcl := List.length_pos.mpr hne
  have hcpos : (0 : Int) < (chunk.length : Int) := by omega
  obtain ⟨h1, h2, h3⟩ := hold
  simp only [List.length_nil, Nat.cast_zero] at h1
  obtain ⟨d0, hd0⟩ : ∃ d0 : Driver σ, d0 = { d with m_stream := some (io.now w).2 } :=
    ⟨_, rfl⟩
  have hold0 : d0.Holds [] := by rw [hd0]; exact ⟨h1, h2, h3⟩
  have hroom : (chunk.length : Int) ≤ d0.MAX_PACKET_SIZE - d0.internal_buffer_size := by
    rw [hd0]
    simp only [h1, sub_zero]
    exact hfit
  have hold1 := Driver.Holds.store d0 [] chunk w1 hold0 hroom
  obtain ⟨d1, hd1⟩ : ∃ d1 : Driver σ, d1 =
      { d0 with m_stream := some w1
                read_log := chunk :: d0.read_log
                internal_buffer := storeAt d0.internal_buffer d0.internal_buffer_size chunk
                internal_buffer_size := d0.internal_buffer_size + (chunk.length : Int) } :=
    ⟨_, rfl⟩
  rw [← hd1, List.nil_append] at hold1
  have hmax1 : d1.MAX_PACKET_SIZE = d.MAX_PACKET_SIZE := by rw [hd1, hd0]
  have hst1 : d1.m_stats = d.m_stats := by rw [hd1, hd0]
  have hw1 : d1.m_stream = some w1 := by rw [hd1]
  have hm1 : d1.m_extract_last = d.m_extract_last := by rw [hd1, hd0]
  have hfind := findPacket_whole identityFramer d1.m_extract_last (f + 1) d1.internal_buffer
    d1.internal_buffer_size d1.m_stats (by rw [hold1.1]; exact hcpos) rfl
  obtain ⟨d2, out2, a1, a2, -, a4, -, -, a7, a8, a9, a10, a11, a12, -, -⟩ :=
    doPacketExtraction_spec identityFramer (f + 2) d1 out 0 d1.internal_buffer_size _
      (by
        rw [hold1.1]
        have := congrArg List.length hold1.2.1
        rw [List.length_take] at this
        exact_mod_cast (by omega))
      hfind
  rw [hold1.1] at a1 a2 a4
  simp only [Int.toNat_ofNat, Int.toNat_zero, List.drop_zero, hold1.2.1, List.take_length]
    at a2
  have hu2 : d2.internal_buffer_size = 0 := by rw [a4]; omega
  have hold2 : d2.Holds [] := by
    refine ⟨by rw [hu2]; rfl, rfl, ?_⟩
    rw [a9, hold1.2.2, a10]
  have hgood : d2.m_stats.good_rx = d.m_stats.good_rx + chunk.length ∧
      d2.m_stats.bad_rx = d.m_stats.bad_rx := by
    cases hm : d1.m_extract_last with
    | false =>
      obtain ⟨b1, -⟩ := a7 hm
      rw [b1]
      simp [hm, hold1.1, hst1]
    | true =>
      have b1 := a8 hm
      rw [b1]
      have hnn : ¬ ((chunk.length : Int) < 0) := by omega
      simp [hm, countSegment, hold1.1, hst1, hnn]
  have h0 : ¬ d0.internal_buffer_size > 0 := by rw [hold0.1]; simp
  have hrd0 : io.read (io.now w).2 (d0.MAX_PACKET_SIZE - d0.internal_buffer_size) =
      (some chunk, w1) := by
    rw [hd0]
    simp only [h1, sub_zero]
    exact hread
  have hne0 : (chunk.length : Int) ≠ 0 := by omega
  have hd0s : d0.m_stream = some (io.now w).2 := by rw [hd0]
  have hd0m : d0.MAX_PACKET_SIZE = d.MAX_PACKET_SIZE := by rw [hd0]
  have hm2 : d2.m_extract_last = d.m_extract_last := by rw [a12, hm1]
  have hint : ∃ (d3 : Driver σ) (w3 : σ),
      readPacketInternal io identityFramer (f + 3) d0 out buffer_size =
        .ret ((chunk.length : Int), true) (d3, out2) ∧
      w3 = (if d.m_extract_last then (io.read w1 d.MAX_PACKET_SIZE).2 else w1) ∧
      d3 = { d2 with m_stream := some w3 } := by
    simp only [readPacketInternal, hd0m, if_neg (not_lt.mpr hcap), h0, if_false]
    rw [readPacketInternalLoop]
    simp only [hd0s, hrd0, gt_iff_lt, hcpos, if_true, ← hd1, a1, ne_eq, hne0,
      not_false_eq_true, true_and, hm2]
    cases hm : d.m_extract_last with
    | false =>
      simp only [if_true, Bool.false_eq_true, if_false]
      have hm2f : d2.m_extract_last = false := by rw [hm2, hm]
      refine ⟨d2, w1, rfl, rfl, ?_⟩
      cases d2
      simp only [Driver.mk.injEq, true_and, and_true] at a11 hm2f ⊢
      exact ⟨by rw [a11, hw1], hm2f⟩
    | true =>
      have hnf : d2.internal_buffer_size ≠ d2.MAX_PACKET_SIZE := by
        rw [hu2, a10, hmax1]
        omega
      have hr2 := hnext hm
      cases hrd2 : io.read w1 d.MAX_PACKET_SIZE with
      | mk o w2 =>
        rw [hrd2] at hr2
        simp only at hr2
        subst hr2
        have hrd2' : io.read w1 (d2.MAX_PACKET_SIZE - d2.internal_buffer_size) =
            (some [], w2) := by
          rw [hu2, a10, hmax1, sub_zero]
          exact hrd2
        simp only [Bool.true_eq_false, if_false, hnf]
        rw [readPacketInternalLoop]
        simp only [a11, hw1, hrd2', List.length_nil, Nat.cast_zero, gt_iff_lt,
          lt_self_iff_false, if_false, if_true]
        have hm2t : d2.m_extract_last = true := by rw [hm2, hm]
        refine ⟨_, w2, rfl, by simp, ?_⟩
        cases d2
        simp only [Driver.mk.injEq, true_and, and_true] at hm2t ⊢
        exact hm2t
  obtain ⟨d3, w3, g1, g3, g2⟩ := hint
  refine ⟨d3, out2, ?_, a2, ?_, ?_, ?_, ?_, ?_, ?_, ?_⟩
  · simp only [readPacket, if_neg (not_lt.mpr hcap), hs, readPacketLoop, ← hd0, g1, gt_iff_lt,
      hcpos, if_true]
  · rw [g2]; exact hu2
  · rw [g2]; exact hold2
  · rw [g2]; simp only [a10, hmax1]
  · rw [g2]; exact hm2
  · rw [g2, g3]
  · rw [g2]; exact hgood.1
  · rw [g2]; exact hgood.2

/-- Two chunks fed through the identity framer come back, one per call, as they
were fed. -/
theorem readPacket_identity_witness :
    (Driver.run feedStream identityFramer 6
        (Driver.holding [] 8 false (some { pending := [[1, 2, 3], [4, 5]], clock := 0 }))
        [Op.read_packet (List.replicate 8 0) 8 100 10,
         Op.read_packet (List.replicate 8 0) 8 100 10]).1 =
      [Reply.packet 3 [1, 2, 3, 0, 0, 0, 0, 0], Reply.packet 2 [4, 5, 0, 0, 0, 0, 0, 0]] ∧
    ∃ (d2 : Driver Feed) (out2 : List Byte),
      readPacket feedStream identityFramer 6
        (Driver.holding [] 8 false (some { pending := [[1, 2, 3], [4, 5]], clock := 0 }))
        (List.replicate 8 0) 8 100 10 = .ret 3 (d2, out2) ∧
      out2.take 3 = [1, 2, 3] ∧ d2.internal_buffer_size = 0 ∧
      d2.m_stream = some { pending := [[4, 5]], clock := 1 } := by
  refine ⟨by decide, ?_⟩
  obtain ⟨d2, out2, h1, h2, h3, -, -, -, h7, -, -⟩ :=
    readPacket_identity feedStream 6
      (Driver.holding [] 8 false (some { pending := [[1, 2, 3], [4, 5]], clock := 0 }))
      { pending := [[1, 2, 3], [4, 5]], clock := 0 } { pending := [[4, 5]], clock := 1 }
      (List.replicate 8 0) 8 100 10 [1, 2, 3] rfl (by decide) ⟨rfl, rfl, rfl⟩ (by decide)
      (by decide) (by decide) (fun h => by cases h) (by decide)
  exact ⟨d2, out2, h1, h2, h3, h7⟩

/-! ## Which timeout is raised -/

/-- The loop of `readPacketInternal`, however it ends: it raises no timeout,
and when it reports that nothing was received, nothing was received before the
loop either and no span went to the listeners. -/
theorem readPacketInternalLoop_received {σ : Type} (io : IOStream σ) (ex : Extractor) :
    ∀ (fuel : Nat) (packet_size : Int) (rs : Bool) (d : Driver σ) (out : List Byte),
      match readPacketInternalLoop io ex fuel packet_size rs d out with
      | .ret v (d1, _) => v.2 = false → rs = false ∧ d1.read_log = d.read_log
      | .throw e _ => e ≠ .timeout_first_byte ∧ e ≠ .timeout_packet
      | .diverge => True := by
  intro fuel
  induction fuel with
  | zero => intro packet_size rs d out; simp only [readPacketInternalLoop]
  | succ fuel ih =>
    intro packet_size rs d out
    rw [readPacketInternalLoop]
    cases hs : d.m_stream with
    | none => simp
    | some w =>
      simp only
      cases hrd : io.read w (d.MAX_PACKET_SIZE - d.internal_buffer_size) with
      | mk o w1 =>
        cases o with
        | none => simp
        | some bytes =>
          simp only
          by_cases hc : (bytes.length : Int) > 0
          · simp only [hc, if_true]
            have hd := doPacketExtraction_outcome True ex fuel
              ({ d with m_stream := some w1
                        read_log := bytes :: d.read_log
                        internal_buffer := storeAt d.internal_buffer d.internal_buffer_size bytes
                        internal_buffer_size := d.internal_buffer_size + (bytes.length : Int) } :
                Driver σ) out
            cases hx : doPacketExtraction ex fuel
              ({ d with m_stream := some w1
                        read_log := bytes :: d.read_log
                        internal_buffer := storeAt d.internal_buffer d.internal_buffer_size bytes
                        internal_buffer_size := d.internal_buffer_size + (bytes.length : Int) } :
                Driver σ) out with
            | diverge => simp only
            | throw e s =>
              rw [hx] at hd
              simp only
              rw [hd.1]
              simp
            | ret l s =>
              obtain ⟨d2, out2⟩ := s
              simp only
              by_cases h1 : l ≠ 0 ∧ d2.m_extract_last = false
              · rw [if_pos h1]
                simp
              · rw [if_neg h1]
                by_cases h2 : d2.internal_buffer_size = d2.MAX_PACKET_SIZE
                · simp only [h2, if_true]
                  simp
                · simp only [h2, if_false]
                  have := ih (if l ≠ 0 then l else packet_size) true d2 out2
                  cases hy : readPacketInternalLoop io ex fuel (if l ≠ 0 then l else packet_size)
                      true d2 out2 with
                  | diverge => simp only
                  | throw e s => rw [hy] at this; exact this
                  | ret v s =>
                    obtain ⟨d3, out3⟩ := s
                    rw [hy] at this
                    simp only at this ⊢
                    intro hv
                    have := (this hv).1
                    cases this
          · simp only [hc, if_false]
            simp

/-- `readPacketInternal`, however it ends: it raises no timeout, and when it
reports that nothing was received, no span went to the listeners. -/
theorem readPacketInternal_received {σ : Type} (io : IOStream σ) (ex : Extractor) (fuel : Nat)
    (d : Driver σ) (out : List Byte) (buffer_size : Int) :
    match readPacketInternal io ex fuel d out buffer_size with
    | .ret v (d1, _) => v.2 = false → d1.read_log = d.read_log
    | .throw e _ => e ≠ .timeout_first_byte ∧ e ≠ .timeout_packet
    | .diverge => True := by
  rw [readPacketInternal]
  by_cases h1 : buffer_size < d.MAX_PACKET_SIZE
  · simp [h1]
  · simp only [h1, if_false]
    by_cases h2 : d.internal_buffer_size > 0
    · simp only [h2, if_true]
      have hd := doPacketExtraction_outcome True ex fuel d out
      cases hx : doPacketExtraction ex fuel d out with
      | diverge => simp only
      | throw e s =>
        rw [hx] at hd
        simp only
        rw [hd.1]
        simp
      | ret l s =>
        obtain ⟨d1, out1⟩ := s
        rw [hx] at hd
        simp only at hd ⊢
        by_cases h3 : l ≠ 0 ∧ d1.m_extract_last = false
        · rw [if_pos h3]
          intro _
          exact hd.2.2.2.2.2.1
        · rw [if_neg h3]
          have := readPacketInternalLoop_received io ex fuel l false d1 out1
          cases hy : readPacketInternalLoop io ex fuel l false d1 out1 with
          | diverge => simp only
          | throw e s => rw [hy] at this; exact this
          | ret v s =>
            obtain ⟨d3, out3⟩ := s
            rw [hy] at this
            simp only at this ⊢
            intro hv
            rw [(this hv).2]
            exact hd.2.2.2.2.2.1
    · simp only [h2, if_false]
      have := readPacketInternalLoop_received io ex fuel 0 false d out
      cases hy : readPacketInternalLoop io ex fuel 0 false d out with
      | diverge => simp only
      | throw e s => rw [hy] at this; exact this
      | ret v s =>
        obtain ⟨d3, out3⟩ := s
        rw [hy] at this
        simp only at this ⊢
        intro hv
        exact (this hv).2

/-- The loop of `readPacket` with a `packet_timeout` other than 0: when it
raises the first-byte timeout, no span went to the listeners since the call
began. -/
theorem readPacketLoop_first_byte {σ : Type} (io : IOStream σ) (ex : Extractor)
    (buffer_size packet_timeout first_byte_timeout : Int) (time_out : Timeout)
    (log : List (List Byte)) (hpt : packet_timeout ≠ 0) :
    ∀ (fuel : Nat) (read_something : Bool) (d : Driver σ) (out : List Byte),
      (read_something = false → d.read_log = log) →
      ∀ (s : Driver σ × List Byte),
        readPacketLoop io ex buffer_size packet_timeout first_byte_timeout time_out fuel
          read_something d out = .throw .timeout_first_byte s → s.1.read_log = log := by
  intro fuel
  induction fuel with
  | zero => intro rs d out _ s h; simp [readPacketLoop] at h
  | succ fuel ih =>
    intro rs d out hinv s h
    rw [readPacketLoop] at h
    have hd := readPacketInternal_received io ex fuel d out buffer_size
    cases hx : readPacketInternal io ex fuel d out buffer_size with
    | diverge => rw [hx] at h; cases h
    | throw e s1 =>
      rw [hx] at h hd
      simp only at h hd
      cases h
      exact absurd rfl hd.1
    | ret v s1 =>
      obtain ⟨d1, out1⟩ := s1
      rw [hx] at h hd
      simp only at h hd
      by_cases h1 : v.1 > 0
      · simp only [h1, if_true] at h
        cases h
      · simp only [h1, if_false, hpt] at h
        have hkey : (decide (first_byte_timeout ≠ -1) && !(rs || v.2)) = true →
            d1.read_log = log := by
          intro hf
          simp only [Bool.and_eq_true, Bool.not_eq_true', Bool.or_eq_false_iff] at hf
          rw [hd hf.2.2]
          exact hinv hf.2.1
        have hrs : (rs || v.2) = false → d1.read_log = log := by
          intro hf
          simp only [Bool.or_eq_false_iff] at hf
          rw [hd hf.2]
          exact hinv hf.1
        cases hfirst : (decide (first_byte_timeout ≠ -1) && !(rs || v.2)) with
        | false =>
          rw [hfirst] at h
          simp only [Bool.false_eq_true, if_false] at h
          cases hst : d1.m_stream with
          | none => rw [hst] at h; cases h
          | some w =>
            rw [hst] at h
            simp only at h
            split_ifs at h with h3 h4
            · cases h
            · refine ih _ _ _ (fun hf => ?_) s h
              exact hrs hf
            · cases h
        | true =>
          have hlog := hkey hfirst
          rw [hfirst] at h
          simp only [if_true] at h
          cases hst : d1.m_stream with
          | none => rw [hst] at h; cases h
          | some w =>
            rw [hst] at h
            simp only at h
            split_ifs at h with h3 h4
            · cases h
              exact hlog
            · refine ih _ _ _ (fun hf => ?_) s h
              exact hrs hf
            · cases h
              exact hlog

/-- C15, on the code.  With a `packet_timeout` other than 0 the code does what
the claim says: whenever `readPacket` raises the first-byte timeout, no byte was
received from the stream during the call (no span went to the listeners).
With a `packet_timeout` of 0 it does not: a framer whose stream delivers
`AA 01` and then nothing receives these two bytes, finds no complete packet
and raises the first-byte timeout, not the packet timeout; the test of
`packet_timeout == 0` (line 734) does not look at `read_something`. -/
theorem first_byte_timeout_with_bytes_read :
    (∀ (σ : Type) (io : IOStream σ) (ex : Extractor) (fuel : Nat) (d : Driver σ)
      (out : List Byte) (buffer_size packet_timeout first_byte_timeout : Int)
      (s : Driver σ × List Byte), packet_timeout ≠ 0 →
      readPacket io ex fuel d out buffer_size packet_timeout first_byte_timeout =
        .throw .timeout_first_byte s → s.1.read_log = d.read_log) ∧
    readPacket feedStream aaExtractor 8
        (Driver.holding [] 8 false (some { pending := [[0xAA, 1]], clock := 0 }))
        (List.replicate 8 0) 8 0 50 =
      .throw .timeout_first_byte
        ({ internal_buffer := [0xAA, 1, 0, 0, 0, 0, 0, 0]
           internal_buffer_size := 2
           MAX_PACKET_SIZE := 8
           m_stream := some { pending := [], clock := 1 }
           m_extract_last := false
           m_stats := Status.init
           read_log := [[0xAA, 1]]
           write_log := [] }, List.replicate 8 0) := by
  refine ⟨?_, by decide⟩
  intro σ io ex fuel d out buffer_size packet_timeout first_byte_timeout s hpt h
  rw [readPacket] at h
  simp only at h
  by_cases h1 : buffer_size < d.MAX_PACKET_SIZE
  · simp only [h1, if_true] at h
    cases h
  · simp only [h1, if_false] at h
    cases hst : d.m_stream with
    | none =>
      rw [hst] at h
      simp only [extractPacketFromInternalBuffer] at h
      cases hx : extractPacketFromInternalBufferLoop ex fuel 0 d out with
      | diverge => rw [hx] at h; cases h
      | throw e s3 =>
        rw [hx] at h
        have := extractPacketFromInternalBufferLoop_throw_kind ex _ _ _ _ _ _ hx
        subst this
        cases h
      | ret v s3 =>
        rw [hx] at h
        simp only at h
        split_ifs at h
        cases h
    | some w =>
      rw [hst] at h
      simp only at h
      refine readPacketLoop_first_byte io ex buffer_size packet_timeout _ _ d.read_log hpt fuel
        false _ out (fun _ => ?_) s h
      rfl

/-! ## `writePacket` -/

/-- The loop of `writePacket`, however it ends: when it returns, it returns
`true` and has added `buffer_size` to `tx` and touched nothing else but the
stream and the spans handed to the listeners; when it raises, the counters are
as they were. -/
theorem writePacketLoop_outcome {σ : Type} (io : IOStream σ) (buffer : List Byte)
    (buffer_size timeout : Int) (time_out : Timeout) :
    ∀ (fuel : Nat) (written : Int) (d : Driver σ),
      match writePacketLoop io buffer buffer_size timeout time_out fuel written d with
      | .ret v d1 =>
        v = true ∧ d1.m_stats = { d.m_stats with tx := d.m_stats.tx + buffer_size } ∧
          d1.internal_buffer = d.internal_buffer ∧
          d1.internal_buffer_size = d.internal_buffer_size ∧ d1.read_log = d.read_log
      | .throw _ d1 =>
        d1.m_stats = d.m_stats ∧ d1.internal_buffer = d.internal_buffer ∧
          d1.internal_buffer_size = d.internal_buffer_size
      | .diverge => True := by
  intro fuel
  induction fuel with
  | zero => intro written d; simp only [writePacketLoop]
  | succ fuel ih =>
    intro written d
    rw [writePacketLoop]
    cases hs : d.m_stream with
    | none => simp
    | some w =>
      simp only
      cases hw : io.write w ((buffer.drop written.toNat).take (buffer_size - written).toNat) with
      | mk o w1 =>
        cases o with
        | none => simp
        | some c =>
          simp only
          split_ifs with h1 h2 h3
          · simp
          · simp
          · have := ih (written + c)
              ({ d with m_stream := some (io.waitWrite (io.now (io.now w1).2).2
                           (time_out.timeLeft (io.now (io.now w1).2).1 timeout)).2
                        write_log := (buffer.drop written.toNat).take c.toNat :: d.write_log } :
                Driver σ)
            exact this
          · simp

/-- The loop of `writePacket` on a stream that takes what is left of the buffer
in `n` writes before the timeout elapses: it returns `true` after `n` rounds,
the spans handed to the listeners are, in the order of the calls, the pieces of
what was left, and `buffer_size` is added to `tx`. -/
theorem writePacketLoop_accepts {σ : Type} (io : IOStream σ) (buffer : List Byte)
    (timeout : Int) (time_out : Timeout) :
    ∀ (n : Nat) (w : σ) (data : List Byte), Accepts io timeout time_out n w data →
    ∀ (fuel : Nat) (written : Nat) (d : Driver σ),
      n ≤ fuel → d.m_stream = some w → data = buffer.drop written → written ≤ buffer.length →
      ∃ (d1 : Driver σ) (spans : List (List Byte)),
        writePacketLoop io buffer buffer.length timeout time_out fuel written d = .ret true d1 ∧
        d1.m_stats = { d.m_stats with tx := d.m_stats.tx + buffer.length } ∧
        d1.write_log = spans ++ d.write_log ∧ spans.reverse.flatten = data ∧
        spans.length = n := by
  intro n w data h
  induction h with
  | last w data hw =>
    intro fuel written d hfuel hs hdata hle
    obtain ⟨f, rfl⟩ : ∃ f, fuel = f + 1 := ⟨fuel - 1, by omega⟩
    have hlen : data.length = buffer.length - written := by rw [hdata, List.length_drop]
    have hslice : (buffer.drop written).take
        ((buffer.length : Int) - (written : Int)).toNat = data := by
      rw [← hdata]
      apply List.take_of_length_le
      omega
    cases hwr : io.write w data with
    | mk o w1 =>
      rw [hwr] at hw
      simp only at hw
      subst hw
      have hfin : (written : Int) + (data.length : Int) = (buffer.length : Int) := by omega
      simp only [writePacketLoop, hs, Int.toNat_ofNat, hslice, hwr, hfin, if_true]
      refine ⟨_, [data], rfl, rfl, ?_, by simp, rfl⟩
      simp only [Int.toNat_ofNat, ← hdata, List.take_length, List.singleton_append]
  | step n w data c hw hc0 hclt hel hready hrest ih =>
    intro fuel written d hfuel hs hdata hle
    obtain ⟨f, rfl⟩ : ∃ f, fuel = f + 1 := ⟨fuel - 1, by omega⟩
    have hlen : data.length = buffer.length - written := by rw [hdata, List.length_drop]
    have hslice : (buffer.drop written).take
        ((buffer.length : Int) - (written : Int)).toNat = data := by
      rw [← hdata]
      apply List.take_of_length_le
      omega
    lift c to ℕ using hc0
    have hclt' : c < data.length := by exact_mod_cast hclt
    cases hwr : io.write w data with
    | mk o w1 =>
      rw [hwr] at hw hel hready hrest ih
      simp only at hw hel hready hrest ih
      subst hw
      have hnf : ¬ (((written + c : Nat) : Int) = (buffer.length : Int)) := by omega
      have hw' : ((written : Int) + (c : Int)) = ((written + c : Nat) : Int) := by push_cast; rfl
      obtain ⟨d1, spans, g1, g2, g3, g4, g5⟩ :=
        ih f (written + c)
          ({ d with m_stream := some (io.waitWrite (io.now (io.now w1).2).2
                       (time_out.timeLeft (io.now (io.now w1).2).1 timeout)).2
                    write_log := (buffer.drop written).take c :: d.write_log } : Driver σ)
          (by omega) rfl
          (by rw [hdata, Int.toNat_ofNat, List.drop_drop, Nat.add_comm]) (by omega)
      simp only [writePacketLoop, hs, Int.toNat_ofNat, hslice, hwr, hnf, if_false, hel,
        Bool.false_eq_true, hready, if_true, hw']
      refine ⟨d1, spans ++ [(buffer.drop written).take c], g1, g2, ?_, ?_, ?_⟩
      · rw [g3]
        simp
      · rw [List.reverse_append, List.flatten_append, g4, Int.toNat_ofNat, ← hdata]
        simp
      · rw [List.length_append, g5]
        rfl

/-- C17. For every buffer and every attached stream that takes the bytes of the
buffer in `n` non-blocking writes, each accepting between 0 bytes and what is
left, before the timeout elapses, `writePacket` returns `true`, adds the length
of the buffer to `tx`, leaves `good_rx` and `bad_rx` as they were, and calls
the listeners' `writeData` `n` times with spans whose concatenation, in the
order of the calls, is the buffer.  When `writePacket` raises (the packet
timeout, the stream's own exception, or, with no stream attached, the
`runtime_error`), the counters, `tx` among them, are as they were. -/
theorem writePacket_spec {σ : Type} (io : IOStream σ) (fuel : Nat) (d : Driver σ)
    (buffer : List Byte) (timeout : Int) :
    (∀ (w : σ) (n : Nat), d.m_stream = some w →
      Accepts io timeout { start := (io.now w).1 } n (io.now w).2 buffer → n ≤ fuel →
      ∃ (d1 : Driver σ) (spans : List (List Byte)),
        writePacket io fuel d buffer buffer.length timeout = .ret true d1 ∧
        d1.m_stats.tx = d.m_stats.tx + buffer.length ∧
        d1.m_stats.good_rx = d.m_stats.good_rx ∧ d1.m_stats.bad_rx = d.m_stats.bad_rx ∧
        d1.write_log = spans ++ d.write_log ∧ spans.reverse.flatten = buffer ∧
        spans.length = n) ∧
    (∀ (buffer_size : Int) (e : Thrown) (d1 : Driver σ),
      writePacket io fuel d buffer buffer_size timeout = .throw e d1 →
        d1.m_stats = d.m_stats) ∧
    (d.m_stream = none → ∀ (buffer_size : Int),
      writePacket io fuel d buffer buffer_size timeout = .throw .runtime_error d) := by
  refine ⟨?_, ?_, ?_⟩
  · intro w n hs hacc hfuel
    obtain ⟨d1, spans, g1, g2, g3, g4, g5⟩ :=
      writePacketLoop_accepts io buffer timeout { start := (io.now w).1 } n (io.now w).2 buffer
        hacc fuel 0 ({ d with m_stream := some (io.now w).2 } : Driver σ) hfuel rfl rfl
        (Nat.zero_le _)
    refine ⟨d1, spans, ?_, by rw [g2], by rw [g2], by rw [g2], g3, g4, g5⟩
    simp only [writePacket, hs]
    exact g1
  · intro buffer_size e d1 h
    rw [writePacket] at h
    cases hs : d.m_stream with
    | none =>
      rw [hs] at h
      cases h
      rfl
    | some w =>
      rw [hs] at h
      simp only at h
      have := writePacketLoop_outcome io buffer buffer_size timeout { start := (io.now w).1 }
        fuel 0 ({ d with m_stream := some (io.now w).2 } : Driver σ)
      rw [h] at this
      exact this.1
  · intro hs buffer_size
    simp only [writePacket, hs]

/-- The scenario of section 8: 10 bytes over a stream that accepts 3 bytes per
write go out in 4 rounds, in spans of 3, 3, 3 and 1 bytes, and `tx` is 10. -/
theorem writePacket_spec_witness :
    writePacket (throttledStream 3) 4
        (Driver.holding [] 8 false (some { pending := [], clock := 0 }))
        [1, 2, 3, 4, 5, 6, 7, 8, 9, 10] 10 100 =
      .ret true
        { internal_buffer := [0, 0, 0, 0, 0, 0, 0, 0]
          internal_buffer_size := 0
          MAX_PACKET_SIZE := 8
          m_stream := some { pending := [], clock := 7 }
          m_extract_last := false
          m_stats := { tx := 10, good_rx := 0, bad_rx := 0, queued_bytes := 0 }
          read_log := []
          write_log := [[10], [7, 8, 9], [4, 5, 6], [1, 2, 3]] } ∧
    ∃ (d1 : Driver Feed) (spans : List (List Byte)),
      writePacket (throttledStream 3) 4
        (Driver.holding [] 8 false (some { pending := [], clock := 0 }))
        [1, 2, 3, 4, 5, 6, 7, 8, 9, 10] 10 100 = .ret true d1 ∧
      d1.m_stats.tx = 10 ∧ spans.reverse.flatten = [1, 2, 3, 4, 5, 6, 7, 8, 9, 10] ∧
      spans.length = 4 := by
  refine ⟨by decide, ?_⟩
  obtain ⟨d1, spans, h1, h2, -, -, -, h6, h7⟩ :=
    (writePacket_spec (throttledStream 3) 4
      (Driver.holding [] 8 false (some { pending := [], clock := 0 }))
      [1, 2, 3, 4, 5, 6, 7, 8, 9, 10] 100).1 { pending := [], clock := 0 } 4 rfl
      (Accepts.step 3 _ _ 3 (by decide) (by decide) (by decide) (by decide) (by decide)
        (Accepts.step 2 _ _ 3 (by decide) (by decide) (by decide) (by decide) (by decide)
          (Accepts.step 1 _ _ 3 (by decide) (by decide) (by decide) (by decide) (by decide)
            (Accepts.last _ _ (by decide)))))
      (le_refl _)
  exact ⟨d1, spans, h1, h2, h6, h7⟩

/-! ## `clear`, `resetStatus`, `getStatus` -/

/-- C18. `clear` and `resetStatus` are independent.  `clear` sets `used` to 0
and leaves the counters as they were; `resetStatus` sets `tx`, `good_rx` and
`bad_rx` to 0 and leaves the internal buffer and `used` as they were; in every
state `getStatus` reports `used` as `queued_bytes` (as the `unsigned int` it
is stored in, so `used` itself when `0 ≤ used < 2^32`) together with the
counters of that state, and changes neither `used` nor `tx`, `good_rx`,
`bad_rx`.  Directly after `clear` it reports `queued_bytes = 0` with the
counters as before, directly after `resetStatus` the counters 0 with
`queued_bytes` as before. -/
theorem clear_resetStatus_independent {σ : Type} (io : IOStream σ) (d : Driver σ) :
    ((clear io d).internal_buffer_size = 0 ∧ (clear io d).m_stats = d.m_stats) ∧
    ((resetStatus d).m_stats.tx = 0 ∧ (resetStatus d).m_stats.good_rx = 0 ∧
      (resetStatus d).m_stats.bad_rx = 0 ∧
      (resetStatus d).internal_buffer = d.internal_buffer ∧
      (resetStatus d).internal_buffer_size = d.internal_buffer_size) ∧
    ((getStatus d).1.queued_bytes = asUnsigned d.internal_buffer_size ∧
      (getStatus d).1.tx = asUnsigned d.m_stats.tx ∧
      (getStatus d).1.good_rx = asUnsigned d.m_stats.good_rx ∧
      (getStatus d).1.bad_rx = asUnsigned d.m_stats.bad_rx) ∧
    (0 ≤ d.internal_buffer_size → d.internal_buffer_size < 4294967296 →
      (getStatus d).1.queued_bytes = d.internal_buffer_size) ∧
    ((getStatus d).2.internal_buffer_size = d.internal_buffer_size ∧
      (getStatus d).2.internal_buffer = d.internal_buffer ∧
      (getStatus d).2.m_stats.tx = d.m_stats.tx ∧
      (getStatus d).2.m_stats.good_rx = d.m_stats.good_rx ∧
      (getStatus d).2.m_stats.bad_rx = d.m_stats.bad_rx) ∧
    ((getStatus (clear io d)).1.queued_bytes = 0 ∧
      (getStatus (clear io d)).1.tx = (getStatus d).1.tx ∧
      (getStatus (clear io d)).1.good_rx = (getStatus d).1.good_rx ∧
      (getStatus (clear io d)).1.bad_rx = (getStatus d).1.bad_rx) ∧
    ((getStatus (resetStatus d)).1.tx = 0 ∧ (getStatus (resetStatus d)).1.good_rx = 0 ∧
      (getStatus (resetStatus d)).1.bad_rx = 0 ∧
      (getStatus (resetStatus d)).1.queued_bytes = (getStatus d).1.queued_bytes) := by
  refine ⟨⟨rfl, rfl⟩, ⟨rfl, rfl, rfl, rfl, rfl⟩, ⟨rfl, rfl, rfl, rfl⟩, ?_, ⟨rfl, rfl, rfl, rfl, rfl⟩,
    ⟨rfl, rfl, rfl, rfl⟩, ⟨rfl, rfl, rfl, rfl⟩⟩
  intro h0 h1
  simp only [getStatus, Status.stored, asUnsigned]
  exact Int.emod_eq_of_lt h0 h1

/-- A framer with 2 bytes queued and counters 5, 4, 3: after `clear`, after
`resetStatus`, and what `getStatus` reports in each case. -/
theorem clear_resetStatus_independent_witness :
    (getStatus (clear feedStream
      ({ internal_buffer := [0xAA, 1, 0, 0], internal_buffer_size := 2, MAX_PACKET_SIZE := 4,
         m_stream := none, m_extract_last := false,
         m_stats := { tx := 5, good_rx := 4, bad_rx := 3, queued_bytes := 0 },
         read_log := [], write_log := [] } : Driver Feed))).1 =
      { tx := 5, good_rx := 4, bad_rx := 3, queued_bytes := 0 } ∧
    (getStatus (resetStatus
      ({ internal_buffer := [0xAA, 1, 0, 0], internal_buffer_size := 2, MAX_PACKET_SIZE := 4,
         m_stream := none, m_extract_last := false,
         m_stats := { tx := 5, good_rx := 4, bad_rx := 3, queued_bytes := 0 },
         read_log := [], write_log := [] } : Driver Feed))).1 =
      { tx := 0, good_rx := 0, bad_rx := 0, queued_bytes := 2 } ∧
    (getStatus
      ({ internal_buffer := [0xAA, 1, 0, 0], internal_buffer_size := 2, MAX_PACKET_SIZE := 4,
         m_stream := none, m_extract_last := false,
         m_stats := { tx := 5, good_rx := 4, bad_rx := 3, queued_bytes := 0 },
         read_log := [], write_log := [] } : Driver Feed)).1.queued_bytes = 2 :=
  ⟨by decide, by decide,
    (clear_resetStatus_independent feedStream
      ({ internal_buffer := [0xAA, 1, 0, 0], internal_buffer_size := 2, MAX_PACKET_SIZE := 4,
         m_stream := none, m_extract_last := false,
         m_stats := { tx := 5, good_rx := 4, bad_rx := 3, queued_bytes := 0 },
         read_log := [], write_log := [] } : Driver Feed)).2.2.2.1 (by decide) (by decide)⟩

/-! ## The hex-pair formatter -/

/-- What `binary_com` writes for one byte: the digit of the high nibble, then
the digit of the low nibble, whether or not `char` is signed. -/
theorem binary_com_byte :
    ∀ (char_is_signed : Bool) (b : Nat), b < 256 →
      hexOut (((asUnsigned (asChar char_is_signed b)).toNat &&& 0xF0) >>> 4) ++
          hexOut ((asUnsigned (asChar char_is_signed b)).toNat &&& 0xF) =
        [lowerHexDigit (b / 16), lowerHexDigit (b % 16)] := by
  intro char_is_signed b hb
  cases char_is_signed <;> interval_cases b <;> rfl

/-- The characters at the places `2i` and `2i + 1` of a list of pairs. -/
theorem flatMap_pair_getElem (f g : Byte → Char) :
    ∀ (str : List Byte) (i : Nat),
      (str.flatMap fun b => [f b, g b])[2 * i]? = str[i]?.map f ∧
        (str.flatMap fun b => [f b, g b])[2 * i + 1]? = str[i]?.map g := by
  intro str
  induction str with
  | nil => intro i; simp
  | cons b rest ih =>
    intro i
    cases i with
    | zero => simp
    | succ k =>
      have := ih k
      have e1 : 2 * (k + 1) = 2 * k + 1 + 1 := by ring
      have e2 : 2 * (k + 1) + 1 = 2 * k + 1 + 1 + 1 := by ring
      simp only [List.flatMap_cons, List.cons_append, List.nil_append, e1, e2,
        List.getElem?_cons_succ]
      exact this

/-- A list of pairs is twice as long as the list it is made from. -/
theorem flatMap_pair_length (f g : Byte → Char) :
    ∀ (str : List Byte), (str.flatMap fun b => [f b, g b]).length = 2 * str.length := by
  intro str
  induction str with
  | nil => rfl
  | cons b rest ih =>
    simp only [List.flatMap_cons, List.length_append, List.length_cons, List.length_nil, ih]
    ring

/-- C20. `binary_com` maps every sequence of `n` bytes (values `0x00 .. 0xFF`)
to a string of exactly `2n` characters, in which the characters `2i` and
`2i + 1` are the lowercase hexadecimal digits of the high and of the low nibble
of byte `i`; this holds whether `char` is signed (the bytes from `0x80` on are
then read as negative values) or not. -/
theorem binary_com_hex_pairs (char_is_signed : Bool) (str : List Byte)
    (hbytes : ∀ b ∈ str, b < 256) :
    (binary_com char_is_signed str).data =
        str.flatMap (fun b => [lowerHexDigit (b / 16), lowerHexDigit (b % 16)]) ∧
      (binary_com char_is_signed str).length = 2 * str.length ∧
      ∀ (i : Nat),
        (binary_com char_is_signed str).data[2 * i]? =
            str[i]?.map (fun b => lowerHexDigit (b / 16)) ∧
          (binary_com char_is_signed str).data[2 * i + 1]? =
            str[i]?.map (fun b => lowerHexDigit (b % 16)) := by
  have hdata : (binary_com char_is_signed str).data =
      str.flatMap (fun b => [lowerHexDigit (b / 16), lowerHexDigit (b % 16)]) := by
    simp only [binary_com]
    induction str with
    | nil => rfl
    | cons b rest ih =>
      simp only [List.flatMap_cons]
      rw [binary_com_byte char_is_signed b (hbytes b (by simp)),
        ih (fun c hc => hbytes c (List.mem_cons_of_mem _ hc))]
  refine ⟨hdata, ?_, ?_⟩
  · rw [String.length, hdata]
    exact flatMap_pair_length _ _ str
  · intro i
    rw [hdata]
    exact flatMap_pair_getElem _ _ str i

/-- The bytes `00 7f 80 ff a5` come out as `007f80ffa5`, with a signed and with
an unsigned `char`. -/
theorem binary_com_hex_pairs_witness :
    binary_com true [0x00, 0x7f, 0x80, 0xff, 0xa5] = "007f80ffa5" ∧
    binary_com false [0x00, 0x7f, 0x80, 0xff, 0xa5] = "007f80ffa5" ∧
    (binary_com true [0x00, 0x7f, 0x80, 0xff, 0xa5]).length = 2 * 5 :=
  ⟨by decide, by decide,
    (binary_com_hex_pairs true [0x00, 0x7f, 0x80, 0xff, 0xa5] (by decide)).2.1⟩

/-! ## Construction -/

/-- C22, on the code.  The constructor does not reject `max_packet_size = 0`:
it returns a framer whose `MAX_PACKET_SIZE` is 0.  The test of
`MAX_PACKET_SIZE <= 0` (lines 92-93) builds the `std::runtime_error` with the
message and drops it, the `throw` is missing.  For a negative
`max_packet_size` the construction does fail, but in `new uint8_t[..]`, before
that test. -/
theorem Driver.new_zero_accepted (mem : List Byte) (extract_last : Bool) :
    (Driver.new mem 0 extract_last : Outcome Unit (Driver Unit)) =
      .ret { internal_buffer := []
             internal_buffer_size := 0
             MAX_PACKET_SIZE := 0
             m_stream := none
             m_extract_last := extract_last
             m_stats := Status.init
             read_log := []
             write_log := [] } () ∧
    ∀ (max_packet_size : Int), max_packet_size < 0 →
      (Driver.new mem max_packet_size extract_last : Outcome Unit (Driver Unit)) =
        .throw .bad_array_new_length () := by
  constructor
  · simp [Driver.new]
  · intro m hm
    simp [Driver.new, hm]

/-! ## A failed extraction changes nothing -/

/-- C23. If `findPacket` fails inside `doPacketExtraction`, the failure is the
length violation, the internal buffer and `used` are exactly what they were,
the caller's output buffer is untouched, and so are the stream, the capacity,
the mode and `tx`; in first-match mode the whole driver, `good_rx` and `bad_rx`
included, is as it was. -/
theorem doPacketExtraction_failure_atomic {σ : Type} (ex : Extractor) (fuel : Nat)
    (d d1 : Driver σ) (out out1 : List Byte) (e : Thrown)
    (h : doPacketExtraction ex fuel d out = .throw e (d1, out1)) :
    e = .length_error ∧ out1 = out ∧ d1.internal_buffer = d.internal_buffer ∧
      d1.internal_buffer_size = d.internal_buffer_size ∧
      d1.MAX_PACKET_SIZE = d.MAX_PACKET_SIZE ∧ d1.m_stream = d.m_stream ∧
      d1.m_extract_last = d.m_extract_last ∧ d1.m_stats.tx = d.m_stats.tx ∧
      (d.m_extract_last = false → d1 = d) := by
  have hd := doPacketExtraction_outcome True ex fuel d out
  rw [h] at hd
  obtain ⟨h1, h2, h3, h4, h5⟩ := hd
  refine ⟨h1, h2, ?_, ?_, ?_, ?_, ?_, h4.tx_eq, h5⟩
  all_goals rw [h3]

/-- A buffer whose first byte announces a packet of 5 bytes where 2 are there:
the extraction raises the length violation and leaves driver and output buffer
as they were. -/
theorem doPacketExtraction_failure_atomic_witness :
    doPacketExtraction declaredLength 3 (Driver.holding [5, 1] 8 false (none : Option Unit))
        (List.replicate 8 9) =
      .throw .length_error
        (Driver.holding [5, 1] 8 false (none : Option Unit), List.replicate 8 9) ∧
    (Driver.holding [5, 1] 8 false (none : Option Unit)).internal_buffer = [5, 1, 0, 0, 0, 0, 0, 0] :=
  ⟨by decide,
    (doPacketExtraction_failure_atomic declaredLength 3
      (Driver.holding [5, 1] 8 false (none : Option Unit))
      (Driver.holding [5, 1] 8 false (none : Option Unit)) (List.replicate 8 9)
      (List.replicate 8 9) .length_error (by decide)).2.2.1⟩

/-! ## A search that returns: the answers along its way -/

/-- With an extractor within its contract, the slice of every level of the
recursion of `findPacket` is a part of the buffer that is shorter than the
slice of the level before: at depth `k` at most `len - k` bytes are left, and
below the top level at least one. -/
theorem sliceAt_within (ex : Extractor) (hex : WithinBounds ex) (last : Bool) :
    ∀ (depth : Nat) (buffer buffer1 : List Byte) (n1 : Int),
      sliceAt ex last depth buffer buffer.length = some (buffer1, n1) →
        (buffer1.length : Int) = n1 ∧ n1 + depth ≤ buffer.length ∧ (0 < depth → 0 < n1) := by
  intro depth
  induction depth with
  | zero =>
    intro buffer buffer1 n1 hs
    simp only [sliceAt, Option.some.injEq, Prod.mk.injEq] at hs
    obtain ⟨rfl, rfl⟩ := hs
    simp
  | succ depth ih =>
    intro buffer buffer1 n1 hs
    have hb := hex buffer
    simp only [sliceAt, Int.toNat_ofNat, List.take_length] at hs
    generalize ex buffer buffer.length = r at hb hs
    have hlen : ∀ k : Nat, (k : Int) ≤ buffer.length →
        ((buffer.drop k).length : Int) = buffer.length - k := by
      intro k hk; rw [List.length_drop]; omega
    split_ifs at hs with h1 h2 h3 h4 h5 h6
    · have e2 : (buffer.length : Int) - r = ((buffer.drop r.toNat).length : Int) := by
        rw [hlen _ (by omega)]; omega
      rw [e2] at hs
      obtain ⟨a1, a2, a3⟩ := ih _ _ _ hs
      rw [← e2] at a2
      refine ⟨a1, by push_cast; omega, fun _ => ?_⟩
      rcases Nat.eq_zero_or_pos depth with hd | hd
      · subst hd
        simp only [sliceAt, Option.some.injEq, Prod.mk.injEq] at hs
        omega
      · exact a3 hd
    · have e2 : (buffer.length : Int) + r = ((buffer.drop (-r).toNat).length : Int) := by
        rw [hlen _ (by omega)]; omega
      rw [e2] at hs
      obtain ⟨a1, a2, a3⟩ := ih _ _ _ hs
      rw [← e2] at a2
      refine ⟨a1, by push_cast; omega, fun _ => ?_⟩
      rcases Nat.eq_zero_or_pos depth with hd | hd
      · subst hd
        simp only [sliceAt, Option.some.injEq, Prod.mk.injEq] at hs
        omega
      · exact a3 hd

/-- With an extractor within its contract and fuel for `len + 1` calls,
`findPacket` returns a view. -/
theorem findPacket_returns (ex : Extractor) (hex : WithinBounds ex) (last : Bool) :
    ∀ (fuel : Nat) (buffer : List Byte) (st : Status), buffer.length < fuel →
      ∃ (r : Int × Int) (st1 : Status),
        findPacket ex last fuel buffer buffer.length st = .ret r st1 := by
  intro fuel
  induction fuel with
  | zero => intro buffer st h; omega
  | succ fuel ih =>
    intro buffer st hfuel
    have hb := hex buffer
    have hlen : ∀ k : Nat, (k : Int) ≤ buffer.length →
        ((buffer.drop k).length : Int) = buffer.length - k := by
      intro k hk; rw [List.length_drop]; omega
    cases last
    · rw [findPacket_first_eq]
      simp only [Int.toNat_ofNat, List.take_length]
      generalize ex buffer buffer.length = r at hb
      split_ifs with h1 h2 h3 h4
      · omega
      · exact ⟨_, _, rfl⟩
      · exact ⟨_, _, rfl⟩
      · exact ⟨_, _, rfl⟩
      · have e2 : (buffer.length : Int) + r = ((buffer.drop (-r).toNat).length : Int) := by
          rw [hlen _ (by omega)]; omega
        obtain ⟨r1, st1, h⟩ := ih (buffer.drop (-r).toNat) st (by rw [List.length_drop]; omega)
        rw [e2, h]
        exact ⟨_, _, rfl⟩
    · rw [findPacket_last_eq]
      simp only [Int.toNat_ofNat, List.take_length]
      generalize ex buffer buffer.length = r at hb
      split_ifs with h1 h2 h3 h4 h5
      · omega
      · exact ⟨_, _, rfl⟩
      · exact ⟨_, _, rfl⟩
      · have e2 : (buffer.length : Int) - r = ((buffer.drop r.toNat).length : Int) := by
          rw [hlen _ (by omega)]; omega
        obtain ⟨r1, st1, h⟩ := ih (buffer.drop r.toNat) (countSegment st r)
          (by rw [List.length_drop]; omega)
        rw [e2, h]
        simp only
        split_ifs <;> exact ⟨_, _, rfl⟩
      · exact ⟨_, _, rfl⟩
      · have e2 : (buffer.length : Int) + r = ((buffer.drop (-r).toNat).length : Int) := by
          rw [hlen _ (by omega)]; omega
        obtain ⟨r1, st1, h⟩ := ih (buffer.drop (-r).toNat) (countSegment st r)
          (by rw [List.length_drop]; omega)
        rw [e2, h]
        simp only
        split_ifs <;> exact ⟨_, _, rfl⟩

/-- The slice of the level after `depth` is the slice that the call at level
`depth` hands on. -/
theorem sliceAt_succ (ex : Extractor) (last : Bool) :
    ∀ (depth : Nat) (buffer : List Byte) (n : Int),
      sliceAt ex last (depth + 1) buffer n =
        match sliceAt ex last depth buffer n with
        | some (b, m) => sliceAt ex last 1 b m
        | none => none := by
  intro depth
  induction depth with
  | zero => intro buffer n; rfl
  | succ depth ih =>
    intro buffer n
    conv_lhs => rw [sliceAt]
    conv_rhs => rw [sliceAt]
    split_ifs <;> first
      | rfl
      | exact ih _ _

/-- C24. `findPacket` terminates.  For every buffer of `len` bytes, in both
modes, with an extractor that answers every slice of `n` bytes with some `r`,
`-n ≤ r ≤ n`: fuel for `len + 1` calls of the extractor suffices, and the
search then returns a view (such an extractor gives no occasion for the length
violation).  The recursion is well-founded on the remaining length: the slice
of every level is a part of the buffer, strictly shorter than the slice of the
level before and, below the top level, not empty, so that a level `depth`
exists only for `depth < len` or `depth = 0`. -/
theorem findPacket_terminates (ex : Extractor) (hex : WithinBounds ex) (last : Bool)
    (buffer : List Byte) (st : Status) :
    (∀ (fuel : Nat), buffer.length + 1 ≤ fuel →
      ∃ (r : Int × Int) (st1 : Status),
        findPacket ex last fuel buffer buffer.length st = .ret r st1) ∧
    (∀ (depth : Nat) (buffer1 : List Byte) (n1 : Int),
      sliceAt ex last depth buffer buffer.length = some (buffer1, n1) →
        (buffer1.length : Int) = n1 ∧ n1 + depth ≤ buffer.length ∧ (0 < depth → 0 < n1)) ∧
    (∀ (depth : Nat) (buffer1 buffer2 : List Byte) (n1 n2 : Int),
      sliceAt ex last depth buffer buffer.length = some (buffer1, n1) →
      sliceAt ex last (depth + 1) buffer buffer.length = some (buffer2, n2) →
        0 < n2 ∧ n2 < n1) := by
  refine ⟨fun fuel hfuel => findPacket_returns ex hex last fuel buffer st (by omega),
    fun depth buffer1 n1 hs => sliceAt_within ex hex last depth buffer buffer1 n1 hs, ?_⟩
  intro depth buffer1 buffer2 n1 n2 h1 h2
  obtain ⟨a1, -, -⟩ := sliceAt_within ex hex last depth buffer buffer1 n1 h1
  obtain ⟨-, -, b3⟩ := sliceAt_within ex hex last (depth + 1) buffer buffer2 n2 h2
  rw [sliceAt_succ, h1] at h2
  simp only at h2
  rw [← a1] at h2
  obtain ⟨-, c2, -⟩ := sliceAt_within ex hex last 1 buffer1 buffer2 n2 h2
  refine ⟨b3 (Nat.succ_pos _), ?_⟩
  rw [← a1]
  push_cast at c2
  omega

/-- The search of `00 00 AA 01 02 03` by the extractor of the scenarios: 2
calls go one level down each, the third returns; fuel for 7 calls suffices. -/
theorem findPacket_terminates_witness :
    findPacket aaExtractor false 7 [0, 0, 0xAA, 1, 2, 3] 6 Status.init =
      .ret (2, 4) Status.init ∧
    sliceAt aaExtractor false 2 [0, 0, 0xAA, 1, 2, 3] 6 = some ([0xAA, 1, 2, 3], 4) ∧
    sliceAt aaExtractor false 3 [0, 0, 0xAA, 1, 2, 3] 6 = none ∧
    ∃ (r : Int × Int) (st1 : Status),
      findPacket aaExtractor true 7 [0, 0, 0xAA, 1, 2, 3] 6 Status.init = .ret r st1 :=
  ⟨by decide, by decide, by decide,
    (findPacket_terminates aaExtractor aaExtractor_withinBounds true [0, 0, 0xAA, 1, 2, 3]
      Status.init).1 7 (by decide)⟩

/-! ## First-match mode: the packets in the order in which they arrived -/

/-- `readPacket` in first-match mode on a buffer whose search yields a packet
of `l > 0` bytes at offset `s`: it returns that packet at once.  The `s` bytes
in front are discarded and counted in `bad_rx`, the packet is counted in
`good_rx`, and what follows the packet stays queued, in its order.  With a
stream attached the call has read the clock, and nothing else. -/
theorem readPacket_first_view {σ : Type} (io : IOStream σ) (ex : Extractor) (fuel0 fuel : Nat)
    (hfuel : fuel0 + 2 ≤ fuel) (d : Driver σ) (out : List Byte)
    (buffer_size packet_timeout first_byte_timeout : Int)
    (hcap : d.MAX_PACKET_SIZE ≤ buffer_size) (hmode : d.m_extract_last = false)
    (s l : Int) (st1 : Status)
    (hfit : d.internal_buffer_size ≤ d.internal_buffer.length)
    (hfind : findPacket ex false fuel0 d.internal_buffer d.internal_buffer_size d.m_stats =
      .ret (s, l) st1) (hl : 0 < l) :
    ∃ (d2 : Driver σ) (out2 : List Byte),
      readPacket io ex fuel d out buffer_size packet_timeout first_byte_timeout =
        .ret l (d2, out2) ∧
      out2.take l.toNat =
        ((d.internal_buffer.take d.internal_buffer_size.toNat).drop s.toNat).take l.toNat ∧
      out2.drop l.toNat = out.drop l.toNat ∧
      d2.internal_buffer_size = d.internal_buffer_size - s - l ∧
      d2.internal_buffer.take d2.internal_buffer_size.toNat =
        (d.internal_buffer.take d.internal_buffer_size.toNat).drop (s + l).toNat ∧
      d2.m_stats.good_rx = d.m_stats.good_rx + l ∧ d2.m_stats.bad_rx = d.m_stats.bad_rx + s ∧
      d2.internal_buffer.length = d.internal_buffer.length ∧
      d2.MAX_PACKET_SIZE = d.MAX_PACKET_SIZE ∧ d2.m_extract_last = false ∧
      (d.m_stream = none → d2.m_stream = none) ∧
      (∀ w, d.m_stream = some w → d2.m_stream = some (io.now w).2) := by
  obtain ⟨hn, hs, -, hsl⟩ := findPacket_ret_bounds ex _ _ _ _ _ _ _ hfind
  simp only at hs hsl
  have hpos : 0 < d.internal_buffer_size := by omega
  obtain ⟨f, rfl⟩ : ∃ f, fuel = f + 1 := ⟨fuel - 1, by omega⟩
  have h3 : findPacket ex false f d.internal_buffer d.internal_buffer_size d.m_stats =
      .ret (s, l) st1 := by
    rw [findPacket_fuel_le ex _ fuel0 f _ _ _ (by omega) (by rw [hfind]; simp), hfind]
  rw [readPacket]
  simp only [not_lt.mpr hcap, if_false]
  generalize (if first_byte_timeout > packet_timeout then (-1 : Int) else first_byte_timeout)
    = first_byte_timeout1
  rcases hst : d.m_stream with _ | w
  · simp only
    obtain ⟨d1, out1, a1, a2, a3, a4, a5, -, a7, -, a9, a10, a11, a12, -, -⟩ :=
      doPacketExtraction_spec ex f d out s l st1 hfit (by rw [hmode]; exact h3)
    rw [extractPacketFromInternalBuffer, extractPacketFromInternalBufferLoop]
    simp only [gt_iff_lt, hpos, if_true, a1, ne_eq, ne_of_gt hl, not_false_eq_true, false_or,
      a12.trans hmode]
    have hst1 := (a7 hmode).1
    refine ⟨d1, out1, rfl, a2, a3, a4, a5, by rw [hst1], by rw [hst1], a9, a10, a12.trans hmode,
      fun _ => a11.trans hst, fun w h => (by cases h)⟩
  · simp only
    obtain ⟨d0, hd0⟩ : ∃ d0 : Driver σ, d0 = { d with m_stream := some (io.now w).2 } :=
      ⟨_, rfl⟩
    have e1 : d0.internal_buffer = d.internal_buffer := by rw [hd0]
    have e2 : d0.internal_buffer_size = d.internal_buffer_size := by rw [hd0]
    have e3 : d0.m_stats = d.m_stats := by rw [hd0]
    have e4 : d0.m_extract_last = false := by rw [hd0]; exact hmode
    have e5 : d0.MAX_PACKET_SIZE = d.MAX_PACKET_SIZE := by rw [hd0]
    have e6 : d0.m_stream = some (io.now w).2 := by rw [hd0]
    obtain ⟨d1, out1, a1, a2, a3, a4, a5, -, a7, -, a9, a10, a11, a12, -, -⟩ :=
      doPacketExtraction_spec ex f d0 out s l st1 (by rw [e1, e2]; exact hfit)
        (by rw [e1, e2, e3, e4]; exact h3)
    have hint : readPacketInternal io ex f d0 out buffer_size = .ret (l, false) (d1, out1) := by
      rw [readPacketInternal]
      simp only [e5, e2, not_lt.mpr hcap, if_false, gt_iff_lt, hpos, if_true, a1, ne_eq,
        ne_of_gt hl, not_false_eq_true, true_and, a12.trans e4]
    rw [readPacketLoop]
    simp only [← hd0, hint, gt_iff_lt, hl, if_true]
    have hst1 := (a7 e4).1
    rw [e1, e2] at a2 a5
    rw [e2] at a4
    rw [e1] at a9
    rw [e3] at hst1
    refine ⟨d1, out1, rfl, a2, a3, a4, a5, by rw [hst1], by rw [hst1], a9, a10.trans e5,
      a12.trans e4, fun h => (by cases h), fun w' h => ?_⟩
    cases h
    exact a11.trans e6

/-- One read in first-match mode when the extractor answers a packet on what is
queued: the read returns that packet and what follows it stays queued. -/
theorem readPacket_first_packet {σ : Type} (io : IOStream σ) (ex : Extractor)
    (hex : WithinBounds ex) (fuel : Nat) (hfuel : 3 ≤ fuel) (d : Driver σ) (out : List Byte)
    (buffer_size packet_timeout first_byte_timeout : Int) (live : List Byte)
    (hold : d.Holds live) (hmode : d.m_extract_last = false)
    (hcap : d.MAX_PACKET_SIZE ≤ buffer_size) (hp : 0 < ex live live.length) :
    ∃ (d2 : Driver σ),
      readPacket io ex fuel d out buffer_size packet_timeout first_byte_timeout =
        .ret (ex live live.length)
          (d2, live.take (ex live live.length).toNat ++ out.drop (ex live live.length).toNat) ∧
      d2.Holds (live.drop (ex live live.length).toNat) ∧
      d2.m_extract_last = false ∧ d2.MAX_PACKET_SIZE = d.MAX_PACKET_SIZE ∧
      d2.m_stats.good_rx = d.m_stats.good_rx + ex live live.length ∧
      d2.m_stats.bad_rx = d.m_stats.bad_rx ∧
      (d.m_stream = none → d2.m_stream = none) ∧
      (∀ w, d.m_stream = some w → d2.m_stream = some (io.now w).2) := by
  obtain ⟨h1, h2, h3⟩ := hold
  have hle := (hex live).2
  have hview : d.internal_buffer.take d.internal_buffer_size.toNat = live := by
    rw [h1, Int.toNat_ofNat, h2]
  have hfind : findPacket ex false 1 d.internal_buffer d.internal_buffer_size d.m_stats =
      .ret (0, ex live live.length) d.m_stats := by
    rw [findPacket_first_eq, hview, h1, if_neg (by omega), if_neg (by omega), if_pos hp]
  have hfit : d.internal_buffer_size ≤ d.internal_buffer.length := by
    have := congrArg List.length h2
    rw [List.length_take] at this
    omega
  obtain ⟨d2, out2, a1, a2, a3, a4, a5, a6, a7, a8, a9, a10, a11, a12⟩ :=
    readPacket_first_view io ex 1 fuel (by omega) d out buffer_size packet_timeout
      first_byte_timeout hcap hmode 0 (ex live live.length) d.m_stats hfit hfind hp
  rw [hview] at a2 a5
  simp only [Int.toNat_zero, List.drop_zero, zero_add] at a2 a5
  have hout : out2 = live.take (ex live live.length).toNat ++
      out.drop (ex live live.length).toNat := by
    rw [← a2, ← a3, List.take_append_drop]
  subst hout
  refine ⟨d2, a1, ⟨?_, ?_, ?_⟩, a10, a9, a6, by rw [a7]; omega, a11, a12⟩
  · rw [a4, h1, List.length_drop]; omega
  · have hl : (live.drop (ex live live.length).toNat).length = d2.internal_buffer_size.toNat := by
      rw [a4, h1, List.length_drop]; omega
    rw [hl]; exact a5
  · rw [a8, a9]; exact h3

/-- Successive reads in first-match mode on back-to-back complete packets that
are queued: one read per packet, the packets in the order in which they
arrived, and then nothing is queued. -/
theorem Driver.run_first_match_packets {σ : Type} (io : IOStream σ) (ex : Extractor)
    (hex : WithinBounds ex) (fuel : Nat) (hfuel : 3 ≤ fuel) (out : List Byte)
    (buffer_size packet_timeout first_byte_timeout : Int) :
    ∀ (packets : List (List Byte)) (d : Driver σ), Framed ex packets →
      d.Holds packets.flatten → d.m_extract_last = false → d.MAX_PACKET_SIZE ≤ buffer_size →
      (Driver.run io ex fuel d
          (packets.map fun _ =>
            Op.read_packet out buffer_size packet_timeout first_byte_timeout)).1 =
        packets.map (fun p => Reply.packet p.length (p ++ out.drop p.length)) ∧
      (Driver.run io ex fuel d
          (packets.map fun _ =>
            Op.read_packet out buffer_size packet_timeout first_byte_timeout)).2.internal_buffer_size
        = 0 := by
  intro packets
  induction packets with
  | nil =>
    intro d _ hold _ _
    exact ⟨rfl, by simpa using hold.1⟩
  | cons p rest ih =>
    intro d hfr hold hmode hcap
    obtain ⟨hne, hans, hrest⟩ := hfr
    have hplen : 0 < p.length := List.length_pos.mpr hne
    have hflat : (p :: rest).flatten = p ++ rest.flatten := by simp
    rw [hflat] at hold
    have hans1 := hans (p ++ rest.flatten).length (le_refl _) (by
      rw [List.length_append]; omega)
    rw [List.take_length, if_pos (by rw [List.length_append]; omega)] at hans1
    obtain ⟨d2, a1, a2, a3, a4, -⟩ :=
      readPacket_first_packet io ex hex fuel hfuel d out buffer_size packet_timeout
        first_byte_timeout (p ++ rest.flatten) hold hmode hcap (by rw [hans1]; omega)
    rw [hans1] at a1 a2
    simp only [Int.toNat_ofNat, List.take_left', List.drop_left'] at a1 a2
    obtain ⟨b1, b2⟩ := ih d2 hrest a2 a3 (by rw [a4]; exact hcap)
    simp only [List.map_cons, Driver.run, Driver.call, a1]
    exact ⟨by rw [b1], b2⟩

/-- C2. In first-match mode, with an extractor that keeps within `-n ≤ r ≤ n`.
First, `findPacket` returns `(start, length)` where `start` is the sum of the
garbage counts `k1..km` the extractor reports on the successive suffixes of the
buffer, and `length` is the first non-negative answer reached after those
skips, or 0 when the skips use up the buffer; no counter changes; in particular
a positive first answer `p` gives `(0, p)`.  Second, when the extractor answers
a packet `p` on what is queued, `readPacket` returns `p` with the packet in
`out`, and what follows the packet stays queued.  Third, back-to-back complete
packets that are queued are delivered by successive reads, one packet per
read, in the order in which they arrived, and nothing is queued after the
last. -/
theorem findPacket_first_match {σ : Type} (io : IOStream σ) (ex : Extractor)
    (hex : WithinBounds ex) :
    (∀ (st : Status) (fuel : Nat) (buffer : List Byte), buffer.length < fuel →
      (∃ (ks : List Int) (l : Int),
        skipsAlong ex buffer ks ∧
        findPacket ex false fuel buffer buffer.length st = .ret (ks.sum, l) st ∧
        ks.sum ≤ buffer.length ∧
        ((ks ≠ [] ∧ ks.sum = buffer.length ∧ l = 0) ∨
          (0 ≤ l ∧ ex (buffer.drop ks.sum.toNat) (buffer.length - ks.sum) = l))) ∧
      (0 < ex buffer buffer.length →
        findPacket ex false fuel buffer buffer.length st =
          .ret (0, ex buffer buffer.length) st)) ∧
    (∀ (fuel : Nat) (d : Driver σ) (out : List Byte)
      (buffer_size packet_timeout first_byte_timeout : Int) (live : List Byte),
      3 ≤ fuel → d.Holds live → d.m_extract_last = false → d.MAX_PACKET_SIZE ≤ buffer_size →
      0 < ex live live.length →
      ∃ (d2 : Driver σ),
        readPacket io ex fuel d out buffer_size packet_timeout first_byte_timeout =
          .ret (ex live live.length)
            (d2, live.take (ex live live.length).toNat ++
              out.drop (ex live live.length).toNat) ∧
        d2.Holds (live.drop (ex live live.length).toNat) ∧
        d2.m_extract_last = false ∧ d2.MAX_PACKET_SIZE = d.MAX_PACKET_SIZE ∧
        d2.m_stats.good_rx = d.m_stats.good_rx + ex live live.length ∧
        d2.m_stats.bad_rx = d.m_stats.bad_rx) ∧
    (∀ (fuel : Nat) (out : List Byte) (buffer_size packet_timeout first_byte_timeout : Int)
      (packets : List (List Byte)) (d : Driver σ),
      3 ≤ fuel → Framed ex packets → d.Holds packets.flatten → d.m_extract_last = false →
      d.MAX_PACKET_SIZE ≤ buffer_size →
      (Driver.run io ex fuel d
          (packets.map fun _ =>
            Op.read_packet out buffer_size packet_timeout first_byte_timeout)).1 =
        packets.map (fun p => Reply.packet p.length (p ++ out.drop p.length)) ∧
      (Driver.run io ex fuel d
          (packets.map fun _ =>
            Op.read_packet out buffer_size packet_timeout first_byte_timeout)).2.internal_buffer_size
        = 0) := by
  refine ⟨fun st fuel buffer hf => findPacket_first_skips ex hex st fuel buffer hf, ?_, ?_⟩
  · intro fuel d out buffer_size packet_timeout first_byte_timeout live hfuel hold hmode hcap hp
    obtain ⟨d2, a1, a2, a3, a4, a5, a6, -⟩ :=
      readPacket_first_packet io ex hex fuel hfuel d out buffer_size packet_timeout
        first_byte_timeout live hold hmode hcap hp
    exact ⟨d2, a1, a2, a3, a4, a5, a6⟩
  · intro fuel out buffer_size packet_timeout first_byte_timeout packets d hfuel hfr hold hmode
      hcap
    exact Driver.run_first_match_packets io ex hex fuel hfuel out buffer_size packet_timeout
      first_byte_timeout packets d hfr hold hmode hcap

/-- Witness of C2, with the extractor of the scenarios.  Garbage `00 00` before
a packet gives the view `(2, 4)`.  Scenario 2 of the spec: a fresh framer in
first-match mode whose stream delivers `AA 1 2 3 AA 4 5 6` returns `AA 1 2 3`
from the first read and `AA 4 5 6` from the second, and then nothing is queued.
The same two packets, already queued, are returned by two reads in the same
order. -/
theorem findPacket_first_match_witness :
    findPacket aaExtractor false 7 [0, 0, 0xAA, 1, 2, 3] 6 Status.init
        = .ret (2, 4) Status.init ∧
    (Driver.run feedStream aaExtractor 20
        (Driver.holding [] 8 false (some { pending := [[0xAA, 1, 2, 3, 0xAA, 4, 5, 6]], clock := 0 }))
        [Op.read_packet (List.replicate 8 0) 8 10 10, Op.read_packet (List.replicate 8 0) 8 10 10,
         Op.status]).1 =
      [Reply.packet 4 [0xAA, 1, 2, 3, 0, 0, 0, 0], Reply.packet 4 [0xAA, 4, 5, 6, 0, 0, 0, 0],
       Reply.stats { tx := 0, good_rx := 8, bad_rx := 0, queued_bytes := 0 }] ∧
    ((∃ (ks : List Int) (l : Int),
        skipsAlong aaExtractor [0, 0, 0xAA, 1, 2, 3] ks ∧
        findPacket aaExtractor false 7 [0, 0, 0xAA, 1, 2, 3] 6 Status.init
          = .ret (ks.sum, l) Status.init ∧
        ks.sum ≤ 6 ∧
        ((ks ≠ [] ∧ ks.sum = 6 ∧ l = 0) ∨
          (0 ≤ l ∧ aaExtractor (List.drop ks.sum.toNat [0, 0, 0xAA, 1, 2, 3]) (6 - ks.sum) = l))) ∧
      (0 < aaExtractor [0, 0, 0xAA, 1, 2, 3] 6 →
        findPacket aaExtractor false 7 [0, 0, 0xAA, 1, 2, 3] 6 Status.init =
          .ret (0, aaExtractor [0, 0, 0xAA, 1, 2, 3] 6) Status.init)) ∧
    ((Driver.run feedStream aaExtractor 20
        (Driver.holding [0xAA, 1, 2, 3, 0xAA, 4, 5, 6] 8 false none)
        [Op.read_packet (List.replicate 8 0) 8 10 10,
         Op.read_packet (List.replicate 8 0) 8 10 10]).1 =
      [Reply.packet 4 [0xAA, 1, 2, 3, 0, 0, 0, 0], Reply.packet 4 [0xAA, 4, 5, 6, 0, 0, 0, 0]] ∧
     (Driver.run feedStream aaExtractor 20
        (Driver.holding [0xAA, 1, 2, 3, 0xAA, 4, 5, 6] 8 false none)
        [Op.read_packet (List.replicate 8 0) 8 10 10,
         Op.read_packet (List.replicate 8 0) 8 10 10]).2.internal_buffer_size = 0) :=
  ⟨by decide, by decide,
   (findPacket_first_match feedStream aaExtractor aaExtractor_withinBounds).1 Status.init 7
     [0, 0, 0xAA, 1, 2, 3] (by decide),
   (findPacket_first_match feedStream aaExtractor aaExtractor_withinBounds).2.2 20
     (List.replicate 8 0) 8 10 10 [[0xAA, 1, 2, 3], [0xAA, 4, 5, 6]]
     (Driver.holding [0xAA, 1, 2, 3, 0xAA, 4, 5, 6] 8 false none) (by decide)
     aaExtractor_framed ⟨rfl, rfl, rfl⟩ rfl (by decide)⟩

/-! ## The search with `int` on 32 bits -/

/-- A driver with another stream state fits as it did. -/
theorem Driver.Fits.stream {σ : Type} {d : Driver σ} (hf : d.Fits) (w : Option σ) :
    Driver.Fits ({ d with m_stream := w } : Driver σ) := hf

end ros_driver_base
